import Mathlib

/-!
A verification development for the `dpdp_rust` discrete-event simulator.

This file gives a shallow embedding in Lean 4 of the core of the
`dpdp_rust` repository (a discrete-event simulator for a dynamic
pickup-and-delivery problem) and proves or refutes a collection of
claims about it.

Modelling conventions:

* `chrono::NaiveDateTime` is modelled as `Int` (seconds); `chrono::Duration`
  as `Int` (seconds); `chrono::NaiveDate` as `Int` (days), with
  `NaiveDate::and_time` as `d * 86400 + t`.
* `f32` quantities (distances) are modelled as `Rat`.  No claim in this
  development depends on float rounding: distances are write-only
  accumulators for the properties considered here.
* Rust `BTreeMap` is modelled as an association list sorted by key
  (`MapT`); all in-place updates performed by the simulator are
  key-preserving, so iteration order matches the source's sorted order.
* A Rust panic (`assert!`, `panic!`, `unwrap`, or the `gets` helper of
  `model/mod.rs` which calls `expect`) is modelled by `Option`: `none`
  means the program aborts; no state is observable afterwards.
* `std::collections::BinaryHeap` (used by `EventQueue`) is embedded
  operation-by-operation: `push` is "append then sift up", `pop` is
  "swap the last element into the root, then sift down to the bottom
  and sift back up", with exactly the comparisons the Rust standard
  library performs (the hole optimisation does not change the resulting
  array, so swaps/writes are used here).
-/
/-! ## Association-list model of `BTreeMap` -/
/-- Rust `BTreeMap<K, V>` as an association list (sorted by key whenever the
simulator constructs it; every update the simulator performs is
key-preserving, so the sort order is maintained). -/
abbrev MapT (K V : Type) := List (K × V)

/-- `BTreeMap::get`. -/
def mget [BEq K] (m : MapT K V) (k : K) : Option V :=
  m.lookup k

/-- In-place update of the value at an existing key (the effect of writing
through `get_mut` / `gets_mut`); keys are unchanged. -/
def mset [BEq K] (m : MapT K V) (k : K) (v : V) : MapT K V :=
  m.map fun kv => if kv.1 == k then (kv.1, v) else kv

/-- Rust `assert!`: `none` models the panic. -/
def massert (b : Bool) : Option Unit :=
  if b then some () else none

/-! ## The binary heap of `std::collections::BinaryHeap`

`EventQueue<E>` (src/simulation/event_queue.rs) wraps a
`BinaryHeap<EventWrapper<E>>` where `EventWrapper` compares by
`Reverse(time)` only.  The heap is embedded generically over the
wrapper comparison `le : α → α → Bool` (`le x y` is Rust's `x <= y` on
wrappers). -/
/-- Swap the entries at two indices (both in range in every use). -/
def hSwap [Inhabited α] (l : List α) (i j : Nat) : List α :=
  (l.set i (l.getD j default)).set j (l.getD i default)

/-- The loop of `BinaryHeap::sift_up` (swap formulation of the hole loop):
while the element at `pos` is strictly greater than its parent, swap it up.
Structural recursion on a fuel argument (so concrete runs reduce in the
kernel); any fuel `≥ pos` gives the loop's behaviour because the hole
index strictly decreases. -/
def siftUpGo [Inhabited α] (le : α → α → Bool) (start : Nat) :
    Nat → List α → Nat → List α
  | 0, l, _ => l
  | fuel + 1, l, pos =>
    if pos ≤ start then l
    else
      let parent := (pos - 1) / 2
      if le (l.getD pos default) (l.getD parent default) then l
      else siftUpGo le start fuel (hSwap l pos parent) parent

/-- `BinaryHeap::sift_up` (fuel `pos` is sufficient: the hole index
strictly decreases, and at fuel zero `pos = 0 ≤ start`, where the loop
stops anyway). -/
def siftUp [Inhabited α] (le : α → α → Bool) (l : List α) (start pos : Nat) : List α :=
  siftUpGo le start pos l pos

/-- `BinaryHeap::push`: append, then sift the new element up from the end. -/
def hPush [Inhabited α] (le : α → α → Bool) (l : List α) (x : α) : List α :=
  siftUp le (l ++ [x]) 0 l.length

/-- The child selection of `sift_down_to_bottom`:
`child += (hole.get(child) <= hole.get(child + 1)) as usize`. -/
def pickChild [Inhabited α] (le : α → α → Bool) (l : List α) (child : Nat) : Nat :=
  if le (l.getD child default) (l.getD (child + 1) default) then child + 1 else child

/-- The descending loop of `BinaryHeap::sift_down_to_bottom`: the hole at
`pos` (whose element is carried separately; the slot content is stale)
moves to the greater child until it reaches the bottom
(`while child <= end.saturating_sub(2)`, then the final
`if child == end - 1` move).  Returns the shifted list together with the
final hole position.  Structural recursion on fuel; any fuel with
`l.length ≤ fuel + pos` gives the loop's behaviour (the hole index grows
by at least one per iteration, and once `l.length ≤ pos` both loop guards
are false, matching the fuel-zero result). -/
def siftDownGo [Inhabited α] (le : α → α → Bool) :
    Nat → List α → Nat → List α × Nat
  | 0, l, pos => (l, pos)
  | fuel + 1, l, pos =>
    if 2 * pos + 1 + 2 ≤ l.length then
      siftDownGo le fuel
        (l.set pos (l.getD (pickChild le l (2 * pos + 1)) default))
        (pickChild le l (2 * pos + 1))
    else if 2 * pos + 1 + 1 = l.length then
      (l.set pos (l.getD (2 * pos + 1) default), 2 * pos + 1)
    else
      (l, pos)

/-- The descending loop with its sufficient fuel `l.length`. -/
def siftDownLoop [Inhabited α] (le : α → α → Bool) (l : List α) (pos : Nat) :
    List α × Nat :=
  siftDownGo le l.length l pos

/-- `BinaryHeap::sift_down_to_bottom pos`: move the hole to the bottom, put
the carried element there and sift it back up (start bound `pos`). -/
def siftDownToBottom [Inhabited α] (le : α → α → Bool) (l : List α) (pos : Nat) :
    List α :=
  let x := l.getD pos default
  let lp := siftDownLoop le l pos
  siftUp le (lp.1.set lp.2 x) pos lp.2

/-- `BinaryHeap::pop`: remove the last element; if anything remains, swap it
with the root, return the old root and restore the heap with
`sift_down_to_bottom 0`. -/
def hPop [Inhabited α] (le : α → α → Bool) (l : List α) : Option α × List α :=
  match l.getLast? with
  | none => (none, l)
  | some item =>
    let rest := l.dropLast
    if rest.isEmpty then (some item, rest)
    else (some (rest.getD 0 default), siftDownToBottom le (rest.set 0 item) 0)

/-- `BinaryHeap::peek` returns the root. -/
def hPeek [Inhabited α] (l : List α) : Option α :=
  l.head?

/-! ### The heap-order invariant and its preservation

`EventWrapper`'s `Ord` instance is a total preorder (it compares only
`Reverse(time)`), so the lemmas below take totality and transitivity of
the comparison as hypotheses. -/
/-- The max-heap layout invariant of `BinaryHeap`: every non-root entry is
`<=` its parent `(i - 1) / 2`. -/
def HeapProp [Inhabited α] (le : α → α → Bool) (l : List α) : Prop :=
  ∀ i, 0 < i → i < l.length →
    le (l.getD i default) (l.getD ((i - 1) / 2) default) = true

/-- Almost-heap for `sift_up`: every edge except the one out of `pos` holds. -/
def SiftUpInvA [Inhabited α] (le : α → α → Bool) (l : List α) (pos : Nat) : Prop :=
  ∀ i, 0 < i → i < l.length → i ≠ pos →
    le (l.getD i default) (l.getD ((i - 1) / 2) default) = true

/-- Almost-heap for `sift_up`: the children of `pos` are dominated by the
parent of `pos` (so the element swapped down past `pos` keeps dominating
them). -/
def SiftUpInvB [Inhabited α] (le : α → α → Bool) (l : List α) (pos : Nat) : Prop :=
  0 < pos → ∀ c, c < l.length → (c - 1) / 2 = pos →
    le (l.getD c default) (l.getD ((pos - 1) / 2) default) = true

/-- An interaction with the `EventQueue`: `push` or `pop` (`peek` does not
change the state). -/
inductive QOp (α : Type) where
  | push (x : α)
  | pop

/-- Run a sequence of queue operations from the empty queue. -/
def runQOps [Inhabited α] (le : α → α → Bool) (ops : List (QOp α)) : List α :=
  ops.foldl (fun q op => match op with
    | QOp.push x => hPush le q x
    | QOp.pop => (hPop le q).2) []

/-! ## Static data model (src/model)

`FactoryId`, `VehicleId`, `OrderId` are newtype wrappers around `String` in
the source; they are modelled as `String` directly. -/
abbrev FactoryId := String

abbrev VehicleId := String

abbrev OrderId := String

/-- `model/order_item.rs` `OrderItemType` (Rust derives `Ord` with
declaration order `Standard < Small < Box`). -/
inductive OrderItemType where
  | Standard
  | Small
  | Box
deriving DecidableEq, Inhabited

/-- `OrderItemType::demand`. -/
def OrderItemType.demand : OrderItemType → Int
  | .Standard => 4
  | .Small => 2
  | .Box => 1

/-- `model/order_item.rs` `OrderItemId`. -/
structure OrderItemId where
  order_id : OrderId
  item_type : OrderItemType
  index : Int
deriving DecidableEq, Inhabited

/-- `model/order_item.rs` `OrderItem`.  `NaiveTime` fields are seconds of
day; `Duration` fields are seconds. -/
structure OrderItem where
  id : OrderItemId
  demand : Int
  creation_time : Int
  committed_completion_time : Int
  load_time : Int
  unload_time : Int
  pickup_id : FactoryId
  delivery_id : FactoryId
deriving DecidableEq, Inhabited

/-- `model/order.rs` `Order`.  The unused `demand` CSV column (an `f32`)
is modelled as `Rat`. -/
structure Order where
  order_id : OrderId
  q_standard : Int
  q_small : Int
  q_box : Int
  demand : Rat
  creation_time : Int
  committed_completion_time : Int
  load_time : Int
  unload_time : Int
  pickup_id : FactoryId
  delivery_id : FactoryId
deriving DecidableEq, Inhabited

/-- `NaiveDate::and_time`: dates are day numbers, times seconds of day. -/
def andTime (date : Int) (t : Int) : Int :=
  date * 86400 + t

/-- `Order::committed_completion_time(date)` (the method; the struct field of
the same name forces a different Lean name): anchored to `date`, pushed to
the next day when `creation_time > committed_completion_time`. -/
def Order.committedCompletionAt (o : Order) (date : Int) : Int :=
  let date_time := andTime date o.committed_completion_time
  if o.creation_time > o.committed_completion_time then date_time + 86400
  else date_time

/-- `Order::create_item`. -/
def Order.create_item (o : Order) (typ : OrderItemType) (index : Int) : OrderItem :=
  { id := { order_id := o.order_id, item_type := typ, index := index }
    demand := typ.demand
    creation_time := o.creation_time
    committed_completion_time := o.committed_completion_time
    load_time := o.load_time
    unload_time := o.unload_time
    pickup_id := o.pickup_id
    delivery_id := o.delivery_id }

/-- `Order::into_items`: expand the per-class counts (`for i in 0..q_c`). -/
def Order.into_items (o : Order) : List OrderItem :=
  ((List.range o.q_standard.toNat).map fun i => o.create_item .Standard i)
    ++ ((List.range o.q_small.toNat).map fun i => o.create_item .Small i)
    ++ ((List.range o.q_box.toNat).map fun i => o.create_item .Box i)

/-- `Order::calc_demand`. -/
def Order.calc_demand (o : Order) : Int :=
  o.q_standard * OrderItemType.Standard.demand
    + o.q_small * OrderItemType.Small.demand
    + o.q_box * OrderItemType.Box.demand

/-- `model/vehicle_info.rs` `VehicleInfo`. -/
structure VehicleInfo where
  car_num : VehicleId
  capacity : Int
  operation_time : Int
  gps_id : String
deriving DecidableEq, Inhabited

/-- `VehicleInfo::capacity()` (the method: the declared pallet capacity
times 4, in box units; named apart from the `capacity` field). -/
def VehicleInfo.capacityBoxes (v : VehicleInfo) : Int :=
  v.capacity * 4

/-- `model/factory_info.rs` `FactoryInfo` (coordinates are `f64`, modelled
as `Rat`; the kernel never reads them). -/
structure FactoryInfo where
  factory_id : FactoryId
  longitude : Rat
  latitude : Rat
  port_num : Int
deriving DecidableEq, Inhabited

/-- `model/route_info.rs` `SingleRoute` (an entry of `RouteMap`). -/
structure SingleRoute where
  route_code : String
  distance : Rat
  time : Int
deriving DecidableEq, Inhabited

/-- `chrono::Duration::MAX` in whole seconds (`i64::MAX` milliseconds). -/
def durationMaxSeconds : Int := 9223372036854775

/-- `f32::MAX` is exactly `2^128 - 2^104`. -/
def f32MAX : Rat := ((2:Int)^128 - (2:Int)^104 : Int)

/-- `chrono::NaiveDateTime::MAX` modelled as a large constant.  Its exact
value is irrelevant: the only use is `OrderItemState::delivered_irrelevant`,
whose payload is never inspected (the validator compares shadow states
against the payload-free variants only). -/
def naiveDateTimeMax : Int := 8210266876799

/-- `RouteMap::query_time`: zero on equal factories, `Duration::MAX` when
the pair is missing. -/
def queryTime (routes : MapT (FactoryId × FactoryId) SingleRoute)
    (f g : FactoryId) : Int :=
  if f == g then 0
  else match mget routes (f, g) with
    | some r => r.time
    | none => durationMaxSeconds

/-- `RouteMap::query_distance`: zero on equal factories, `f32::MAX` when the
pair is missing. -/
def queryDistance (routes : MapT (FactoryId × FactoryId) SingleRoute)
    (f g : FactoryId) : Rat :=
  if f == g then 0
  else match mget routes (f, g) with
    | some r => r.distance
    | none => f32MAX

/-! ## Events and plan vocabulary (src/simulation/sim_event.rs) -/
/-- `sim_event.rs` `VehicleWork`. -/
structure VehicleWork where
  load_items : List OrderItemId
  unload_items : List OrderItemId
  load_time : Int
  unload_time : Int
deriving DecidableEq, Inhabited

/-- Sum of `order_items.gets(i).demand` over a list (`gets` panics on a
missing id, hence `Option`). -/
def sumDemands (order_items : MapT OrderItemId OrderItem) :
    List OrderItemId → Option Int
  | [] => some 0
  | i :: rest => do
    let info ← mget order_items i
    let s ← sumDemands order_items rest
    pure (info.demand + s)

/-- `VehicleWork::new`: derived times are one minute per box unit. -/
def VehicleWork.new (order_items : MapT OrderItemId OrderItem)
    (pickup_items delivery_items : List OrderItemId) : Option VehicleWork := do
  let lt ← sumDemands order_items pickup_items
  let ut ← sumDemands order_items delivery_items
  pure { load_items := pickup_items
         unload_items := delivery_items
         load_time := 60 * lt
         unload_time := 60 * ut }

/-- `VehicleWork::delta_demand`. -/
def VehicleWork.delta_demand (w : VehicleWork)
    (order_items : MapT OrderItemId OrderItem) : Option Int := do
  let lo ← sumDemands order_items w.load_items
  let ul ← sumDemands order_items w.unload_items
  pure (lo - ul)

/-- `VehicleWork::merge`. -/
def VehicleWork.merge (w other : VehicleWork) : VehicleWork :=
  { load_items := w.load_items ++ other.load_items
    unload_items := w.unload_items ++ other.unload_items
    load_time := w.load_time + other.load_time
    unload_time := w.unload_time + other.unload_time }

/-- `simulator.rs` `VehicleRoute`. -/
structure VehicleRoute where
  destination : FactoryId
  work : VehicleWork
deriving DecidableEq, Inhabited

/-- `VehicleRoute::try_merge`: `.ok` carries the updated receiver (the
mutated `self`), `.error` gives the argument back unchanged. -/
def VehicleRoute.tryMerge (self route : VehicleRoute) :
    Except VehicleRoute VehicleRoute :=
  if self.destination == route.destination then
    .ok { self with work := self.work.merge route.work }
  else
    .error route

/-- `sim_event.rs` `SimulatorEventData`. -/
inductive SimulatorEventData where
  | OrderArrival (order_id : OrderId) (order_item_ids : List OrderItemId)
  | VehicleArrival (vehicle_id : VehicleId) (factory_id : FactoryId) (work : VehicleWork)
  | VehicleApproachedDock (vehicle_id : VehicleId) (factory_id : FactoryId) (work : VehicleWork)
  | FinishLoading (vehicle_id : VehicleId) (factory_id : FactoryId) (delivered_items : List OrderItemId)
  | UpdateTimestep
deriving DecidableEq, Inhabited

/-- `SimEvent = (SimulatorEventData, NaiveDateTime)`. -/
abbrev SimEvent := SimulatorEventData × Int

/-- The `EventWrapper` comparison (`Ord` on `Reverse(time)` only):
`x <= y` on wrappers iff `y.time <= x.time`. -/
def ele (x y : SimEvent) : Bool := decide (y.2 ≤ x.2)

/-! ## Mutable entities and the simulator state (src/simulation/simulator.rs) -/
/-- `VehiclePosition`. -/
inductive VehiclePosition where
  | Idle (f : FactoryId)
  | DoingWork (f : FactoryId)
  | Transporting (f g : FactoryId)
deriving DecidableEq, Inhabited

/-- `OrderItemState`. -/
inductive OrderItemState where
  | Unavailable
  | Unallocated
  | Allocated
  | PickedUp
  | Delivered (deadline : Int) (deliver_time : Int)
deriving DecidableEq, Inhabited

/-- `OrderItemState::delivered(from, to)`. -/
def OrderItemState.delivered (f t : Int) : OrderItemState := .Delivered f t

/-- `OrderItemState::delivered_irrelevant()` (both payloads
`NaiveDateTime::MAX`). -/
def OrderItemState.delivered_irrelevant : OrderItemState :=
  OrderItemState.delivered naiveDateTimeMax naiveDateTimeMax

/-- `VehicleState`.  `item_stack` / `allocated_item_stack` are `Vec`s used
as stacks: the top is the LAST element.  `current_route` is a `VecDeque`
whose front is the head. -/
structure VehicleState where
  position : VehiclePosition
  item_stack : List OrderItemId
  allocated_item_stack : List OrderItemId
  current_route : List VehicleRoute
deriving DecidableEq, Inhabited

/-- `VehicleState::new`. -/
def VehicleState.new (factory_id : FactoryId) : VehicleState :=
  { position := .Idle factory_id
    item_stack := []
    allocated_item_stack := []
    current_route := [] }

/-- `FactoryState`; `queue` is a FIFO `VecDeque` (front = head). -/
structure FactoryState where
  num_avail_docks : Int
  queue : List (VehicleId × VehicleWork)
deriving DecidableEq, Inhabited

/-- `FactoryState::new`. -/
def FactoryState.new (num_avail_docks : Int) : FactoryState :=
  { num_avail_docks := num_avail_docks, queue := [] }

/-- The `Simulator` struct.  The boxed `scheduler` and the `callbacks` are
not state: the scheduler is a parameter of the transition functions and
callbacks only observe.  `tick` is a ghost counter indexing the
`Instant::now` oracle used to model the measured scheduling wall time. -/
structure SimState where
  routes : MapT (FactoryId × FactoryId) SingleRoute
  factories : MapT FactoryId FactoryInfo
  vehicles : MapT VehicleId VehicleInfo
  orders : MapT OrderId Order
  order_items : MapT OrderItemId OrderItem
  initial_date : Int
  time_interval : Int
  vehicle_states : MapT VehicleId VehicleState
  factory_states : MapT FactoryId FactoryState
  order_item_states : MapT OrderItemId OrderItemState
  dock_approaching_time : Int
  events : List SimEvent
  total_distance : Rat
  total_distance_last_timeslot : Rat
  tick : Nat

/-- A plan: `MapType<VehicleId, Vec<VehicleRoute>>`. -/
abbrev Plan := MapT VehicleId (List VehicleRoute)

/-- Writing through `gets_mut`: panics (`none`) when the key is absent. -/
def msetChecked [BEq K] (m : MapT K V) (k : K) (v : V) : Option (MapT K V) :=
  match mget m k with
  | none => none
  | some _ => some (mset m k v)

/-- Iterated `gets_mut` writes of one value over a list of keys. -/
def msetAllChecked [BEq K] (m : MapT K V) (ks : List K) (v : V) :
    Option (MapT K V) :=
  ks.foldlM (fun acc k => msetChecked acc k v) m

/-- `Simulator::fork` restricted to what is state: with a deadline, retain
only orders and items created up to it; everything else is copied.  The
supplied scheduler and cloned callbacks are not part of `SimState`. -/
def SimState.fork (s : SimState) (static_deadline : Option Int) : SimState :=
  match static_deadline with
  | none => s
  | some dl =>
    { s with
      orders := s.orders.filter fun kv =>
        decide (andTime s.initial_date kv.2.creation_time ≤ dl)
      order_items := s.order_items.filter fun kv =>
        decide (andTime s.initial_date kv.2.creation_time ≤ dl) }

/-! ## Plan deduplication (src/schedule/mod.rs) -/
/-- One iteration of the `deduplicate` inner loop: try to merge the route
into the last route of the rebuilt plan, else push it. -/
def dedupPush (plan : List VehicleRoute) (route : VehicleRoute) :
    List VehicleRoute :=
  match plan.getLast? with
  | none => plan ++ [route]
  | some tail =>
    match tail.tryMerge route with
    | .ok tail' => plan.dropLast ++ [tail']
    | .error route' => plan ++ [route']

/-- `deduplicate` on one vehicle's route list. -/
def dedupRoutes (routes : List VehicleRoute) : List VehicleRoute :=
  routes.foldl dedupPush []

/-- `schedule::deduplicate` (applies to every value of the plan map). -/
def deduplicate (plans : Plan) : Plan :=
  plans.map fun kv => (kv.1, dedupRoutes kv.2)

/-! ## The plan validator (src/simulation/simulator.rs `check_planned_routes`)

The validator returns `anyhow` errors with distinct messages; these are
embedded as the typed reasons below.  `none` models a panic (the `gets`
helper or an `assert!`) as everywhere else. -/
/-- The distinct `anyhow!` error sites of the validator. -/
inductive PlanError where
  | InvalidVehicleId
  | CapacityViolation
  | LifoViolation
  | InvalidItemId
  | WrongDeliveryLocation
  | UnloadingUnready
  | WrongPickupLocation
  | LoadingUnready
  | InvalidOrderId
  | OrderSplit
deriving DecidableEq

/-- Validator results: `none` is a panic, `some (.error e)` a returned
rejection, `some (.ok a)` success. -/
abbrev VRes (α : Type) := Option (Except PlanError α)

def vOk (a : α) : VRes α := some (.ok a)

def vErr (e : PlanError) : VRes α := some (.error e)

def vbind (x : VRes α) (f : α → VRes β) : VRes β :=
  match x with
  | none => none
  | some (.error e) => some (.error e)
  | some (.ok a) => f a

def vlift (o : Option α) : VRes α := o.map .ok

/-- The distinct order ids referenced by a list of item ids
(`HashSet<OrderId>`; its iteration order is unspecified in Rust, and no
embedded result depends on it). -/
def orderIdsOf (item_ids : List OrderItemId) : List OrderId :=
  (item_ids.map (fun i => i.order_id)).dedup

/-- The loop body of `check_order_split` over the collected order ids. -/
def checkSplitOrders (orders : MapT OrderId Order)
    (item_ids : List OrderItemId) (capacity : Int) :
    List OrderId → VRes Unit
  | [] => vOk ()
  | oid :: rest =>
    match mget orders oid with
    | none => vErr .InvalidOrderId
    | some order =>
      if order.calc_demand ≤ capacity then
        if (order.into_items).any (fun item => !(item_ids.contains item.id)) then
          vErr .OrderSplit
        else checkSplitOrders orders item_ids capacity rest
      else checkSplitOrders orders item_ids capacity rest

/-- `Simulator::check_order_split`. -/
def check_order_split (orders : MapT OrderId Order)
    (item_ids : List OrderItemId) (capacity : Int) : VRes Unit :=
  checkSplitOrders orders item_ids capacity (orderIdsOf item_ids)

/-- The unload loop of `check_planned_routes` for one route.  The caller
passes `route.work.unload_items.reverse` (the `.iter().rev()` traversal);
the shadow stack pops from its end. -/
def checkUnloads (order_items : MapT OrderItemId OrderItem)
    (dest : FactoryId) :
    List OrderItemId → List OrderItemId → MapT OrderItemId OrderItemState →
    VRes (List OrderItemId × MapT OrderItemId OrderItemState)
  | [], stack, istates => vOk (stack, istates)
  | item :: rest, stack, istates =>
    match stack.getLast? with
    | none => vErr .LifoViolation
    | some top =>
      if top == item then
        match mget order_items item with
        | none => vErr .InvalidItemId
        | some item_info =>
          if item_info.delivery_id != dest then vErr .WrongDeliveryLocation
          else
            match mget istates item with
            | none => vErr .InvalidItemId
            | some st =>
              if st ≠ OrderItemState.Allocated ∧ st ≠ OrderItemState.PickedUp then
                vErr .UnloadingUnready
              else
                checkUnloads order_items dest rest stack.dropLast
                  (mset istates item OrderItemState.delivered_irrelevant)
      else vErr .LifoViolation

/-- The load loop of `check_planned_routes` for one route.  Note the
catalog lookup is `gets` (a panic on an unknown id), unlike the unload
loop. -/
def checkLoads (order_items : MapT OrderItemId OrderItem)
    (dest : FactoryId) :
    List OrderItemId → List OrderItemId → MapT OrderItemId OrderItemState →
    VRes (List OrderItemId × MapT OrderItemId OrderItemState)
  | [], stack, istates => vOk (stack, istates)
  | item :: rest, stack, istates =>
    match mget order_items item with
    | none => none
    | some item_info =>
      if item_info.pickup_id != dest then vErr .WrongPickupLocation
      else
        match mget istates item with
        | none => vErr .InvalidItemId
        | some st =>
          if st ≠ OrderItemState.Unallocated then vErr .LoadingUnready
          else
            checkLoads order_items dest rest (stack ++ [item])
              (mset istates item OrderItemState.PickedUp)

/-- The per-route body of `check_planned_routes`. -/
def checkRoute (orders : MapT OrderId Order)
    (order_items : MapT OrderItemId OrderItem) (capacity : Int)
    (route : VehicleRoute) (total_demand : Int) (stack : List OrderItemId)
    (istates : MapT OrderItemId OrderItemState) :
    VRes (Int × List OrderItemId × MapT OrderItemId OrderItemState) :=
  vbind (vlift (route.work.delta_demand order_items)) fun delta =>
  let td := total_demand + delta
  if td > capacity then vErr .CapacityViolation
  else
    vbind (checkUnloads order_items route.destination
        route.work.unload_items.reverse stack istates) fun su =>
    vbind (checkLoads order_items route.destination
        route.work.load_items su.1 su.2) fun sl =>
    vbind (check_order_split orders route.work.load_items capacity) fun _ =>
    vbind (check_order_split orders route.work.unload_items capacity) fun _ =>
    vOk (td, sl.1, sl.2)

/-- The route loop of `check_planned_routes` for one vehicle. -/
def checkRoutes (orders : MapT OrderId Order)
    (order_items : MapT OrderItemId OrderItem) (capacity : Int) :
    List VehicleRoute → Int → List OrderItemId →
    MapT OrderItemId OrderItemState → VRes Unit
  | [], _, _, _ => vOk ()
  | r :: rs, td, stack, istates =>
    vbind (checkRoute orders order_items capacity r td stack istates) fun out =>
    checkRoutes orders order_items capacity rs out.1 out.2.1 out.2.2

/-- The vehicle loop of `check_planned_routes` (plan entries in map
order). -/
def checkVehiclePlans (s : SimState) :
    List (VehicleId × List VehicleRoute) → VRes Unit
  | [] => vOk ()
  | (vehicle_id, routes) :: rest =>
    match mget s.vehicles vehicle_id with
    | none => vErr .InvalidVehicleId
    | some info =>
      match mget s.vehicle_states vehicle_id with
      | none => vErr .InvalidVehicleId
      | some state =>
        vbind (vlift (sumDemands s.order_items state.allocated_item_stack)) fun td =>
        vbind (vlift (massert (decide (td ≤ info.capacityBoxes)))) fun _ =>
        vbind (checkRoutes s.orders s.order_items info.capacityBoxes routes td
          state.allocated_item_stack s.order_item_states) fun _ =>
        checkVehiclePlans s rest

/-- `Simulator::check_planned_routes`. -/
def check_planned_routes (s : SimState) (plan : Plan) : VRes Unit :=
  checkVehiclePlans s plan

/-! ## Event handlers (src/simulation/simulator.rs) -/
/-- Modelled from the spec: `OrderItem::committed_completion_time(date)` is
called at simulator.rs line 714 (`handle_finish_load`) but the method's
definition is not under src/ (the crate's `lib.rs` module root is also
absent from the snapshot).  Per the spec, times are anchored to
`initial_date` and "If `committed_completion_time < creation_time`, the
deadline is interpreted on `initial_date+1`" — the same rule as
`Order::committed_completion_time`, from which `OrderItem` inherits both
temporal fields verbatim (`Order::create_item`). -/
def OrderItem.committedCompletionAt (it : OrderItem) (date : Int) : Int :=
  let date_time := andTime date it.committed_completion_time
  if it.creation_time > it.committed_completion_time then date_time + 86400
  else date_time

/-- The unload loop of `begin_vehicle_loading`
(`while let Some(item) = work.unload_items.pop()`): the caller passes the
reversed unload list; each popped item must equal the stack top
(`assert!`), and is appended to `delivered_items` in pop order. -/
def popUnloadsRev (stack : List OrderItemId) :
    List OrderItemId → Option (List OrderItemId × List OrderItemId)
  | [] => some (stack, [])
  | item :: rest =>
    match stack.getLast? with
    | none => none
    | some top =>
      if top == item then do
        let out ← popUnloadsRev stack.dropLast rest
        pure (out.1, item :: out.2)
      else none

/-- The unload loop of `begin_vehicle_transporting` on the allocated stack
(`for unload_item in route.work.unload_items.iter().rev()` with
`assert!`-checked pops); the caller passes the reversed list. -/
def popMatching (stack : List OrderItemId) :
    List OrderItemId → Option (List OrderItemId)
  | [] => some stack
  | item :: rest =>
    match stack.getLast? with
    | none => none
    | some top =>
      if top == item then popMatching stack.dropLast rest
      else none

/-- Σ `order_items.gets(id).unload_time` over a list (`gets` panics). -/
def sumUnloadTimes (order_items : MapT OrderItemId OrderItem) :
    List OrderItemId → Option Int
  | [] => some 0
  | i :: rest => do
    let info ← mget order_items i
    let s ← sumUnloadTimes order_items rest
    pure (info.unload_time + s)

/-- `Simulator::begin_vehicle_loading`. -/
def begin_vehicle_loading (s : SimState) (vehicle_id : VehicleId)
    (factory_id : FactoryId) (work : VehicleWork) (time : Int) :
    Option SimState := do
  let state ← mget s.vehicle_states vehicle_id
  let _ ← massert (decide (state.position = VehiclePosition.DoingWork factory_id))
  let out ← popUnloadsRev state.item_stack work.unload_items.reverse
  let istates ← msetAllChecked s.order_item_states work.load_items
    OrderItemState.PickedUp
  let stack := out.1 ++ work.load_items
  let total_demand ← sumDemands s.order_items stack
  let info ← mget s.vehicles vehicle_id
  let _ ← massert (decide (total_demand ≤ info.capacityBoxes))
  let total_time := work.load_time + work.unload_time
  pure { s with
    vehicle_states := mset s.vehicle_states vehicle_id
      { state with item_stack := stack }
    order_item_states := istates
    events := hPush ele s.events
      (SimulatorEventData.FinishLoading vehicle_id factory_id out.2,
        time + total_time) }

/-- `Simulator::begin_vehicle_transporting`. -/
def begin_vehicle_transporting (s : SimState) (vehicle_id : VehicleId)
    (factory_id : FactoryId) (route : VehicleRoute) (time : Int) :
    Option SimState := do
  let istates ← msetAllChecked s.order_item_states route.work.load_items
    OrderItemState.Allocated
  let total_time := queryTime s.routes factory_id route.destination
  let state ← mget s.vehicle_states vehicle_id
  let _ ← massert (decide (state.position = VehiclePosition.Idle factory_id))
  let dist := s.total_distance + queryDistance s.routes factory_id route.destination
  let astack ← popMatching state.allocated_item_stack
    route.work.unload_items.reverse
  pure { s with
    order_item_states := istates
    total_distance := dist
    vehicle_states := mset s.vehicle_states vehicle_id
      { state with
        position := VehiclePosition.Transporting factory_id route.destination
        allocated_item_stack := astack ++ route.work.load_items }
    events := hPush ele s.events
      (SimulatorEventData.VehicleArrival vehicle_id route.destination route.work,
        time + total_time) }

/-- `Simulator::handle_order_arrival`. -/
def handle_order_arrival (s : SimState)
    (order_item_ids : List OrderItemId) : Option SimState := do
  let istates ← msetAllChecked s.order_item_states order_item_ids
    OrderItemState.Unallocated
  pure { s with order_item_states := istates }

/-- `Simulator::handle_vehicle_arrival`. -/
def handle_vehicle_arrival (s : SimState) (vehicle_id : VehicleId)
    (factory_id : FactoryId) (work : VehicleWork) (time : Int) :
    Option SimState := do
  let state ← mget s.vehicle_states vehicle_id
  let _ ← massert (match state.position with
    | VehiclePosition.Transporting _ dest => dest == factory_id
    | _ => false)
  pure { s with
    vehicle_states := mset s.vehicle_states vehicle_id
      { state with position := VehiclePosition.DoingWork factory_id }
    events := hPush ele s.events
      (SimulatorEventData.VehicleApproachedDock vehicle_id factory_id work,
        time + s.dock_approaching_time) }

/-- `Simulator::handle_vehicle_approached_dock`. -/
def handle_vehicle_approached_dock (s : SimState) (vehicle_id : VehicleId)
    (factory_id : FactoryId) (work : VehicleWork) (time : Int) :
    Option SimState := do
  let fstate ← mget s.factory_states factory_id
  if fstate.num_avail_docks == 0 then
    pure { s with
      factory_states := mset s.factory_states factory_id
        { fstate with queue := fstate.queue ++ [(vehicle_id, work)] } }
  else
    begin_vehicle_loading
      { s with
        factory_states := mset s.factory_states factory_id
          { fstate with num_avail_docks := fstate.num_avail_docks - 1 } }
      vehicle_id factory_id work time

/-- The per-item `Delivered` writes of `handle_finish_load`. -/
def setDelivered (order_items : MapT OrderItemId OrderItem)
    (initial_date dock_approaching_time unload_time time : Int) :
    MapT OrderItemId OrderItemState → List OrderItemId →
    Option (MapT OrderItemId OrderItemState)
  | istates, [] => some istates
  | istates, item :: rest => do
    let item_info ← mget order_items item
    let istates' ← msetChecked istates item
      (OrderItemState.delivered
        (item_info.committedCompletionAt initial_date)
        (time - dock_approaching_time - unload_time))
    setDelivered order_items initial_date dock_approaching_time unload_time
      time istates' rest

/-- The dock-handover step of `handle_finish_load`: hand the freed dock to
the first queued vehicle (beginning its loading), else release it. -/
def dockHandover (s : SimState) (factory_id : FactoryId)
    (factory : FactoryState) (time : Int) : Option SimState :=
  match factory.queue with
  | (vid', work') :: qrest =>
    begin_vehicle_loading
      { s with factory_states :=
          (mset s.factory_states factory_id { factory with queue := qrest }) }
      vid' factory_id work' time
  | [] =>
    pure { s with factory_states :=
      (mset s.factory_states factory_id
        { factory with num_avail_docks := factory.num_avail_docks + 1 }) }

/-- `Simulator::handle_finish_load`. -/
def handle_finish_load (s : SimState) (vehicle_id : VehicleId)
    (factory_id : FactoryId) (delivered_items : List OrderItemId)
    (time : Int) : Option SimState := do
  let factory ← mget s.factory_states factory_id
  let s1 ← dockHandover s factory_id factory time
  let unload_time ← sumUnloadTimes s1.order_items delivered_items
  let istates ← setDelivered s1.order_items s1.initial_date
    s1.dock_approaching_time unload_time time s1.order_item_states
    delivered_items
  let state ← mget s1.vehicle_states vehicle_id
  let _ ← massert (decide (state.position = VehiclePosition.DoingWork factory_id))
  match state.current_route with
  | dest :: rest =>
    begin_vehicle_transporting
      { s1 with
        order_item_states := istates
        vehicle_states := mset s1.vehicle_states vehicle_id
          { state with position := VehiclePosition.Idle factory_id
                       current_route := rest } }
      vehicle_id factory_id dest time
  | [] =>
    pure { s1 with
      order_item_states := istates
      vehicle_states := mset s1.vehicle_states vehicle_id
        { state with position := VehiclePosition.Idle factory_id } }

/-! ## Scheduler gateway, timestep handler, and the event loop -/
/-- `schedule::SchedulerArgs`. -/
structure SchedulerArgs where
  items : MapT OrderItemId OrderItem
  item_states : MapT OrderItemId OrderItemState
  vehicle_stacks : MapT VehicleId (List OrderItemId)
  vehicle_positions : MapT VehicleId VehiclePosition
  static_simulator : SimState
  time : Int
  elapsed_distance : Rat

/-- A scheduler (`Box<dyn Scheduler>`): an arbitrary function from the
dispatch arguments to a plan. -/
abbrev SchedulerFn := SchedulerArgs → Plan

/-- The filtered item view built by `handle_timestep`: every item whose
state is not `Unavailable`, paired with its catalog entry (`gets`). -/
def collectItems (catalog : MapT OrderItemId OrderItem) :
    List (OrderItemId × OrderItemState) → Option (MapT OrderItemId OrderItem)
  | [] => some []
  | (id, st) :: rest =>
    if st = OrderItemState.Unavailable then collectItems catalog rest
    else do
      let info ← mget catalog id
      let tail ← collectItems catalog rest
      pure ((id, info) :: tail)

/-- The plan-installation loop of `handle_timestep`: replace each planned
vehicle's route queue; if the vehicle is idle, pop the head and begin
transporting immediately. -/
def installPlans (time : Int) :
    SimState → List (VehicleId × List VehicleRoute) → Option SimState
  | s, [] => some s
  | s, (vehicle_id, routes) :: rest => do
    let state ← mget s.vehicle_states vehicle_id
    match state.position, routes with
    | VehiclePosition.Idle start, dest :: rs => do
      let s' ← begin_vehicle_transporting
        { s with vehicle_states :=
            (mset s.vehicle_states vehicle_id { state with current_route := rs }) }
        vehicle_id start dest time
      installPlans time s' rest
    | _, _ =>
      installPlans time
        { s with vehicle_states :=
            (mset s.vehicle_states vehicle_id { state with current_route := routes }) }
        rest

/-- Is an item state `Delivered`? -/
def OrderItemState.isDelivered : OrderItemState → Bool
  | .Delivered _ _ => true
  | _ => false

/-- The arguments assembled by `handle_timestep` for the scheduler (`none`
when building the item view panics). -/
def mkSchedulerArgs (s : SimState) (time : Int) : Option SchedulerArgs := do
  let items ← collectItems s.order_items s.order_item_states
  pure
    { items := items
      item_states := s.order_item_states
      vehicle_stacks := s.vehicle_states.map (fun kv => (kv.1, kv.2.allocated_item_stack))
      vehicle_positions := s.vehicle_states.map (fun kv => (kv.1, kv.2.position))
      static_simulator := s.fork (some time)
      time := time
      elapsed_distance := s.total_distance - s.total_distance_last_timeslot }

/-- `Simulator::handle_timestep`.  `wall` is the `Instant::now` oracle: the
measured wall-clock nanoseconds of the `tick`-th scheduler call, so
`intervals = 1 + d / time_interval` as in the source.  An invalid plan is
`panic!`, hence `none`. -/
def handle_timestep (sched : SchedulerFn) (wall : Nat → Nat) (s : SimState)
    (time : Int) : Option SimState := do
  let s0 := { s with
    total_distance_last_timeslot := s.total_distance
    tick := s.tick + 1 }
  let args ← mkSchedulerArgs s0 time
  let planned_routes := sched args
  let intervals : Int :=
    1 + Int.ofNat (wall s.tick / (s0.time_interval.toNat * 1000000000))
  match check_planned_routes s0 planned_routes with
  | none => none
  | some (.error _) => none
  | some (.ok _) => do
    let s1 ← installPlans time s0 planned_routes
    if s1.order_item_states.any (fun kv => !kv.2.isDelivered) then
      pure { s1 with events :=
        (hPush ele s1.events
          (SimulatorEventData.UpdateTimestep,
            time + s1.time_interval * intervals)) }
    else
      pure s1

/-- `Simulator::handle_event` (the callback broadcast does not mutate the
state and the `println!`s are I/O only). -/
def handle_event (sched : SchedulerFn) (wall : Nat → Nat) (s : SimState)
    (event_data : SimulatorEventData) (time : Int) : Option SimState :=
  match event_data with
  | SimulatorEventData.OrderArrival _ ids => handle_order_arrival s ids
  | SimulatorEventData.VehicleArrival v f w => handle_vehicle_arrival s v f w time
  | SimulatorEventData.VehicleApproachedDock v f w =>
    handle_vehicle_approached_dock s v f w time
  | SimulatorEventData.FinishLoading v f d => handle_finish_load s v f d time
  | SimulatorEventData.UpdateTimestep => handle_timestep sched wall s time

/-- `Simulator::simulate_step`: pop one event (if any) and dispatch it. -/
def simulate_step (sched : SchedulerFn) (wall : Nat → Nat) (s : SimState) :
    Option SimState :=
  match hPop ele s.events with
  | (some et, rest) => handle_event sched wall { s with events := rest } et.1 et.2
  | (none, _) => some s

/-- `n` iterations of `simulate_step`. -/
def stepN (sched : SchedulerFn) (wall : Nat → Nat) :
    Nat → SimState → Option SimState
  | 0, s => some s
  | n + 1, s => do stepN sched wall n (← simulate_step sched wall s)

/-- `n` iterations of `simulate_step`, also collecting the timestamps of
the dispatched events in dispatch order. -/
def stepTrace (sched : SchedulerFn) (wall : Nat → Nat) :
    Nat → SimState → Option (SimState × List Int)
  | 0, s => some (s, [])
  | n + 1, s =>
    match hPop ele s.events with
    | (none, _) => some (s, [])
    | (some et, rest) => do
      let s' ← handle_event sched wall { s with events := rest } et.1 et.2
      let out ← stepTrace sched wall n s'
      pure (out.1, et.2 :: out.2)

/-- `Simulator::simulate_until` (with explicit fuel; the Rust loop runs
while the peeked event is at or before the horizon). -/
def simulate_until (sched : SchedulerFn) (wall : Nat → Nat) :
    Nat → SimState → Int → Option SimState
  | 0, s, _ => some s
  | n + 1, s, horizon =>
    if ((hPeek s.events).map fun e => decide (e.2 ≤ horizon)).getD false then do
      simulate_until sched wall n (← simulate_step sched wall s) horizon
    else some s

/-! ## Initial state (`Simulator::new`, CSV loading abstracted into the
catalog arguments; `VehicleInitialPosition::Deterministic`) -/
/-- The derived item catalog:
`orders.values().flat_map(into_items).map(|o| (o.id, o)).collect()`. -/
def initOrderItems (orders : MapT OrderId Order) : MapT OrderItemId OrderItem :=
  ((orders.map fun kv => kv.2).flatMap Order.into_items).map fun o => (o.id, o)

/-- The initial event queue: one `OrderArrival` per order at
`initial_date ⊕ creation_time`, then one `UpdateTimestep` at midnight. -/
def initEvents (orders : MapT OrderId Order) (initial_date : Int) :
    List SimEvent :=
  hPush ele
    (orders.foldl (fun q kv =>
      hPush ele q
        (SimulatorEventData.OrderArrival kv.2.order_id
          ((kv.2.into_items).map fun o => o.id),
          andTime initial_date kv.2.creation_time)) [])
    (SimulatorEventData.UpdateTimestep, andTime initial_date 0)

/-- `Simulator::new` with the four catalogs as inputs and deterministic
initial positions (`none` when a vehicle has no initial position, the
`unwrap` in `VehicleInitialPosition::get`). -/
def initState (routes : MapT (FactoryId × FactoryId) SingleRoute)
    (factories : MapT FactoryId FactoryInfo)
    (vehicles : MapT VehicleId VehicleInfo)
    (orders : MapT OrderId Order)
    (initial_positions : MapT VehicleId FactoryId)
    (initial_date : Int) : Option SimState := do
  let vehicle_states ← vehicles.foldlM
    (fun acc kv => do
      let p ← mget initial_positions kv.1
      pure (acc ++ [(kv.1, VehicleState.new p)]))
    ([] : MapT VehicleId VehicleState)
  let order_items := initOrderItems orders
  pure
    { routes := routes
      factories := factories
      vehicles := vehicles
      orders := orders
      order_items := order_items
      initial_date := initial_date
      time_interval := 6000
      vehicle_states := vehicle_states
      factory_states := factories.map fun kv => (kv.1, FactoryState.new kv.2.port_num)
      order_item_states := order_items.map fun kv => (kv.1, OrderItemState.Unavailable)
      dock_approaching_time := 1800
      events := initEvents orders initial_date
      total_distance := 0
      total_distance_last_timeslot := 0
      tick := 0 }

/-! ## Claim C1: the event queue's ordering contract -/
def c1e1 : SimEvent := (SimulatorEventData.OrderArrival "a" [], 5)

def c1e2 : SimEvent := (SimulatorEventData.OrderArrival "b" [], 5)

def c1e3 : SimEvent := (SimulatorEventData.OrderArrival "c" [], 5)

def c1e4 : SimEvent := (SimulatorEventData.OrderArrival "d" [], 5)

/-- Four pushes with equal timestamps. -/
def c1Queue : List SimEvent := [c1e1, c1e2, c1e3, c1e4].foldl (hPush ele) []

/-! ## Claim C10: `OrderItemId` serialization round-trip
(src/model/order_item.rs).  Strings are handled as `List Char`. -/
/-- The lowercase class names used by `From<&OrderItemId> for String` and
by `Deserialize`. -/
def OrderItemType.lower : OrderItemType → List Char
  | .Standard => "standard".toList
  | .Small => "small".toList
  | .Box => "box".toList

/-- Decimal digits of a natural number, most significant first (the
`{}` formatting of a non-negative integer).  Structural on fuel; fuel
`≥ n` suffices. -/
def natCharsGo : Nat → Nat → List Char
  | 0, n => [Char.ofNat (48 + n % 10)]
  | fuel + 1, n =>
    if n < 10 then [Char.ofNat (48 + n)]
    else natCharsGo fuel (n / 10) ++ [Char.ofNat (48 + n % 10)]

def natChars (n : Nat) : List Char := natCharsGo n n

/-- `format!("{}", i)` for an `i32`: minus sign for negatives, then
decimal digits. -/
def intChars (n : Int) : List Char :=
  if n < 0 then '-' :: natChars (-n).toNat else natChars n.toNat

def digitVal (c : Char) : Option Nat :=
  if 48 ≤ c.toNat ∧ c.toNat ≤ 57 then some (c.toNat - 48) else none

def parseNatGo (acc : Nat) : List Char → Option Nat
  | [] => some acc
  | c :: rest =>
    match digitVal c with
    | some d => parseNatGo (10 * acc + d) rest
    | none => none

/-- Digit-run parsing: at least one character, all decimal digits. -/
def parseNat : List Char → Option Nat
  | [] => none
  | l => parseNatGo 0 l

/-- `str::parse::<i32>`: optional sign then digits (the `i32` overflow
check is not modelled: round-tripping a stored value never overflows). -/
def parseInt (l : List Char) : Option Int :=
  match l with
  | [] => none
  | c :: rest =>
    if c = '-' then (parseNat rest).map (fun n => -(n : Int))
    else if c = '+' then (parseNat rest).map (fun n => (n : Int))
    else (parseNat l).map (fun n => (n : Int))

/-- `str::split('_')`: splitting is on every underscore; the result is
always non-empty. -/
def splitU : List Char → List (List Char)
  | [] => [[]]
  | c :: rest =>
    if c = '_' then [] :: splitU rest
    else
      match splitU rest with
      | h :: t => (c :: h) :: t
      | [] => [[c]]

/-- `From<&OrderItemId> for String`:
`"<order>_<class_lowercase>_<index>"`. -/
def OrderItemId.serializeChars (id : OrderItemId) : List Char :=
  id.order_id.toList ++ '_' :: (id.item_type.lower ++ '_' :: intChars id.index)

/-- The class-name match of `OrderItemId::deserialize` (`unreachable!` on
anything else, hence `none`). -/
def parseItemType (s : List Char) : Option OrderItemType :=
  if s = "standard".toList then some OrderItemType.Standard
  else if s = "small".toList then some OrderItemType.Small
  else if s = "box".toList then some OrderItemType.Box
  else none

/-- `OrderItemId::deserialize`: split on `'_'`, take the first three
parts (each `unwrap` panics when missing, hence `none`), parse class and
index. -/
def OrderItemId.deserializeChars (s : List Char) : Option OrderItemId :=
  match splitU s with
  | p0 :: p1 :: p2 :: _ => do
    let t ← parseItemType p1
    let idx ← parseInt p2
    pure { order_id := String.mk p0, item_type := t, index := idx }
  | _ => none

/-- A concrete order for the C9 witness: two Box items, demand 2. -/
def c9Order : Order :=
  { order_id := "o1", q_standard := 0, q_small := 0, q_box := 2, demand := 0,
    creation_time := 0, committed_completion_time := 0, load_time := 0,
    unload_time := 0, pickup_id := "F", delivery_id := "G" }

def c9Orders : MapT OrderId Order := [("o1", c9Order)]

def c9Items : List OrderItemId :=
  [{ order_id := "o1", item_type := OrderItemType.Box, index := 0 },
   { order_id := "o1", item_type := OrderItemType.Box, index := 1 }]

/-- Concrete data for C4: a one-vehicle state and plans naming ids that
are not in the catalogs. -/
def c4Vehicle : VehicleInfo :=
  { car_num := "v1", capacity := 5, operation_time := 24, gps_id := "" }

def c4State : SimState :=
  { routes := [], factories := [], vehicles := [("v1", c4Vehicle)],
    orders := [], order_items := [], initial_date := 0, time_interval := 6000,
    vehicle_states := [("v1", VehicleState.new "F")], factory_states := [],
    order_item_states := [], dock_approaching_time := 1800, events := [],
    total_distance := 0, total_distance_last_timeslot := 0, tick := 0 }

def c4BadItem : OrderItemId :=
  { order_id := "oX", item_type := OrderItemType.Box, index := 0 }

def c4PlanLoad : Plan :=
  [("v1", [{ destination := "F",
             work := { load_items := [c4BadItem], unload_items := [],
                       load_time := 0, unload_time := 0 } }])]

def c4PlanUnload : Plan :=
  [("v1", [{ destination := "F",
             work := { load_items := [], unload_items := [c4BadItem],
                       load_time := 0, unload_time := 0 } }])]

def c4PlanBadVehicle : Plan := [("v9", [])]

/-! ## Claim C2: plan canonicalization (`deduplicate`) and the kernel

`deduplicate` correctly coalesces adjacent same-destination routes, but
`handle_timestep` never calls it: the validator runs on the scheduler's
raw plan. -/
/-- Concatenated `load_items` of a route list, in route order. -/
def routeLoads (rs : List VehicleRoute) : List OrderItemId :=
  rs.flatMap fun r => r.work.load_items

/-- Concatenated `unload_items` of a route list, in route order. -/
def routeUnloads (rs : List VehicleRoute) : List OrderItemId :=
  rs.flatMap fun r => r.work.unload_items

/-- Total `load_time` of a route list. -/
def routeLoadTime (rs : List VehicleRoute) : Int :=
  (rs.map fun r => r.work.load_time).sum

/-- Total `unload_time` of a route list. -/
def routeUnloadTime (rs : List VehicleRoute) : Int :=
  (rs.map fun r => r.work.unload_time).sum

/-- Concrete data for C2: one vehicle, one two-item order, and a plan
splitting the order's load across two adjacent routes to the same
destination. -/
def c2Order : Order :=
  { order_id := "o1", q_standard := 0, q_small := 0, q_box := 2, demand := 0,
    creation_time := 0, committed_completion_time := 14400, load_time := 120,
    unload_time := 120, pickup_id := "F", delivery_id := "G" }

def c2i0 : OrderItemId :=
  { order_id := "o1", item_type := OrderItemType.Box, index := 0 }

def c2i1 : OrderItemId :=
  { order_id := "o1", item_type := OrderItemType.Box, index := 1 }

def c2Vehicle : VehicleInfo :=
  { car_num := "v1", capacity := 1, operation_time := 24, gps_id := "" }

def c2State : SimState :=
  { routes := [], factories := [],
    vehicles := [("v1", c2Vehicle)],
    orders := [("o1", c2Order)],
    order_items := [(c2i0, c2Order.create_item OrderItemType.Box 0),
                    (c2i1, c2Order.create_item OrderItemType.Box 1)],
    initial_date := 0, time_interval := 6000,
    vehicle_states := [("v1", VehicleState.new "F")],
    factory_states := [("F", FactoryState.new 6), ("G", FactoryState.new 6)],
    order_item_states := [(c2i0, OrderItemState.Unallocated),
                          (c2i1, OrderItemState.Unallocated)],
    dock_approaching_time := 1800,
    events := [(SimulatorEventData.UpdateTimestep, 0)],
    total_distance := 0, total_distance_last_timeslot := 0, tick := 0 }

def c2Route (items : List OrderItemId) : VehicleRoute :=
  { destination := "F",
    work := { load_items := items, unload_items := [],
              load_time := 0, unload_time := 0 } }

def c2Plan : Plan := [("v1", [c2Route [c2i0], c2Route [c2i1]])]

def c2Sched : SchedulerFn := fun _ => c2Plan

/-- The head (if any) of a vehicle's pending route queue, as a list. -/
def nextRouteHeads (s : SimState) (v : VehicleId) : List VehicleRoute :=
  (mget s.vehicle_states v).elim [] fun st => st.current_route.take 1

/-- Concrete data for the C3 witness: one picked-up item being delivered
at its destination factory. -/
def c3Order : Order :=
  { order_id := "o1", q_standard := 0, q_small := 0, q_box := 1, demand := 0,
    creation_time := 0, committed_completion_time := 14400, load_time := 60,
    unload_time := 120, pickup_id := "G", delivery_id := "F" }

def c3d0 : OrderItemId :=
  { order_id := "o1", item_type := OrderItemType.Box, index := 0 }

def c3Vehicle : VehicleInfo :=
  { car_num := "v1", capacity := 1, operation_time := 24, gps_id := "" }

def c3VState : VehicleState :=
  { position := VehiclePosition.DoingWork "F", item_stack := [],
    allocated_item_stack := [], current_route := [] }

def c3State : SimState :=
  { routes := [], factories := [], vehicles := [("v1", c3Vehicle)],
    orders := [("o1", c3Order)],
    order_items := [(c3d0, c3Order.create_item OrderItemType.Box 0)],
    initial_date := 0, time_interval := 6000,
    vehicle_states := [("v1", c3VState)],
    factory_states := [("F", { num_avail_docks := 5, queue := [] })],
    order_item_states := [(c3d0, OrderItemState.PickedUp)],
    dock_approaching_time := 1800, events := [],
    total_distance := 0, total_distance_last_timeslot := 0, tick := 0 }

def c3Final : SimState :=
  { c3State with
    factory_states := mset c3State.factory_states "F"
      { num_avail_docks := 6, queue := [] }
    order_item_states := mset c3State.order_item_states c3d0
      (OrderItemState.delivered 14400 7080)
    vehicle_states := mset c3State.vehicle_states "v1"
      { c3VState with position := VehiclePosition.Idle "F" } }

/-! ## Claim C7: dock conservation

"Busy docks" are the outstanding `FinishLoading` events of a factory:
each dock acquisition (`num_avail_docks -= 1` or a dock handed over on
`FinishLoading`) pushes exactly one `FinishLoading` event for that
factory, and each dispatched `FinishLoading` either hands the dock to the
queue head (pushing a new one) or releases it (`num_avail_docks += 1`). -/
/-- Does this event hold a dock at factory `f` (a pending
`FinishLoading`)? -/
def isFLFor (f : FactoryId) (e : SimEvent) : Bool :=
  match e.1 with
  | SimulatorEventData.FinishLoading _ g _ => g == f
  | _ => false

/-- The number of docks of `f` currently held by loading vehicles. -/
def countFL (f : FactoryId) (events : List SimEvent) : Nat :=
  events.countP (isFLFor f)

/-- The dock-conservation invariant: free docks plus held docks equal the
factory's `port_num`; free docks are never negative; a non-empty waiting
queue means no free dock. -/
def DockInv (s : SimState) : Prop :=
  ∀ f fstate, mget s.factory_states f = some fstate →
    (∃ finfo, mget s.factories f = some finfo ∧
      fstate.num_avail_docks + (countFL f s.events : Int) = finfo.port_num) ∧
    0 ≤ fstate.num_avail_docks ∧
    (fstate.queue ≠ [] → fstate.num_avail_docks = 0)

def c7Finfo : FactoryInfo :=
  { factory_id := "F", longitude := 0, latitude := 0, port_num := 2 }

def c7S0 : SimState :=
  { routes := [], factories := [("F", c7Finfo)], vehicles := [],
    orders := [], order_items := [], initial_date := 0, time_interval := 6000,
    vehicle_states := [], factory_states := [("F", FactoryState.new 2)],
    order_item_states := [], dock_approaching_time := 1800,
    events := [(SimulatorEventData.UpdateTimestep, 0)],
    total_distance := 0, total_distance_last_timeslot := 0, tick := 0 }

def c7S1 : SimState := { c7S0 with events := [], tick := 1 }

/-! ## Claim C5: how many vehicles can be `DoingWork(F)`

`handle_vehicle_arrival` sets `DoingWork(F)` for every arriving vehicle
before any dock is requested (the dock is requested only 30 minutes
later, by `VehicleApproachedDock`), so more than `port_num` vehicles can
be `DoingWork(F)` with an empty waiting queue.  The real bound guarded by
the docks is on vehicles in service (outstanding `FinishLoading`s). -/
def c5Finfo (id : FactoryId) : FactoryInfo :=
  { factory_id := id, longitude := 0, latitude := 0, port_num := 1 }

def c5Vinfo (id : VehicleId) : VehicleInfo :=
  { car_num := id, capacity := 1, operation_time := 24, gps_id := "" }

def c5Factories : MapT FactoryId FactoryInfo :=
  [("F", c5Finfo "F"), ("G", c5Finfo "G")]

def c5Vehicles : MapT VehicleId VehicleInfo :=
  [("v1", c5Vinfo "v1"), ("v2", c5Vinfo "v2")]

def c5Routes : MapT (FactoryId × FactoryId) SingleRoute :=
  [(("G", "F"), { route_code := "r", distance := 10, time := 600 })]

def c5IPos : MapT VehicleId FactoryId := [("v1", "G"), ("v2", "G")]

def c5w0 : VehicleWork :=
  { load_items := [], unload_items := [], load_time := 0, unload_time := 0 }

def c5Plan : Plan :=
  [("v1", [{ destination := "F", work := c5w0 }]),
   ("v2", [{ destination := "F", work := c5w0 }])]

def c5Sched : SchedulerFn := fun _ => c5Plan

def c5S0 : SimState :=
  { routes := c5Routes, factories := c5Factories, vehicles := c5Vehicles,
    orders := [], order_items := [], initial_date := 0, time_interval := 6000,
    vehicle_states := [("v1", VehicleState.new "G"), ("v2", VehicleState.new "G")],
    factory_states := [("F", FactoryState.new 1), ("G", FactoryState.new 1)],
    order_item_states := [], dock_approaching_time := 1800,
    events := [(SimulatorEventData.UpdateTimestep, 0)],
    total_distance := 0, total_distance_last_timeslot := 0, tick := 0 }

/-- The number of vehicles whose position is `DoingWork f`. -/
def countDoingWork (f : FactoryId) (s : SimState) : Nat :=
  s.vehicle_states.countP fun kv =>
    kv.2.position == VehiclePosition.DoingWork f

/-! ## Claim C8: monotone dispatch time

The queue is a min-heap on timestamps, so dispatch order can regress only
if a handler pushes an event dated before the current clock.  Nothing
validates the scheduler's `Work` times: a negative `load_time` schedules
`FinishLoading` in the past (counterexample).  With non-negative work
times and route times, dispatch is monotone (amended theorem). -/
def c8Work : VehicleWork :=
  { load_items := [], unload_items := [], load_time := -7200,
    unload_time := 0 }

def c8Plan : Plan := [("v1", [{ destination := "F", work := c8Work }])]

def c8Sched : SchedulerFn := fun _ => c8Plan

def c8S0 : SimState :=
  { routes := c5Routes, factories := c5Factories,
    vehicles := [("v1", c5Vinfo "v1")], orders := [], order_items := [],
    initial_date := 0, time_interval := 6000,
    vehicle_states := [("v1", VehicleState.new "G")],
    factory_states := [("F", FactoryState.new 1), ("G", FactoryState.new 1)],
    order_item_states := [], dock_approaching_time := 1800,
    events := [(SimulatorEventData.UpdateTimestep, 0)],
    total_distance := 0, total_distance_last_timeslot := 0, tick := 0 }

/-- Non-negative derived times of a `Work`. -/
def okW (w : VehicleWork) : Prop := 0 ≤ w.load_time ∧ 0 ≤ w.unload_time

/-- The work payload carried by an event has non-negative times. -/
def okEvent (e : SimEvent) : Prop :=
  match e.1 with
  | SimulatorEventData.VehicleArrival _ _ w => okW w
  | SimulatorEventData.VehicleApproachedDock _ _ w => okW w
  | _ => True

/-- A scheduler that only emits non-negative work times. -/
def SchedOK (sched : SchedulerFn) : Prop :=
  ∀ args kv, kv ∈ sched args → ∀ r ∈ kv.2, okW r.work

/-- The time-sanity invariant relative to the kernel clock: the queue is
heap-ordered with all timestamps at or after the clock, and every `Work`
held anywhere (event payloads, pending routes, factory queues) has
non-negative times. -/
def TimeInv (s : SimState) (clock : Int) : Prop :=
  HeapProp ele s.events ∧
  (∀ e ∈ s.events, clock ≤ e.2) ∧
  (∀ e ∈ s.events, okEvent e) ∧
  (∀ v st, mget s.vehicle_states v = some st →
    ∀ r ∈ st.current_route, okW r.work) ∧
  (∀ f fs, mget s.factory_states f = some fs → ∀ q ∈ fs.queue, okW q.2) ∧
  s.dock_approaching_time = 1800 ∧
  s.time_interval = 6000 ∧
  (∀ k r, mget s.routes k = some r → 0 ≤ r.time)

/-! ## Claim C6: the capacity invariant

`begin_vehicle_loading` re-asserts the physical stack's demand bound at
load time; the allocated stack's bound comes from the validator, whose
route walk is a capacity-feasibility check of the pending route list.
The `feasible` predicate below is that ghost invariant. -/
/-- Every prefix of the pending route list keeps the running demand within
the capacity. -/
def feasible (order_items : MapT OrderItemId OrderItem) (cap : Int) :
    Int → List VehicleRoute → Prop
  | _, [] => True
  | td, r :: rs => ∃ delta, r.work.delta_demand order_items = some delta ∧
      td + delta ≤ cap ∧ feasible order_items cap (td + delta) rs

/-- Per-vehicle capacity soundness: both stacks' demands are within the
normalized capacity, and the pending route list is demand-feasible from
the allocated stack's demand. -/
def vehOK (order_items : MapT OrderItemId OrderItem) (info : VehicleInfo)
    (st : VehicleState) : Prop :=
  (∃ ta, sumDemands order_items st.allocated_item_stack = some ta ∧
    ta ≤ info.capacityBoxes ∧
    feasible order_items info.capacityBoxes ta st.current_route) ∧
  (∃ ti, sumDemands order_items st.item_stack = some ti ∧
    ti ≤ info.capacityBoxes)

/-- The capacity invariant over all vehicles. -/
def CapInv (s : SimState) : Prop :=
  ∀ v info st, mget s.vehicles v = some info →
    mget s.vehicle_states v = some st → vehOK s.order_items info st

/-! ## Theorems -/

@[simp] theorem massert_true : massert true = some () := rfl

@[simp] theorem massert_false : massert false = none := rfl

@[simp] theorem mget_nil [BEq K] (k : K) : mget ([] : MapT K V) k = none := rfl

@[simp] theorem mget_cons [BEq K] (k : K) (p : K × V) (m : MapT K V) :
    mget (p :: m) k = if k == p.1 then some p.2 else mget m k := by
  simp only [mget, List.lookup]
  split <;> simp_all

@[simp] theorem mset_nil [BEq K] (k : K) (v : V) : mset ([] : MapT K V) k v = [] := rfl

@[simp] theorem mset_cons [BEq K] (k : K) (v : V) (p : K × V) (m : MapT K V) :
    mset (p :: m) k v = (if p.1 == k then (p.1, v) else p) :: mset m k v := by
  by_cases h : p.1 == k <;> simp [mset, h]

/-! ### Permutation facts about the heap operations -/
theorem getD_set_ne [Inhabited α] (l : List α) (i j : Nat) (a : α) (h : i ≠ j) :
    (l.set i a).getD j default = l.getD j default := by
  rcases lt_or_ge j l.length with hj | hj
  · rw [List.getD_eq_getElem _ _ (by simpa using hj), List.getD_eq_getElem _ _ hj]
    exact List.getElem_set_ne h _
  · rw [List.getD_eq_default _ _ (by simpa using hj), List.getD_eq_default _ _ hj]

theorem getD_set_self [Inhabited α] (l : List α) (i : Nat) (a : α) (h : i < l.length) :
    (l.set i a).getD i default = a := by
  rw [List.getD_eq_getElem _ _ (by simpa using h)]
  exact List.getElem_set_self _

theorem set_getD_self [Inhabited α] :
    ∀ (l : List α) (i : Nat), i < l.length → l.set i (l.getD i default) = l
  | _ :: _, 0, _ => rfl
  | x :: t, i + 1, h => by
    have := set_getD_self t i (by simpa using h)
    simpa using this

theorem cons_set_comm [Inhabited α] :
    ∀ (t : List α) (k : Nat) (a b : α), k < t.length →
      (a :: t.set k b).Perm (b :: t.set k a)
  | y :: s, 0, a, b, _ => by simpa using List.Perm.swap b a s
  | y :: s, k + 1, a, b, h => by
    have ih := cons_set_comm s k a b (by simpa using h)
    exact (List.Perm.swap y a _).trans ((List.Perm.cons y ih).trans (List.Perm.swap b y _))

theorem set_exchange_perm [Inhabited α] :
    ∀ (l : List α) (i j : Nat) (a b : α), i ≠ j → i < l.length → j < l.length →
      ((l.set i a).set j b).Perm ((l.set i b).set j a)
  | _ :: _, 0, 0, _, _, hij, _, _ => absurd rfl hij
  | x :: t, 0, j + 1, a, b, _, _, hj => by
    simpa using cons_set_comm t j a b (by simpa using hj)
  | x :: t, i + 1, 0, a, b, _, hi, _ => by
    simpa using (cons_set_comm t i b a (by simpa using hi))
  | x :: t, i + 1, j + 1, a, b, hij, hi, hj => by
    have ih := set_exchange_perm t i j a b (by omega) (by simpa using hi) (by simpa using hj)
    simpa using List.Perm.cons x ih

theorem hSwap_perm [Inhabited α] (l : List α) (i j : Nat)
    (hi : i < l.length) (hj : j < l.length) : (hSwap l i j).Perm l := by
  unfold hSwap
  rcases eq_or_ne i j with rfl | hij
  · rw [List.set_set, set_getD_self l i hi]
  · refine (set_exchange_perm l i j _ _ hij hi hj).trans ?_
    rw [set_getD_self l i hi, set_getD_self l j hj]

theorem hSwap_length [Inhabited α] (l : List α) (i j : Nat) :
    (hSwap l i j).length = l.length := by
  simp [hSwap]

theorem siftUpGo_perm [Inhabited α] (le : α → α → Bool) (start : Nat) :
    ∀ (fuel : Nat) (l : List α) (pos : Nat), pos < l.length →
      (siftUpGo le start fuel l pos).Perm l := by
  intro fuel
  induction fuel with
  | zero => intro l pos _; exact List.Perm.refl l
  | succ fuel ih =>
    intro l pos hlen
    rw [siftUpGo]
    by_cases h : pos ≤ start
    · rw [if_pos h]
    · rw [if_neg h]
      by_cases hle : le (l.getD pos default) (l.getD ((pos - 1) / 2) default) = true
      · simp only [hle, if_true]
        exact List.Perm.refl l
      · simp only [hle, if_false, Bool.false_eq_true]
        have hp : (pos - 1) / 2 < l.length := by omega
        exact (ih _ _ (by rw [hSwap_length]; exact hp)).trans
          (hSwap_perm l pos _ hlen hp)

theorem siftUp_perm [Inhabited α] (le : α → α → Bool)
    (l : List α) (start pos : Nat) (h : pos < l.length) :
    (siftUp le l start pos).Perm l :=
  siftUpGo_perm le start pos l pos h

theorem siftUpGo_length [Inhabited α] (le : α → α → Bool) (start : Nat) :
    ∀ (fuel : Nat) (l : List α) (pos : Nat),
      (siftUpGo le start fuel l pos).length = l.length := by
  intro fuel
  induction fuel with
  | zero => intro l pos; rfl
  | succ fuel ih =>
    intro l pos
    rw [siftUpGo]
    by_cases h : pos ≤ start
    · rw [if_pos h]
    · rw [if_neg h]
      by_cases hle : le (l.getD pos default) (l.getD ((pos - 1) / 2) default) = true
      · simp only [hle, if_true]
      · simp only [hle, if_false, Bool.false_eq_true]
        rw [ih, hSwap_length]

theorem siftUp_length [Inhabited α] (le : α → α → Bool)
    (l : List α) (start pos : Nat) : (siftUp le l start pos).length = l.length :=
  siftUpGo_length le start pos l pos

theorem siftDownGo_length [Inhabited α] (le : α → α → Bool) :
    ∀ (fuel : Nat) (l : List α) (pos : Nat),
      (siftDownGo le fuel l pos).1.length = l.length := by
  intro fuel
  induction fuel with
  | zero => intro l pos; rfl
  | succ fuel ih =>
    intro l pos
    rw [siftDownGo]
    by_cases hen : 2 * pos + 1 + 2 ≤ l.length
    · rw [if_pos hen, ih, List.length_set]
    · rw [if_neg hen]
      by_cases heq : 2 * pos + 1 + 1 = l.length
      · rw [if_pos heq]
        exact List.length_set ..
      · rw [if_neg heq]

theorem siftDownLoop_length [Inhabited α] (le : α → α → Bool)
    (l : List α) (pos : Nat) : (siftDownLoop le l pos).1.length = l.length :=
  siftDownGo_length le l.length l pos

theorem siftDownGo_pos_bound [Inhabited α] (le : α → α → Bool) :
    ∀ (fuel : Nat) (l : List α) (pos : Nat), pos < l.length →
      pos ≤ (siftDownGo le fuel l pos).2 ∧ (siftDownGo le fuel l pos).2 < l.length := by
  intro fuel
  induction fuel with
  | zero => intro l pos h; exact ⟨le_refl _, h⟩
  | succ fuel ih =>
    intro l pos
    rw [siftDownGo]
    by_cases hen : 2 * pos + 1 + 2 ≤ l.length
    · intro _
      rw [if_pos hen]
      have hc : pos < pickChild le l (2 * pos + 1) ∧
          pickChild le l (2 * pos + 1) < (l.set pos (l.getD (pickChild le l (2 * pos + 1)) default)).length := by
        simp only [pickChild, List.length_set]
        split <;> omega
      have := ih _ _ hc.2
      rw [List.length_set] at this
      exact ⟨by omega, this.2⟩
    · rw [if_neg hen]
      by_cases heq : 2 * pos + 1 + 1 = l.length
      · intro _
        rw [if_pos heq]
        constructor <;> simp <;> omega
      · intro h
        rw [if_neg heq]
        exact ⟨le_refl _, h⟩

theorem siftDownLoop_pos_bound [Inhabited α] (le : α → α → Bool)
    (l : List α) (pos : Nat) (h : pos < l.length) :
    pos ≤ (siftDownLoop le l pos).2 ∧ (siftDownLoop le l pos).2 < l.length :=
  siftDownGo_pos_bound le l.length l pos h

theorem siftDownGo_set_perm [Inhabited α] (le : α → α → Bool) :
    ∀ (fuel : Nat) (l : List α) (pos : Nat) (x : α), pos < l.length →
      ((siftDownGo le fuel l pos).1.set (siftDownGo le fuel l pos).2 x).Perm
        (l.set pos x) := by
  intro fuel
  induction fuel with
  | zero => intro l pos x _; exact List.Perm.refl _
  | succ fuel ih =>
    intro l pos
    rw [siftDownGo]
    by_cases hen : 2 * pos + 1 + 2 ≤ l.length
    · intro x hlen
      rw [if_pos hen]
      have hc1 : pos < pickChild le l (2 * pos + 1) := by
        simp only [pickChild]; split <;> omega
      have hc2 : pickChild le l (2 * pos + 1) < l.length := by
        simp only [pickChild]; split <;> omega
      have hrec := ih (l.set pos (l.getD (pickChild le l (2 * pos + 1)) default))
        (pickChild le l (2 * pos + 1)) x (by rw [List.length_set]; exact hc2)
      refine hrec.trans ?_
      -- ((l.set pos l[c]).set c x) ~ (l.set pos x)
      refine (set_exchange_perm l pos _ _ x (by omega) hlen hc2).trans ?_
      rw [← getD_set_ne l pos (pickChild le l (2 * pos + 1)) x (by omega)]
      rw [set_getD_self _ _ (by rw [List.length_set]; exact hc2)]
    · rw [if_neg hen]
      by_cases heq : 2 * pos + 1 + 1 = l.length
      · intro x hlen
        rw [if_pos heq]
        have hc2 : 2 * pos + 1 < l.length := by omega
        refine (set_exchange_perm l pos _ _ x (by omega) hlen hc2).trans ?_
        rw [← getD_set_ne l pos (2 * pos + 1) x (by omega)]
        rw [set_getD_self _ _ (by rw [List.length_set]; exact hc2)]
      · intro x _
        rw [if_neg heq]

theorem siftDownLoop_set_perm [Inhabited α] (le : α → α → Bool)
    (l : List α) (pos : Nat) (x : α) (h : pos < l.length) :
    ((siftDownLoop le l pos).1.set (siftDownLoop le l pos).2 x).Perm
      (l.set pos x) :=
  siftDownGo_set_perm le l.length l pos x h

theorem siftDownToBottom_perm [Inhabited α] (le : α → α → Bool) (l : List α) (pos : Nat)
    (h : pos < l.length) : (siftDownToBottom le l pos).Perm l := by
  unfold siftDownToBottom
  have hb := siftDownLoop_pos_bound le l pos h
  have hlen := siftDownLoop_length le l pos
  have h2 : (siftDownLoop le l pos).2 < (siftDownLoop le l pos).1.length := by
    rw [hlen]; exact hb.2
  refine (siftUp_perm le _ pos _ (by rw [List.length_set]; exact h2)).trans ?_
  refine (siftDownLoop_set_perm le l pos _ h).trans ?_
  rw [set_getD_self l pos h]

theorem hPush_perm [Inhabited α] (le : α → α → Bool) (l : List α) (x : α) :
    (hPush le l x).Perm (x :: l) := by
  unfold hPush
  refine (siftUp_perm le _ 0 _ (by simp)).trans ?_
  exact List.perm_append_singleton x l

theorem hPush_length [Inhabited α] (le : α → α → Bool) (l : List α) (x : α) :
    (hPush le l x).length = l.length + 1 := by
  unfold hPush
  rw [siftUp_length]
  simp

theorem hPop_fst [Inhabited α] (le : α → α → Bool) (l : List α) (h : l ≠ []) :
    (hPop le l).1 = some (l.getD 0 default) := by
  unfold hPop
  rw [List.getLast?_eq_getLast l h]
  by_cases he : l.dropLast.isEmpty
  · simp only [he, if_true]
    -- singleton list: the last element is the head
    rw [List.isEmpty_iff] at he
    match l, h with
    | [a], _ => simp
    | a :: b :: t, _ => simp at he
  · simp only [he, if_false, Bool.false_eq_true]
    have hd : l.dropLast ≠ [] := by
      intro hc
      rw [hc] at he
      simp at he
    have h0 : 0 < l.dropLast.length := List.length_pos.mpr hd
    rw [List.getD_eq_getElem _ _ h0, List.getElem_dropLast,
      List.getD_eq_getElem _ _ (by have := l.length_dropLast; omega)]

theorem hPop_perm [Inhabited α] (le : α → α → Bool) (l : List α) (h : l ≠ []) :
    (l.getD 0 default :: (hPop le l).2).Perm l := by
  unfold hPop
  rw [List.getLast?_eq_getLast l h]
  by_cases he : l.dropLast.isEmpty
  · simp only [he, if_true]
    rw [List.isEmpty_iff] at he
    match l, h with
    | [a], _ => simp
    | a :: b :: t, _ => simp at he
  · simp only [he, if_false, Bool.false_eq_true]
    have hd : l.dropLast ≠ [] := by
      intro hc; rw [hc] at he; simp at he
    have h0 : 0 < l.dropLast.length := List.length_pos.mpr hd
    have hperm1 : (siftDownToBottom le (l.dropLast.set 0 (l.getLast h)) 0).Perm
        (l.dropLast.set 0 (l.getLast h)) :=
      siftDownToBottom_perm le _ 0 (by rw [List.length_set]; exact h0)
    have hgd : l.getD 0 default = l.dropLast.getD 0 default := by
      rw [List.getD_eq_getElem _ _ h0, List.getElem_dropLast,
        List.getD_eq_getElem _ _ (by have := l.length_dropLast; omega)]
    rw [hgd]
    refine (List.Perm.cons _ hperm1).trans ?_
    refine (cons_set_comm _ 0 _ _ h0).trans ?_
    rw [set_getD_self _ 0 h0]
    have : l.dropLast ++ [l.getLast h] = l := List.dropLast_append_getLast h
    calc (l.getLast h :: l.dropLast).Perm (l.dropLast ++ [l.getLast h]) :=
        (List.perm_append_singleton _ _).symm
      _ = l := this

theorem heapProp_le_root [Inhabited α] (le : α → α → Bool)
    (hto : ∀ a b, le a b = true ∨ le b a = true)
    (htr : ∀ a b c, le a b = true → le b c = true → le a c = true)
    (l : List α) (hp : HeapProp le l) :
    ∀ i, i < l.length → le (l.getD i default) (l.getD 0 default) = true := by
  intro i
  induction i using Nat.strong_induction_on with
  | _ i ih =>
    intro hi
    rcases Nat.eq_zero_or_pos i with rfl | hpos
    · rcases hto (l.getD 0 default) (l.getD 0 default) with h | h <;> exact h
    · exact htr _ _ _ (hp i hpos hi) (ih ((i - 1) / 2) (by omega) (by omega))

theorem hSwap_getD_fst [Inhabited α] (l : List α) (i j : Nat) (hij : i ≠ j)
    (hi : i < l.length) : (hSwap l i j).getD i default = l.getD j default := by
  unfold hSwap
  rw [getD_set_ne _ j i _ (Ne.symm hij), getD_set_self _ _ _ hi]

theorem hSwap_getD_snd [Inhabited α] (l : List α) (i j : Nat)
    (hj : j < l.length) : (hSwap l i j).getD j default = l.getD i default := by
  unfold hSwap
  rw [getD_set_self _ _ _ (by rw [List.length_set]; exact hj)]

theorem hSwap_getD_other [Inhabited α] (l : List α) (i j k : Nat)
    (h1 : k ≠ i) (h2 : k ≠ j) :
    (hSwap l i j).getD k default = l.getD k default := by
  unfold hSwap
  rw [getD_set_ne _ j k _ (Ne.symm h2), getD_set_ne _ i k _ (Ne.symm h1)]

theorem siftUpGo_heap [Inhabited α] (le : α → α → Bool)
    (hto : ∀ a b, le a b = true ∨ le b a = true)
    (htr : ∀ a b c, le a b = true → le b c = true → le a c = true)
    (start : Nat) :
    ∀ (fuel : Nat) (l : List α) (pos : Nat), start = 0 → pos ≤ fuel →
      pos < l.length → SiftUpInvA le l pos → SiftUpInvB le l pos →
      HeapProp le (siftUpGo le start fuel l pos) := by
  intro fuel
  induction fuel with
  | zero =>
    intro l pos hs hf hlen hA hB
    intro i hi hilen
    exact hA i hi hilen (by omega)
  | succ fuel ih =>
    intro l pos hs hf hlen hA hB
    rw [siftUpGo]
    by_cases h : pos ≤ start
    · rw [if_pos h]
      intro i hi hilen
      exact hA i hi hilen (by omega)
    · rw [if_neg h]
      by_cases hle : le (l.getD pos default) (l.getD ((pos - 1) / 2) default) = true
      · simp only [hle, if_true]
        intro i hi hilen
        by_cases hip : i = pos
        · subst hip; exact hle
        · exact hA i hi hilen hip
      · simp only [hle, if_false, Bool.false_eq_true]
        have hpos0 : 0 < pos := by omega
        have hparlt : (pos - 1) / 2 < pos := by omega
        have hpar : (pos - 1) / 2 < l.length := by omega
        have e1 : (hSwap l pos ((pos - 1) / 2)).getD pos default
            = l.getD ((pos - 1) / 2) default :=
          hSwap_getD_fst l pos ((pos - 1) / 2) (by omega) hlen
        have e2 : (hSwap l pos ((pos - 1) / 2)).getD ((pos - 1) / 2) default
            = l.getD pos default :=
          hSwap_getD_snd l pos ((pos - 1) / 2) hpar
        have e3 : ∀ k, k ≠ pos → k ≠ (pos - 1) / 2 →
            (hSwap l pos ((pos - 1) / 2)).getD k default = l.getD k default :=
          fun k h1 h2 => hSwap_getD_other l pos ((pos - 1) / 2) k h1 h2
        have hxp : le (l.getD ((pos - 1) / 2) default) (l.getD pos default) = true := by
          rcases hto (l.getD pos default) (l.getD ((pos - 1) / 2) default) with h' | h'
          · exact absurd h' hle
          · exact h'
        apply ih _ _ hs (by omega) (by rw [hSwap_length]; exact hpar)
        · -- SiftUpInvA for the swapped list at the parent
          intro i hi hilen hip
          rw [hSwap_length] at hilen
          by_cases hipos : i = pos
          · subst hipos
            rw [e1, e2]
            exact hxp
          · by_cases hpi : (i - 1) / 2 = pos
            · have hipar : i ≠ (pos - 1) / 2 := by omega
              rw [hpi, e3 i hipos hipar, e1]
              exact hB hpos0 i hilen hpi
            · by_cases hpp : (i - 1) / 2 = (pos - 1) / 2
              · rw [hpp, e3 i hipos hip, e2]
                have h1 := hA i hi hilen hipos
                rw [hpp] at h1
                exact htr _ _ _ h1 hxp
              · rw [e3 i hipos hip, e3 _ hpi hpp]
                exact hA i hi hilen hipos
        · -- SiftUpInvB for the swapped list at the parent
          intro hppos c hclen hcpar
          rw [hSwap_length] at hclen
          have hgp_pos : ((pos - 1) / 2 - 1) / 2 ≠ pos := by omega
          have hgp_par : ((pos - 1) / 2 - 1) / 2 ≠ (pos - 1) / 2 := by omega
          rw [e3 _ hgp_pos hgp_par]
          by_cases hcp : c = pos
          · subst hcp
            rw [e1]
            exact hA ((c - 1) / 2) hppos hpar (by omega)
          · have hcpar' : c ≠ (pos - 1) / 2 := by omega
            rw [e3 c hcp hcpar']
            have h1 := hA c (by omega) hclen hcp
            rw [hcpar] at h1
            exact htr _ _ _ h1 (hA ((pos - 1) / 2) hppos hpar (by omega))

theorem siftUp_heap_aux [Inhabited α] (le : α → α → Bool)
    (hto : ∀ a b, le a b = true ∨ le b a = true)
    (htr : ∀ a b c, le a b = true → le b c = true → le a c = true)
    (l : List α) (start pos : Nat) (hs : start = 0) (hlen : pos < l.length)
    (hA : SiftUpInvA le l pos) (hB : SiftUpInvB le l pos) :
    HeapProp le (siftUp le l start pos) :=
  siftUpGo_heap le hto htr start pos l pos hs (le_refl pos) hlen hA hB

theorem getD_append_left [Inhabited α] (l : List α) (x : α) (i : Nat)
    (h : i < l.length) : (l ++ [x]).getD i default = l.getD i default := by
  rw [List.getD_eq_getElem _ _ (by simp; omega), List.getD_eq_getElem _ _ h]
  exact List.getElem_append_left h

/-- `push` preserves the heap-order invariant. -/
theorem hPush_heap [Inhabited α] (le : α → α → Bool)
    (hto : ∀ a b, le a b = true ∨ le b a = true)
    (htr : ∀ a b c, le a b = true → le b c = true → le a c = true)
    (l : List α) (x : α) (hp : HeapProp le l) : HeapProp le (hPush le l x) := by
  unfold hPush
  apply siftUp_heap_aux le hto htr _ _ _ rfl (by simp)
  · intro i hi hilen hip
    simp only [List.length_append, List.length_singleton] at hilen
    have hi' : i < l.length := by omega
    rw [getD_append_left l x i hi', getD_append_left l x _ (by omega)]
    exact hp i hi hi'
  · intro hpos c hclen hcpar
    simp only [List.length_append, List.length_singleton] at hclen
    omega

/-- What the descending loop guarantees: every edge not out of the final
hole position holds, and the final hole has no children. -/
theorem siftDownGo_heap [Inhabited α] (le : α → α → Bool)
    (hto : ∀ a b, le a b = true ∨ le b a = true)
    (htr : ∀ a b c, le a b = true → le b c = true → le a c = true) :
    ∀ (fuel : Nat) (l : List α) (pos : Nat), pos < l.length →
      l.length ≤ fuel + pos →
      (∀ i, 0 < i → i < l.length → i ≠ pos → (i - 1) / 2 ≠ pos →
        le (l.getD i default) (l.getD ((i - 1) / 2) default) = true) →
      SiftUpInvB le l pos →
      ((∀ i, 0 < i → i < (siftDownGo le fuel l pos).1.length →
          i ≠ (siftDownGo le fuel l pos).2 →
          le ((siftDownGo le fuel l pos).1.getD i default)
            ((siftDownGo le fuel l pos).1.getD ((i - 1) / 2) default) = true) ∧
        l.length ≤ 2 * (siftDownGo le fuel l pos).2 + 1) := by
  intro fuel
  induction fuel with
  | zero =>
    intro l pos hlen hfl hA hB
    exact absurd hfl (by omega)
  | succ fuel ih =>
    intro l pos hlen hfl hA hB
    rw [siftDownGo]
    by_cases hen : 2 * pos + 1 + 2 ≤ l.length
    · rw [if_pos hen]
      have hc1 : 2 * pos + 1 ≤ pickChild le l (2 * pos + 1) ∧
          pickChild le l (2 * pos + 1) ≤ 2 * pos + 2 := by
        simp only [pickChild]; split <;> omega
      set c := pickChild le l (2 * pos + 1) with hc
      have hclen : c < l.length := by omega
      have hcpos : pos < c := by omega
      have hcpar : (c - 1) / 2 = pos := by omega
      set l2 := l.set pos (l.getD c default) with hl2
      have hlen2 : l2.length = l.length := by rw [hl2, List.length_set]
      have e0 : l2.getD pos default = l.getD c default :=
        getD_set_self l pos _ hlen
      have e1 : ∀ k, k ≠ pos → l2.getD k default = l.getD k default := fun k hk =>
        getD_set_ne l pos k _ (fun hc' => hk hc'.symm)
      have hres := ih l2 c (by rw [hlen2]; exact hclen) (by rw [hlen2]; omega) ?_ ?_
      · -- package the recursive result (the loop on (l2, c) is the loop on (l, pos))
        refine ⟨hres.1, ?_⟩
        have := hres.2
        rw [hlen2] at this
        exact this
      · -- hole edges for (l2, c)
        intro i hi hilen hic hipc
        rw [hlen2] at hilen
        by_cases hipos : i = pos
        · subst hipos
          have hppar : (i - 1) / 2 ≠ i := by omega
          rw [e0, e1 _ hppar]
          exact hB (by omega) c hclen hcpar
        · by_cases hpi : (i - 1) / 2 = pos
          · -- sibling of c under pos
            have hine : i ≠ c := hic
            have hir : i = 2 * pos + 1 ∨ i = 2 * pos + 2 := by omega
            rw [e1 i hipos, hpi, e0]
            -- le l[i] l[c] by the child selection
            have h21 : 2 * pos + 1 + 1 = 2 * pos + 2 := by omega
            by_cases hsel : le (l.getD (2 * pos + 1) default)
                (l.getD (2 * pos + 1 + 1) default) = true
            · have hceq : c = 2 * pos + 2 := by
                rw [hc, pickChild, if_pos hsel, h21]
              have hieq : i = 2 * pos + 1 := by omega
              rw [hceq, hieq, ← h21]
              exact hsel
            · have hceq : c = 2 * pos + 1 := by
                rw [hc, pickChild, if_neg hsel]
              have hieq : i = 2 * pos + 2 := by omega
              rw [hceq, hieq, ← h21]
              rcases hto (l.getD (2 * pos + 1 + 1) default)
                (l.getD (2 * pos + 1) default) with h' | h'
              · exact h'
              · exact absurd h' hsel
          · rw [e1 i hipos, e1 _ hpi]
            exact hA i hi hilen hipos hpi
      · -- SiftUpInvB for (l2, c)
        intro hcpos0 d hdlen hdpar
        rw [hlen2] at hdlen
        have hdc : c < d := by omega
        rw [hcpar, e0, e1 d (by omega), ← hdpar]
        exact hA d (by omega) hdlen (by omega) (by omega)
    · rw [if_neg hen]
      by_cases heq : 2 * pos + 1 + 1 = l.length
      · rw [if_pos heq]
        dsimp only
        simp only [List.length_set]
        constructor
        · intro i hi hilen hic
          have e0 : (l.set pos (l.getD (2 * pos + 1) default)).getD pos default
              = l.getD (2 * pos + 1) default := getD_set_self l pos _ hlen
          have e1 : ∀ k, k ≠ pos →
              (l.set pos (l.getD (2 * pos + 1) default)).getD k default
                = l.getD k default := fun k hk =>
            getD_set_ne l pos k _ (fun hc' => hk hc'.symm)
          by_cases hipos : i = pos
          · subst hipos
            have hppar : (i - 1) / 2 ≠ i := by omega
            rw [e0, e1 _ hppar]
            exact hB (by omega) (2 * i + 1) (by omega) (by omega)
          · by_cases hpi : (i - 1) / 2 = pos
            · omega
            · rw [e1 i hipos, e1 _ hpi]
              exact hA i hi hilen hipos hpi
        · omega
      · rw [if_neg heq]
        dsimp only
        constructor
        · intro i hi hilen hic
          by_cases hpi : (i - 1) / 2 = pos
          · omega
          · exact hA i hi hilen hic hpi
        · omega

theorem siftDownLoop_heap [Inhabited α] (le : α → α → Bool)
    (hto : ∀ a b, le a b = true ∨ le b a = true)
    (htr : ∀ a b c, le a b = true → le b c = true → le a c = true)
    (l : List α) (pos : Nat) (hlen : pos < l.length)
    (hA : ∀ i, 0 < i → i < l.length → i ≠ pos → (i - 1) / 2 ≠ pos →
      le (l.getD i default) (l.getD ((i - 1) / 2) default) = true)
    (hB : SiftUpInvB le l pos) :
    ((∀ i, 0 < i → i < (siftDownLoop le l pos).1.length →
        i ≠ (siftDownLoop le l pos).2 →
        le ((siftDownLoop le l pos).1.getD i default)
          ((siftDownLoop le l pos).1.getD ((i - 1) / 2) default) = true) ∧
      l.length ≤ 2 * (siftDownLoop le l pos).2 + 1) :=
  siftDownGo_heap le hto htr l.length l pos hlen (by omega) hA hB

/-- `pop` preserves the heap-order invariant. -/
theorem hPop_heap [Inhabited α] (le : α → α → Bool)
    (hto : ∀ a b, le a b = true ∨ le b a = true)
    (htr : ∀ a b c, le a b = true → le b c = true → le a c = true)
    (l : List α) (hp : HeapProp le l) : HeapProp le (hPop le l).2 := by
  unfold hPop
  match hl : l.getLast? with
  | none => exact hp
  | some item =>
    by_cases he : l.dropLast.isEmpty
    · simp only [he, if_true]
      have he' := List.isEmpty_iff.mp he
      intro i hi hilen
      rw [he'] at hilen
      simp at hilen
    · simp only [he, if_false, Bool.false_eq_true]
      have hd : l.dropLast ≠ [] := by
        intro hc; rw [hc] at he; simp at he
      have h0 : 0 < l.dropLast.length := List.length_pos.mpr hd
      set l0 := l.dropLast.set 0 item with hl0
      have hlen0 : l0.length = l.dropLast.length := List.length_set ..
      have hrest : ∀ k, k < l.dropLast.length →
          l.dropLast.getD k default = l.getD k default := by
        intro k hk
        rw [List.getD_eq_getElem _ _ hk, List.getElem_dropLast,
          List.getD_eq_getElem _ _ (by have := l.length_dropLast; omega)]
      have hA : ∀ i, 0 < i → i < l0.length → i ≠ 0 → (i - 1) / 2 ≠ 0 →
          le (l0.getD i default) (l0.getD ((i - 1) / 2) default) = true := by
        intro i hi hilen _ hpar
        rw [hlen0] at hilen
        rw [hl0, getD_set_ne _ _ _ _ (by omega), getD_set_ne _ _ _ _ (by omega)]
        rw [hrest i hilen, hrest _ (by omega)]
        exact hp i hi (by have := l.length_dropLast; omega)
      have hB : SiftUpInvB le l0 0 := by
        intro h0'; omega
      unfold siftDownToBottom
      have hpos0 : (0 : Nat) < l0.length := by rw [hlen0]; exact h0
      have hout := siftDownLoop_heap le hto htr l0 0 hpos0 hA hB
      set L := (siftDownLoop le l0 0).1 with hL
      set p := (siftDownLoop le l0 0).2 with hP
      have hLlen : L.length = l0.length := siftDownLoop_length le l0 0
      have hpb := siftDownLoop_pos_bound le l0 0 hpos0
      apply siftUp_heap_aux le hto htr _ _ _ rfl
        (by rw [List.length_set, hLlen]; exact hpb.2)
      · -- SiftUpInvA of (L.set p x) at p
        intro i hi hilen hip
        rw [List.length_set, hLlen] at hilen
        have hipar : (i - 1) / 2 ≠ p := by
          intro hcon
          have := hout.2
          omega
        rw [getD_set_ne _ _ _ _ (Ne.symm hip), getD_set_ne _ _ _ _ (Ne.symm hipar)]
        exact hout.1 i hi (by rw [hLlen]; exact hilen) hip
      · -- SiftUpInvB of (L.set p x) at p: the hole is childless
        intro hppos c hclen hcpar
        rw [List.length_set, hLlen] at hclen
        have := hout.2
        omega

/-- In a heap, the root dominates every member. -/
theorem heapProp_mem_le_root [Inhabited α] (le : α → α → Bool)
    (hto : ∀ a b, le a b = true ∨ le b a = true)
    (htr : ∀ a b c, le a b = true → le b c = true → le a c = true)
    (l : List α) (hp : HeapProp le l) (y : α) (hy : y ∈ l) :
    le y (l.getD 0 default) = true := by
  rcases List.mem_iff_getElem.mp hy with ⟨i, hi, rfl⟩
  have := heapProp_le_root le hto htr l hp i hi
  rwa [List.getD_eq_getElem _ _ hi] at this

theorem runQOps_heap [Inhabited α] (le : α → α → Bool)
    (hto : ∀ a b, le a b = true ∨ le b a = true)
    (htr : ∀ a b c, le a b = true → le b c = true → le a c = true)
    (ops : List (QOp α)) : HeapProp le (runQOps le ops) := by
  suffices h : ∀ (q : List α), HeapProp le q →
      HeapProp le (ops.foldl (fun q op => match op with
        | QOp.push x => hPush le q x
        | QOp.pop => (hPop le q).2) q) by
    exact h [] (by intro i hi hilen; simp at hilen)
  induction ops with
  | nil => intro q hq; exact hq
  | cons op rest ih =>
    intro q hq
    cases op with
    | push x => exact ih _ (hPush_heap le hto htr q x hq)
    | pop => exact ih _ (hPop_heap le hto htr q hq)

theorem ele_total : ∀ a b : SimEvent, ele a b = true ∨ ele b a = true := by
  intro a b
  simp only [ele, decide_eq_true_eq]
  omega

theorem ele_trans : ∀ a b c : SimEvent,
    ele a b = true → ele b c = true → ele a c = true := by
  intro a b c
  simp only [ele, decide_eq_true_eq]
  omega

@[simp] theorem vbind_vOk (a : α) (f : α → VRes β) : vbind (vOk a) f = f a := rfl

@[simp] theorem vbind_vErr (e : PlanError) (f : α → VRes β) :
    vbind (vErr e) f = vErr e := rfl

@[simp] theorem vbind_none (f : α → VRes β) : vbind none f = none := rfl

/-- C1 (counterexample): the claim "among events sharing the minimal
timestamp, `pop` returns the one pushed earliest" fails.  Push four events
with the same timestamp in the order `c1e1 c1e2 c1e3 c1e4`; the first pop
returns `c1e1` but the second pop returns `c1e3` even though the
earlier-pushed `c1e2` is still in the queue — `BinaryHeap` tie order is
heap-layout order, not FIFO. -/
theorem event_queue_fifo_counterexample :
    c1e1.2 = 5 ∧ c1e2.2 = 5 ∧ c1e3.2 = 5 ∧ c1e4.2 = 5 ∧
    (hPop ele c1Queue).1 = some c1e1 ∧
    (hPop ele (hPop ele c1Queue).2).1 = some c1e3 ∧
    c1e3 ≠ c1e2 ∧
    c1e2 ∈ (hPop ele c1Queue).2 := by decide

/-- C1 (amended): for every sequence of pushes and pops from the empty
queue, a successful `pop` returns an element of the queue whose timestamp
is minimal among the queued events; tie-breaking among equal timestamps is
NOT stable FIFO (see the counterexample). -/
theorem event_queue_pop_min_timestamp (ops : List (QOp SimEvent))
    (e : SimEvent) (l' : List SimEvent)
    (h : hPop ele (runQOps ele ops) = (some e, l')) :
    e ∈ runQOps ele ops ∧ ∀ x ∈ runQOps ele ops, e.2 ≤ x.2 := by
  have hheap := runQOps_heap ele ele_total ele_trans ops
  rcases hne : runQOps ele ops with _ | ⟨y, ys⟩
  · rw [hne] at h
    simp [hPop] at h
  · rw [hne] at h hheap
    have hcons : (y :: ys) ≠ [] := by simp
    have hfst := hPop_fst ele (y :: ys) hcons
    rw [h] at hfst
    have he : e = y := by simpa using hfst
    subst he
    constructor
    · simp
    · intro x hx
      have := heapProp_mem_le_root ele ele_total ele_trans (e :: ys) hheap x hx
      simpa [ele] using this

/-- C1 (witness for the amended theorem): a concrete push sequence. -/
theorem event_queue_pop_min_timestamp_witness :
    (hPop ele (runQOps ele [QOp.push c1e1, QOp.push c1e2])
      = (some c1e1, [c1e2])) ∧
    (c1e1 ∈ runQOps ele [QOp.push c1e1, QOp.push c1e2] ∧
      ∀ x ∈ runQOps ele [QOp.push c1e1, QOp.push c1e2], c1e1.2 ≤ x.2) :=
  ⟨by decide,
    event_queue_pop_min_timestamp [QOp.push c1e1, QOp.push c1e2] c1e1 [c1e2]
      (by decide)⟩

theorem digitVal_ofNat (d : Nat) (h : d < 10) :
    digitVal (Char.ofNat (48 + d)) = some d := by
  interval_cases d <;> decide

theorem digit_ne_underscore (d : Nat) (h : d < 10) :
    Char.ofNat (48 + d) ≠ '_' := by
  interval_cases d <;> decide

theorem natCharsGo_ne_nil (fuel n : Nat) : natCharsGo fuel n ≠ [] := by
  cases fuel with
  | zero => simp [natCharsGo]
  | succ fuel =>
    rw [natCharsGo]
    split
    · simp
    · simp

theorem natCharsGo_no_underscore :
    ∀ (fuel n : Nat), n ≤ fuel → '_' ∉ natCharsGo fuel n := by
  intro fuel
  induction fuel with
  | zero =>
    intro n hn
    interval_cases n
    decide
  | succ fuel ih =>
    intro n hn
    rw [natCharsGo]
    split
    · simp
      intro hc
      exact digit_ne_underscore n (by omega) hc.symm
    · simp
      constructor
      · exact ih (n / 10) (by omega)
      · intro hc
        exact digit_ne_underscore (n % 10) (by omega) hc.symm

theorem natCharsGo_head_digit :
    ∀ (fuel n : Nat), ∃ d, d < 10 ∧
      (natCharsGo fuel n).head? = some (Char.ofNat (48 + d)) := by
  intro fuel
  induction fuel with
  | zero =>
    intro n
    exact ⟨n % 10, by omega, rfl⟩
  | succ fuel ih =>
    intro n
    rw [natCharsGo]
    split
    · exact ⟨n, by omega, rfl⟩
    · rcases ih (n / 10) with ⟨d, hd, hh⟩
      refine ⟨d, hd, ?_⟩
      rw [List.head?_append_of_ne_nil]
      · exact hh
      · exact natCharsGo_ne_nil fuel (n / 10)

theorem parseNatGo_append (a b : List Char) (acc : Nat) :
    parseNatGo acc (a ++ b) =
      match parseNatGo acc a with
      | some m => parseNatGo m b
      | none => none := by
  induction a generalizing acc with
  | nil => simp [parseNatGo]
  | cons c rest ih =>
    rw [List.cons_append, parseNatGo, parseNatGo]
    match digitVal c with
    | some d => exact ih (10 * acc + d)
    | none => rfl

theorem parseNatGo_natCharsGo :
    ∀ (fuel n acc : Nat), n ≤ fuel →
      parseNatGo acc (natCharsGo fuel n) =
        some (acc * 10 ^ (natCharsGo fuel n).length + n) := by
  intro fuel
  induction fuel with
  | zero =>
    intro n acc hn
    interval_cases n
    simp [natCharsGo, parseNatGo, digitVal_ofNat 0 (by omega)]
    ring
  | succ fuel ih =>
    intro n acc hn
    rw [natCharsGo]
    split
    · simp [parseNatGo, digitVal_ofNat n (by assumption)]
      omega
    · rw [parseNatGo_append]
      rw [ih (n / 10) acc (by omega)]
      simp only [parseNatGo, digitVal_ofNat (n % 10) (by omega)]
      simp only [List.length_append, List.length_singleton]
      congr 1
      have hp : 10 ^ ((natCharsGo fuel (n / 10)).length + 1)
          = 10 ^ (natCharsGo fuel (n / 10)).length * 10 := by
        rw [pow_succ]
      rw [hp]
      ring_nf
      omega

theorem parseNat_natChars (n : Nat) : parseNat (natChars n) = some n := by
  unfold natChars
  rcases hne : natCharsGo n n with _ | ⟨c, rest⟩
  · exact absurd hne (natCharsGo_ne_nil n n)
  · rw [parseNat]
    · rw [← hne, parseNatGo_natCharsGo n n 0 (le_refl n)]
      simp
    · rw [← hne]
      exact natCharsGo_ne_nil n n

theorem parseInt_intChars (n : Int) : parseInt (intChars n) = some n := by
  unfold intChars
  by_cases hneg : n < 0
  · rw [if_pos hneg]
    rw [parseInt]
    simp only [if_pos rfl]
    rw [parseNat_natChars]
    simp
    omega
  · rw [if_neg hneg]
    rcases natCharsGo_head_digit n.toNat n.toNat with ⟨d, hd, hh⟩
    rcases hne : natChars n.toNat with _ | ⟨c, rest⟩
    · exact absurd hne (natCharsGo_ne_nil n.toNat n.toNat)
    · unfold natChars at hne
      rw [hne] at hh
      simp at hh
      rw [parseInt]
      have hcd : c = Char.ofNat (48 + d) := hh
      have h1 : ¬ c = '-' := by
        rw [hcd]
        intro hc
        have := digit_ne_underscore
        interval_cases d <;> simp_all
      have h2 : ¬ c = '+' := by
        rw [hcd]
        interval_cases d <;> simp_all <;> decide
      rw [if_neg h1, if_neg h2, ← hne,
        show natCharsGo n.toNat n.toNat = natChars n.toNat from rfl,
        parseNat_natChars]
      simp
      omega

theorem splitU_ne_nil (l : List Char) : splitU l ≠ [] := by
  induction l with
  | nil => simp [splitU]
  | cons c rest ih =>
    rw [splitU]
    split
    · simp
    · match h : splitU rest with
      | [] => simp
      | h' :: t => simp

theorem splitU_no_underscore (l : List Char) (h : '_' ∉ l) :
    splitU l = [l] := by
  induction l with
  | nil => rfl
  | cons c rest ih =>
    rw [splitU]
    have hc : ¬ c = '_' := by intro hc; exact h (by simp [hc])
    rw [if_neg hc]
    rw [ih (by intro hm; exact h (by simp [hm]))]

theorem splitU_append (a r : List Char) (h : '_' ∉ a) :
    splitU (a ++ '_' :: r) = a :: splitU r := by
  induction a with
  | nil => simp [splitU]
  | cons c rest ih =>
    have hc : ¬ c = '_' := by intro hc; exact h (by simp [hc])
    rw [List.cons_append, splitU, if_neg hc,
      ih (by intro hm; exact h (by simp [hm]))]

theorem underscore_not_in_lower (t : OrderItemType) : '_' ∉ t.lower := by
  cases t <;> decide

theorem underscore_not_in_intChars (n : Int) : '_' ∉ intChars n := by
  unfold intChars
  split
  · simp
    exact natCharsGo_no_underscore _ _ (le_refl _)
  · exact natCharsGo_no_underscore _ _ (le_refl _)

theorem parseItemType_lower (t : OrderItemType) :
    parseItemType t.lower = some t := by
  cases t <;> decide

theorem string_mk_toList (s : String) : String.mk s.toList = s := rfl

/-- C10: for every `OrderItemId` whose order id contains no underscore,
deserializing the serialized form `"<order>_<class_lowercase>_<index>"`
returns the original id (deserialize ∘ serialize = id); the hypothesis is
needed because the parser splits on underscores. -/
theorem order_item_id_roundtrip (id : OrderItemId)
    (h : '_' ∉ id.order_id.toList) :
    OrderItemId.deserializeChars (OrderItemId.serializeChars id) = some id := by
  unfold OrderItemId.serializeChars OrderItemId.deserializeChars
  rw [splitU_append _ _ h]
  rw [splitU_append _ _ (underscore_not_in_lower id.item_type)]
  rw [splitU_no_underscore _ (underscore_not_in_intChars id.index)]
  dsimp only
  rw [parseItemType_lower]
  simp only [Option.bind_eq_bind, Option.some_bind]
  rw [parseInt_intChars]
  simp only [Option.some_bind]
  rfl

/-- C10 (witness): a concrete round trip. -/
theorem order_item_id_roundtrip_witness :
    ('_' ∉ ("o1" : String).toList) ∧
    OrderItemId.deserializeChars
      (OrderItemId.serializeChars
        { order_id := "o1", item_type := OrderItemType.Small, index := 3 })
      = some { order_id := "o1", item_type := OrderItemType.Small, index := 3 } :=
  ⟨by decide,
    order_item_id_roundtrip
      { order_id := "o1", item_type := OrderItemType.Small, index := 3 }
      (by decide)⟩

/-! ## Claim C9: the order-splitting rule

`check_order_split` collects the distinct order ids referenced by a list
of item ids and, for each referenced order whose whole-order demand fits
the vehicle capacity, requires every item of that order to appear in the
list; `checkRoute` runs it on both the load list and the unload list. -/
theorem containsOI_true {l : List OrderItemId} {a : OrderItemId} (h : a ∈ l) :
    l.contains a = true := List.elem_iff.mpr h

theorem containsOI_mem {l : List OrderItemId} {a : OrderItemId}
    (h : l.contains a = true) : a ∈ l := List.elem_iff.mp h

theorem checkSplitOrders_spec (orders : MapT OrderId Order)
    (item_ids : List OrderItemId) (cap : Int) :
    ∀ os : List OrderId, (∀ oid ∈ os, (mget orders oid).isSome = true) →
      (checkSplitOrders orders item_ids cap os = vOk () ∨
        checkSplitOrders orders item_ids cap os = vErr PlanError.OrderSplit) ∧
      (checkSplitOrders orders item_ids cap os = vOk () ↔
        ∀ oid ∈ os, ∀ o, mget orders oid = some o → o.calc_demand ≤ cap →
          ∀ it ∈ o.into_items, it.id ∈ item_ids) := by
  intro os
  induction os with
  | nil =>
    intro _
    refine ⟨Or.inl rfl, ?_⟩
    simp [checkSplitOrders]
  | cons oid rest ih =>
    intro hres
    obtain ⟨o, ho⟩ : ∃ o, mget orders oid = some o :=
      Option.isSome_iff_exists.mp (hres oid (List.mem_cons_self _ _))
    have hrest := ih (fun x hx => hres x (List.mem_cons_of_mem _ hx))
    by_cases hdem : o.calc_demand ≤ cap
    · by_cases hany :
        (o.into_items).any (fun item => !(item_ids.contains item.id)) = true
      · have hstep : checkSplitOrders orders item_ids cap (oid :: rest)
            = vErr PlanError.OrderSplit := by
          simp only [checkSplitOrders]
          rw [ho]
          dsimp only
          rw [if_pos hdem, if_pos hany]
        refine ⟨Or.inr hstep, ?_⟩
        rw [hstep]
        constructor
        · intro h
          exact absurd h (by simp [vOk, vErr])
        · intro hall
          exfalso
          obtain ⟨it, hit, hnc⟩ := List.any_eq_true.mp hany
          have hmem : it.id ∈ item_ids :=
            hall oid (List.mem_cons_self _ _) o ho hdem it hit
          rw [containsOI_true hmem] at hnc
          simp at hnc
      · have hstep : checkSplitOrders orders item_ids cap (oid :: rest)
            = checkSplitOrders orders item_ids cap rest := by
          simp only [checkSplitOrders]
          rw [ho]
          dsimp only
          rw [if_pos hdem, if_neg hany]
        refine ⟨hstep ▸ hrest.1, ?_⟩
        rw [hstep, hrest.2]
        constructor
        · intro h x hx o' ho' hd' it hit
          rcases List.mem_cons.mp hx with hx1 | hx2
          · subst hx1
            rw [ho] at ho'
            obtain rfl : o = o' := Option.some.inj ho'
            by_contra hni
            have hb : (!(item_ids.contains it.id)) = true := by
              cases hc : item_ids.contains it.id
              · rfl
              · exact absurd (containsOI_mem hc) hni
            exact hany (List.any_eq_true.mpr ⟨it, hit, hb⟩)
          · exact h x hx2 o' ho' hd' it hit
        · intro h x hx o' ho' hd' it hit
          exact h x (List.mem_cons_of_mem _ hx) o' ho' hd' it hit
    · have hstep : checkSplitOrders orders item_ids cap (oid :: rest)
          = checkSplitOrders orders item_ids cap rest := by
        simp only [checkSplitOrders]
        rw [ho]
        dsimp only
        rw [if_neg hdem]
      refine ⟨hstep ▸ hrest.1, ?_⟩
      rw [hstep, hrest.2]
      constructor
      · intro h x hx o' ho' hd' it hit
        rcases List.mem_cons.mp hx with hx1 | hx2
        · subst hx1
          rw [ho] at ho'
          obtain rfl : o = o' := Option.some.inj ho'
          exact absurd hd' hdem
        · exact h x hx2 o' ho' hd' it hit
      · intro h x hx
        exact h x (List.mem_cons_of_mem _ hx)

theorem check_order_split_spec (orders : MapT OrderId Order)
    (item_ids : List OrderItemId) (cap : Int)
    (hres : ∀ i ∈ item_ids, (mget orders i.order_id).isSome = true) :
    (check_order_split orders item_ids cap = vOk () ∨
      check_order_split orders item_ids cap = vErr PlanError.OrderSplit) ∧
    (check_order_split orders item_ids cap = vOk () ↔
      ∀ i ∈ item_ids, ∀ o, mget orders i.order_id = some o →
        o.calc_demand ≤ cap → ∀ it ∈ o.into_items, it.id ∈ item_ids) := by
  have hres' : ∀ oid ∈ orderIdsOf item_ids, (mget orders oid).isSome = true := by
    intro oid hoid
    rw [orderIdsOf, List.mem_dedup] at hoid
    obtain ⟨i, hi, rfl⟩ := List.mem_map.mp hoid
    exact hres i hi
  have h := checkSplitOrders_spec orders item_ids cap (orderIdsOf item_ids) hres'
  unfold check_order_split
  refine ⟨h.1, h.2.trans ?_⟩
  constructor
  · intro h' i hi o ho hd it hit
    refine h' i.order_id ?_ o ho hd it hit
    rw [orderIdsOf, List.mem_dedup]
    exact List.mem_map.mpr ⟨i, hi, rfl⟩
  · intro h' oid hoid o ho hd it hit
    rw [orderIdsOf, List.mem_dedup] at hoid
    obtain ⟨i, hi, rfl⟩ := List.mem_map.mp hoid
    exact h' i hi o ho hd it hit

theorem checkRoute_ok_splits (orders : MapT OrderId Order)
    (order_items : MapT OrderItemId OrderItem) (cap : Int)
    (route : VehicleRoute) (td : Int) (stack : List OrderItemId)
    (istates : MapT OrderItemId OrderItemState)
    (out : Int × List OrderItemId × MapT OrderItemId OrderItemState)
    (h : checkRoute orders order_items cap route td stack istates = vOk out) :
    check_order_split orders route.work.load_items cap = vOk () ∧
    check_order_split orders route.work.unload_items cap = vOk () := by
  unfold checkRoute at h
  cases hd : route.work.delta_demand order_items with
  | none => rw [hd] at h; simp [vlift, vbind, vOk] at h
  | some delta =>
    rw [hd] at h
    simp only [vlift, Option.map_some'] at h
    change vbind (vOk delta) _ = _ at h
    rw [vbind_vOk] at h
    split at h
    · exact absurd h (by simp [vOk, vErr])
    · rcases hu : checkUnloads order_items route.destination
          route.work.unload_items.reverse stack istates with _ | eu | su
      · rw [hu] at h; exact absurd h (by simp [vbind, vOk])
      · rw [hu] at h; exact absurd h (by simp [vbind, vOk])
      · rw [hu] at h
        change vbind (vOk su) _ = _ at h
        rw [vbind_vOk] at h
        rcases hl : checkLoads order_items route.destination
            route.work.load_items su.1 su.2 with _ | el | sl
        · rw [hl] at h; exact absurd h (by simp [vbind, vOk])
        · rw [hl] at h; exact absurd h (by simp [vbind, vOk])
        · rw [hl] at h
          change vbind (vOk sl) _ = _ at h
          rw [vbind_vOk] at h
          rcases hs1 : check_order_split orders route.work.load_items cap
              with _ | e1 | u1
          · rw [hs1] at h; exact absurd h (by simp [vbind, vOk])
          · rw [hs1] at h; exact absurd h (by simp [vbind, vOk])
          · rw [hs1] at h
            change vbind (vOk u1) _ = _ at h
            rw [vbind_vOk] at h
            rcases hs2 : check_order_split orders route.work.unload_items cap
                with _ | e2 | u2
            · rw [hs2] at h; exact absurd h (by simp [vbind, vOk])
            · rw [hs2] at h; exact absurd h (by simp [vbind, vOk])
            · cases u1
              cases u2
              exact ⟨rfl, rfl⟩

/-- C9: the validator's order-splitting rule.  Provided every referenced
order id resolves in the catalog, `check_order_split` either accepts or
rejects with exactly `OrderSplit`, and it accepts iff every referenced
order whose whole-order demand fits the capacity has all of its items in
the list (orders whose demand exceeds the capacity are unconstrained, so
they may be split freely); moreover a successful `checkRoute` implies the
split check passed on both the route's `load_items` and its
`unload_items`. -/
theorem order_split_rule (orders : MapT OrderId Order)
    (item_ids : List OrderItemId) (cap : Int)
    (hres : ∀ i ∈ item_ids, (mget orders i.order_id).isSome = true) :
    ((check_order_split orders item_ids cap = vOk () ∨
        check_order_split orders item_ids cap = vErr PlanError.OrderSplit) ∧
      (check_order_split orders item_ids cap = vOk () ↔
        ∀ i ∈ item_ids, ∀ o, mget orders i.order_id = some o →
          o.calc_demand ≤ cap → ∀ it ∈ o.into_items, it.id ∈ item_ids)) ∧
    (∀ (order_items : MapT OrderItemId OrderItem) (route : VehicleRoute)
        (td : Int) (stack : List OrderItemId)
        (istates : MapT OrderItemId OrderItemState)
        (out : Int × List OrderItemId × MapT OrderItemId OrderItemState),
      checkRoute orders order_items cap route td stack istates = vOk out →
      check_order_split orders route.work.load_items cap = vOk () ∧
      check_order_split orders route.work.unload_items cap = vOk ()) :=
  ⟨check_order_split_spec orders item_ids cap hres,
   fun order_items route td stack istates out h =>
     checkRoute_ok_splits orders order_items cap route td stack istates out h⟩

/-- C9 (witness): the rule at a concrete catalog of one two-item order. -/
theorem order_split_rule_witness :
    (∀ i ∈ c9Items, (mget c9Orders i.order_id).isSome = true) ∧
    (((check_order_split c9Orders c9Items 100 = vOk () ∨
        check_order_split c9Orders c9Items 100 = vErr PlanError.OrderSplit) ∧
      (check_order_split c9Orders c9Items 100 = vOk () ↔
        ∀ i ∈ c9Items, ∀ o, mget c9Orders i.order_id = some o →
          o.calc_demand ≤ 100 → ∀ it ∈ o.into_items, it.id ∈ c9Items)) ∧
    (∀ (order_items : MapT OrderItemId OrderItem) (route : VehicleRoute)
        (td : Int) (stack : List OrderItemId)
        (istates : MapT OrderItemId OrderItemState)
        (out : Int × List OrderItemId × MapT OrderItemId OrderItemState),
      checkRoute c9Orders order_items 100 route td stack istates = vOk out →
      check_order_split c9Orders route.work.load_items 100 = vOk () ∧
      check_order_split c9Orders route.work.unload_items 100 = vOk ())) :=
  ⟨by decide, order_split_rule c9Orders c9Items 100 (by decide)⟩

/-! ## Claim C4: validator behaviour on unknown vehicle and item ids

Unknown vehicle ids yield a returned error.  Unknown item ids do NOT: the
first thing `checkRoute` does is `route.work.delta_demand`, whose catalog
lookups are `gets` (panic), so a plan naming an unknown item id in either
`load_items` or `unload_items` panics before any `InvalidItemId` error can
be returned. -/
theorem sumDemands_none (m : MapT OrderItemId OrderItem) :
    ∀ l : List OrderItemId, (∃ i ∈ l, mget m i = none) →
      sumDemands m l = none := by
  intro l
  induction l with
  | nil =>
    rintro ⟨i, hi, _⟩
    cases hi
  | cons a rest ih =>
    rintro ⟨i, hi, hnone⟩
    rcases List.mem_cons.mp hi with rfl | hmem
    · simp [sumDemands, hnone]
    · cases hm : mget m a
      · simp [sumDemands, hm]
      · simp [sumDemands, hm, ih ⟨i, hmem, hnone⟩]

theorem delta_demand_none (w : VehicleWork) (m : MapT OrderItemId OrderItem)
    (h : (∃ i ∈ w.load_items, mget m i = none) ∨
      (∃ i ∈ w.unload_items, mget m i = none)) :
    w.delta_demand m = none := by
  rcases h with h | h
  · simp [VehicleWork.delta_demand, sumDemands_none m _ h]
  · cases hl : sumDemands m w.load_items
    · simp [VehicleWork.delta_demand, hl]
    · simp [VehicleWork.delta_demand, hl, sumDemands_none m _ h]

theorem checkRoute_unknown_item_panics (orders : MapT OrderId Order)
    (order_items : MapT OrderItemId OrderItem) (cap : Int)
    (route : VehicleRoute) (td : Int) (stack : List OrderItemId)
    (istates : MapT OrderItemId OrderItemState)
    (h : (∃ i ∈ route.work.load_items, mget order_items i = none) ∨
      (∃ i ∈ route.work.unload_items, mget order_items i = none)) :
    checkRoute orders order_items cap route td stack istates = none := by
  unfold checkRoute
  rw [delta_demand_none _ _ h]
  rfl

theorem unknown_vehicle_rejected (s : SimState) (v : VehicleId)
    (routes : List VehicleRoute) (rest : List (VehicleId × List VehicleRoute))
    (h : mget s.vehicles v = none) :
    check_planned_routes s ((v, routes) :: rest)
      = vErr PlanError.InvalidVehicleId := by
  unfold check_planned_routes checkVehiclePlans
  rw [h]

/-- C4: an unknown vehicle id is rejected with the typed reason
`InvalidVehicleId` (an error value), but an unknown item id — in
`load_items` or in `unload_items` — makes the validator panic (`none`):
`delta_demand`'s `gets` lookups run before the loops that could return
`InvalidItemId`, so the claimed error return never happens.  The last two
conjuncts run the whole validator on concrete plans naming an unknown
item id and show it panics. -/
theorem unknown_ids_validator :
    (∀ (s : SimState) (v : VehicleId) (routes : List VehicleRoute)
        (rest : List (VehicleId × List VehicleRoute)),
      mget s.vehicles v = none →
      check_planned_routes s ((v, routes) :: rest)
        = vErr PlanError.InvalidVehicleId) ∧
    (∀ (orders : MapT OrderId Order)
        (order_items : MapT OrderItemId OrderItem) (cap : Int)
        (route : VehicleRoute) (td : Int) (stack : List OrderItemId)
        (istates : MapT OrderItemId OrderItemState),
      ((∃ i ∈ route.work.load_items, mget order_items i = none) ∨
        (∃ i ∈ route.work.unload_items, mget order_items i = none)) →
      checkRoute orders order_items cap route td stack istates = none) ∧
    check_planned_routes c4State c4PlanBadVehicle
      = vErr PlanError.InvalidVehicleId ∧
    check_planned_routes c4State c4PlanLoad = none ∧
    check_planned_routes c4State c4PlanUnload = none :=
  ⟨fun s v routes rest h => unknown_vehicle_rejected s v routes rest h,
   fun orders order_items cap route td stack istates h =>
     checkRoute_unknown_item_panics orders order_items cap route td stack
       istates h,
   rfl, rfl, rfl⟩

theorem dedupPush_spec (acc : List VehicleRoute) (r : VehicleRoute) :
    routeLoads (dedupPush acc r) = routeLoads acc ++ r.work.load_items ∧
    routeUnloads (dedupPush acc r) = routeUnloads acc ++ r.work.unload_items ∧
    routeLoadTime (dedupPush acc r) = routeLoadTime acc + r.work.load_time ∧
    routeUnloadTime (dedupPush acc r)
      = routeUnloadTime acc + r.work.unload_time := by
  unfold dedupPush
  cases hl : acc.getLast? with
  | none =>
    simp [routeLoads, routeUnloads, routeLoadTime, routeUnloadTime,
      List.flatMap_append, List.flatMap_cons]
  | some tail =>
    have hacc : acc.dropLast ++ [tail] = acc :=
      List.dropLast_append_getLast? tail hl
    dsimp only
    unfold VehicleRoute.tryMerge
    by_cases hdest : tail.destination == r.destination
    · rw [if_pos hdest]
      dsimp only
      rw [← hacc]
      refine ⟨?_, ?_, ?_, ?_⟩ <;>
        simp [routeLoads, routeUnloads, routeLoadTime, routeUnloadTime,
          List.flatMap_append, List.flatMap_cons, List.dropLast_concat,
          VehicleWork.merge, List.sum_append] <;>
        omega
    · rw [if_neg hdest]
      dsimp only
      simp [routeLoads, routeUnloads, routeLoadTime, routeUnloadTime,
        List.flatMap_append, List.flatMap_cons]

theorem dedupFold_spec :
    ∀ (rs acc : List VehicleRoute),
      routeLoads (rs.foldl dedupPush acc) = routeLoads acc ++ routeLoads rs ∧
      routeUnloads (rs.foldl dedupPush acc)
        = routeUnloads acc ++ routeUnloads rs ∧
      routeLoadTime (rs.foldl dedupPush acc)
        = routeLoadTime acc + routeLoadTime rs ∧
      routeUnloadTime (rs.foldl dedupPush acc)
        = routeUnloadTime acc + routeUnloadTime rs := by
  intro rs
  induction rs with
  | nil =>
    intro acc
    simp [routeLoads, routeUnloads, routeLoadTime, routeUnloadTime]
  | cons r rest ih =>
    intro acc
    have hstep := dedupPush_spec acc r
    have hrec := ih (dedupPush acc r)
    refine ⟨?_, ?_, ?_, ?_⟩
    · rw [List.foldl_cons, hrec.1, hstep.1]
      simp [routeLoads, List.flatMap_cons, List.append_assoc]
    · rw [List.foldl_cons, hrec.2.1, hstep.2.1]
      simp [routeUnloads, List.flatMap_cons, List.append_assoc]
    · rw [List.foldl_cons, hrec.2.2.1, hstep.2.2.1]
      simp [routeLoadTime, List.map_cons]
      omega
    · rw [List.foldl_cons, hrec.2.2.2, hstep.2.2.2]
      simp [routeUnloadTime, List.map_cons]
      omega

theorem dedupPush_chain (acc : List VehicleRoute) (r : VehicleRoute)
    (h : List.Chain' (fun a b => a.destination ≠ b.destination) acc) :
    List.Chain' (fun a b => a.destination ≠ b.destination)
      (dedupPush acc r) := by
  unfold dedupPush
  cases hl : acc.getLast? with
  | none =>
    have : acc = [] := List.getLast?_eq_none.mp hl
    subst this
    exact List.chain'_singleton r
  | some tail =>
    have hacc : acc.dropLast ++ [tail] = acc :=
      List.dropLast_append_getLast? tail hl
    dsimp only
    unfold VehicleRoute.tryMerge
    by_cases hdest : tail.destination == r.destination
    · rw [if_pos hdest]
      dsimp only
      rw [← hacc] at h
      rcases List.chain'_append.mp h with ⟨h1, _, h3⟩
      refine List.chain'_append.mpr ⟨h1, List.chain'_singleton _, ?_⟩
      intro x hx y hy
      simp only [List.head?_cons, Option.mem_def, Option.some.injEq] at hy
      subst hy
      exact h3 x hx tail (by simp)
    · rw [if_neg hdest]
      dsimp only
      refine List.chain'_append.mpr ⟨h, List.chain'_singleton _, ?_⟩
      intro x hx y hy
      simp only [List.head?_cons, Option.mem_def, Option.some.injEq] at hy
      subst hy
      rw [hl] at hx
      simp only [Option.mem_def, Option.some.injEq] at hx
      subst hx
      intro hcontra
      exact hdest (by rw [hcontra]; exact beq_self_eq_true _)

theorem dedupRoutes_chain (routes : List VehicleRoute) :
    List.Chain' (fun a b => a.destination ≠ b.destination)
      (dedupRoutes routes) := by
  have key : ∀ (rs acc : List VehicleRoute),
      List.Chain' (fun a b => a.destination ≠ b.destination) acc →
      List.Chain' (fun a b => a.destination ≠ b.destination)
        (rs.foldl dedupPush acc) := by
    intro rs
    induction rs with
    | nil => intro acc h; exact h
    | cons r rest ih =>
      intro acc h
      exact ih _ (dedupPush_chain acc r h)
  exact key routes [] List.chain'_nil

theorem handle_timestep_raw_error (sched : SchedulerFn) (wall : Nat → Nat)
    (s : SimState) (time : Int) (args : SchedulerArgs) (e : PlanError)
    (hargs : mkSchedulerArgs
      { s with total_distance_last_timeslot := s.total_distance,
               tick := s.tick + 1 } time = some args)
    (hchk : check_planned_routes
      { s with total_distance_last_timeslot := s.total_distance,
               tick := s.tick + 1 } (sched args) = vErr e) :
    handle_timestep sched wall s time = none := by
  unfold handle_timestep
  dsimp only
  rw [hargs]
  simp only [Option.bind_eq_bind, Option.some_bind]
  rw [hchk]
  rfl

/-- C2 (counterexample): the scheduler returns a non-canonical plan that
splits a small order's load across two adjacent routes to the same
destination.  Its deduplication passes the validator, yet the kernel
panics on the timestep: `handle_timestep` validates the raw plan and
never canonicalizes. -/
theorem plan_canonicalization_counterexample :
    check_planned_routes c2State c2Plan = vErr PlanError.OrderSplit ∧
    check_planned_routes c2State (deduplicate c2Plan) = vOk () ∧
    simulate_step c2Sched (fun _ => 0) c2State = none :=
  ⟨rfl, rfl, rfl⟩

/-- C2 (amended): the kernel does not canonicalize.  `handle_timestep`
hands the scheduler's plan to the validator verbatim, so a raw plan the
validator rejects panics the timestep regardless of its canonical form
(first conjunct); `deduplicate` itself does canonicalize correctly — its
output has no two adjacent routes with equal destinations and preserves
the concatenated `load_items`/`unload_items` and the summed
`load_time`/`unload_time` per vehicle (second conjunct) — but it is
called only by the `NaiveScheduler` on its own output, never by the
kernel. -/
theorem timestep_validates_raw_plan :
    (∀ (sched : SchedulerFn) (wall : Nat → Nat) (s : SimState) (time : Int)
        (args : SchedulerArgs) (e : PlanError),
      mkSchedulerArgs
        { s with total_distance_last_timeslot := s.total_distance,
                 tick := s.tick + 1 } time = some args →
      check_planned_routes
        { s with total_distance_last_timeslot := s.total_distance,
                 tick := s.tick + 1 } (sched args) = vErr e →
      handle_timestep sched wall s time = none) ∧
    (∀ routes : List VehicleRoute,
      List.Chain' (fun a b => a.destination ≠ b.destination)
        (dedupRoutes routes) ∧
      routeLoads (dedupRoutes routes) = routeLoads routes ∧
      routeUnloads (dedupRoutes routes) = routeUnloads routes ∧
      routeLoadTime (dedupRoutes routes) = routeLoadTime routes ∧
      routeUnloadTime (dedupRoutes routes) = routeUnloadTime routes) := by
  constructor
  · intro sched wall s time args e hargs hchk
    exact handle_timestep_raw_error sched wall s time args e hargs hchk
  · intro routes
    have h := dedupFold_spec routes []
    refine ⟨dedupRoutes_chain routes, ?_, ?_, ?_, ?_⟩
    · rw [show dedupRoutes routes = routes.foldl dedupPush [] from rfl, h.1]
      simp [routeLoads]
    · rw [show dedupRoutes routes = routes.foldl dedupPush [] from rfl, h.2.1]
      simp [routeUnloads]
    · rw [show dedupRoutes routes = routes.foldl dedupPush [] from rfl, h.2.2.1]
      simp [routeLoadTime]
    · rw [show dedupRoutes routes = routes.foldl dedupPush [] from rfl, h.2.2.2]
      simp [routeUnloadTime]

/-! ## Claim C3: delivery attribution in `handle_finish_load` -/
theorem mget_mset_self [BEq K] [LawfulBEq K] (m : MapT K V) (k : K) (v : V) :
    mget (mset m k v) k = (mget m k).map fun _ => v := by
  induction m with
  | nil => rfl
  | cons p m ih =>
    rw [mset_cons, mget_cons, mget_cons]
    by_cases h : p.1 == k
    · have hk : k == p.1 := by
        rw [beq_iff_eq] at h ⊢
        exact h.symm
      rw [if_pos h, if_pos hk]
      simp [hk]
    · have hk : ¬ (k == p.1) = true := by
        rw [beq_iff_eq] at h ⊢
        exact fun e => h e.symm
      rw [if_neg h, if_neg hk, if_neg hk]
      exact ih

theorem mget_mset_ne [BEq K] [LawfulBEq K] (m : MapT K V) (k k' : K) (v : V)
    (h : k' ≠ k) : mget (mset m k v) k' = mget m k' := by
  induction m with
  | nil => rfl
  | cons p m ih =>
    rw [mset_cons, mget_cons, mget_cons]
    by_cases hp : p.1 == k
    · have hk : ¬ (k' == p.1) = true := by
        rw [beq_iff_eq] at hp ⊢
        rw [hp]
        exact h
      rw [if_pos hp]
      simp only [mget_cons, hk, if_false, if_neg hk]
      exact ih
    · rw [if_neg hp]
      by_cases hk : k' == p.1
      · rw [if_pos hk, if_pos hk]
      · rw [if_neg hk, if_neg hk]
        exact ih

theorem msetChecked_some [BEq K] (m m' : MapT K V) (k : K) (v : V)
    (h : msetChecked m k v = some m') : m' = mset m k v := by
  unfold msetChecked at h
  cases hm : mget m k with
  | none => rw [hm] at h; cases h
  | some w => rw [hm] at h; exact (Option.some.inj h).symm

theorem msetAllChecked_not_mem [BEq K] [LawfulBEq K] :
    ∀ (ks : List K) (m m' : MapT K V) (v : V),
      msetAllChecked m ks v = some m' →
      ∀ k, k ∉ ks → mget m' k = mget m k := by
  intro ks
  induction ks with
  | nil =>
    intro m m' v h k _
    unfold msetAllChecked at h
    rw [List.foldlM_nil] at h
    cases h
    rfl
  | cons a rest ih =>
    intro m m' v h k hk
    unfold msetAllChecked at h
    rw [List.foldlM_cons] at h
    simp only [Option.bind_eq_bind, Option.bind_eq_some] at h
    obtain ⟨m1, h1, h2⟩ := h
    have hm1 : m1 = mset m a v := msetChecked_some m m1 a v h1
    subst hm1
    have := ih (mset m a v) m' v h2 k (fun hmem => hk (List.mem_cons_of_mem _ hmem))
    rw [this, mget_mset_ne]
    exact fun e => hk (e ▸ List.mem_cons_self _ _)

theorem setDelivered_not_mem (order_items : MapT OrderItemId OrderItem)
    (d dock u t : Int) :
    ∀ (items : List OrderItemId) (istates istates' : MapT OrderItemId OrderItemState),
      setDelivered order_items d dock u t istates items = some istates' →
      ∀ i, i ∉ items → mget istates' i = mget istates i := by
  intro items
  induction items with
  | nil =>
    intro istates istates' h i _
    cases h
    rfl
  | cons a rest ih =>
    intro istates istates' h i hi
    unfold setDelivered at h
    simp only [Option.bind_eq_bind, Option.bind_eq_some] at h
    obtain ⟨info, hinfo, m1, hm1, hrec⟩ := h
    have hm1' : m1 = mset istates a _ := msetChecked_some _ _ _ _ hm1
    subst hm1'
    rw [ih _ _ hrec i (fun hmem => hi (List.mem_cons_of_mem _ hmem)),
      mget_mset_ne]
    exact fun e => hi (e ▸ List.mem_cons_self _ _)

theorem setDelivered_mem (order_items : MapT OrderItemId OrderItem)
    (d dock u t : Int) :
    ∀ (items : List OrderItemId) (istates istates' : MapT OrderItemId OrderItemState),
      setDelivered order_items d dock u t istates items = some istates' →
      ∀ i ∈ items, ∃ info, mget order_items i = some info ∧
        mget istates' i = some (OrderItemState.delivered
          (info.committedCompletionAt d) (t - dock - u)) := by
  intro items
  induction items with
  | nil =>
    intro istates istates' _ i hi
    cases hi
  | cons a rest ih =>
    intro istates istates' h i hi
    have h' := h
    unfold setDelivered at h'
    simp only [Option.bind_eq_bind, Option.bind_eq_some] at h'
    obtain ⟨info, hinfo, m1, hm1, hrec⟩ := h'
    rcases List.mem_cons.mp hi with rfl | hmem
    · by_cases hr : i ∈ rest
      · exact ih _ _ hrec i hr
      · refine ⟨info, hinfo, ?_⟩
        rw [setDelivered_not_mem order_items d dock u t rest m1 istates' hrec i hr]
        have hm1' : m1 = mset istates i _ := msetChecked_some _ _ _ _ hm1
        subst hm1'
        have hiSome : (mget istates i).isSome = true := by
          unfold msetChecked at hm1
          cases hmi : mget istates i with
          | none => rw [hmi] at hm1; cases hm1
          | some w => rfl
        rw [mget_mset_self]
        obtain ⟨w, hw⟩ := Option.isSome_iff_exists.mp hiSome
        rw [hw]
        rfl
    · exact ih _ _ hrec i hmem

theorem begin_vehicle_loading_frame (s : SimState) (v : VehicleId)
    (f : FactoryId) (w : VehicleWork) (t : Int) (s' : SimState)
    (h : begin_vehicle_loading s v f w t = some s') :
    s'.order_items = s.order_items ∧ s'.initial_date = s.initial_date ∧
    s'.dock_approaching_time = s.dock_approaching_time ∧
    ∀ x, (mget s'.vehicle_states x).map (fun st => st.current_route)
      = (mget s.vehicle_states x).map (fun st => st.current_route) := by
  unfold begin_vehicle_loading at h
  simp only [Option.bind_eq_bind, Option.bind_eq_some, Option.pure_def,
    Option.some.injEq] at h
  obtain ⟨state, hstate, u1, h1, out, hout, istates, hist, td, htd, info,
    hinfo, u2, h2, hs'⟩ := h
  subst hs'
  refine ⟨rfl, rfl, rfl, ?_⟩
  intro x
  dsimp only
  by_cases hx : x = v
  · subst hx
    rw [mget_mset_self, hstate]
    rfl
  · rw [mget_mset_ne _ _ _ _ hx]

theorem begin_vehicle_transporting_frame (s : SimState) (v : VehicleId)
    (f : FactoryId) (route : VehicleRoute) (t : Int) (s' : SimState)
    (h : begin_vehicle_transporting s v f route t = some s') :
    ∀ i, i ∉ route.work.load_items →
      mget s'.order_item_states i = mget s.order_item_states i := by
  unfold begin_vehicle_transporting at h
  simp only [Option.bind_eq_bind, Option.bind_eq_some, Option.pure_def,
    Option.some.injEq] at h
  obtain ⟨istates, hist, state, hstate, u1, h1, astack, hstack, hs'⟩ := h
  subst hs'
  intro i hi
  dsimp only
  exact msetAllChecked_not_mem _ _ _ _ hist i hi

set_option maxHeartbeats 1000000 in
/-- C3 (spec-modelled `OrderItem::committed_completion_time`): for every
item delivered by a `FinishLoading` event at time `t` (and not immediately
re-loaded by the next route started in the same event), the recorded
state is `Delivered` with `deliver_time =
t - dock_approaching_time - Σ unload_time(delivered_items)` and deadline
the item's committed completion time anchored to `initial_date`. -/
theorem delivery_attribution (s : SimState) (vehicle_id : VehicleId)
    (factory_id : FactoryId) (delivered_items : List OrderItemId)
    (time : Int) (s' : SimState)
    (hnl : ∀ dest ∈ nextRouteHeads s vehicle_id,
      ∀ i ∈ delivered_items, i ∉ dest.work.load_items)
    (h : handle_finish_load s vehicle_id factory_id delivered_items time
      = some s') :
    ∃ total_unload,
      sumUnloadTimes s.order_items delivered_items = some total_unload ∧
      ∀ i ∈ delivered_items, ∃ info, mget s.order_items i = some info ∧
        mget s'.order_item_states i = some (OrderItemState.delivered
          (info.committedCompletionAt s.initial_date)
          (time - s.dock_approaching_time - total_unload)) := by
  unfold handle_finish_load at h
  simp only [Option.bind_eq_bind, Option.bind_eq_some, Option.pure_def,
    Option.some.injEq] at h
  obtain ⟨factory, hfac, s1, hs1, u, hu, istates, hist, state, hstate, u2,
    h2, hfin⟩ := h
  have hs1facts : s1.order_items = s.order_items ∧
      s1.initial_date = s.initial_date ∧
      s1.dock_approaching_time = s.dock_approaching_time ∧
      ∀ x, (mget s1.vehicle_states x).map (fun st => st.current_route)
        = (mget s.vehicle_states x).map (fun st => st.current_route) := by
    unfold dockHandover at hs1
    rcases hq : factory.queue with _ | ⟨⟨vid', work'⟩, qrest⟩
    · rw [hq] at hs1
      simp only [Option.pure_def, Option.some.injEq] at hs1
      subst hs1
      exact ⟨rfl, rfl, rfl, fun x => rfl⟩
    · rw [hq] at hs1
      dsimp only at hs1
      have hf := begin_vehicle_loading_frame _ _ _ _ _ _ hs1
      exact hf
  obtain ⟨hoi, hid, hdock, hvs⟩ := hs1facts
  rw [hoi] at hu
  rw [hoi, hid, hdock] at hist
  refine ⟨u, hu, ?_⟩
  intro i hi
  obtain ⟨info, hinfo, hival⟩ :=
    setDelivered_mem s.order_items s.initial_date s.dock_approaching_time u
      time delivered_items s1.order_item_states istates hist i hi
  refine ⟨info, hinfo, ?_⟩
  rcases hroute : state.current_route with _ | ⟨dest, rest⟩
  · rw [hroute] at hfin
    dsimp only at hfin
    have hfin' := Option.some.inj hfin
    subst hfin'
    exact hival
  · rw [hroute] at hfin
    dsimp only at hfin
    have hframe := begin_vehicle_transporting_frame _ _ _ _ _ _ hfin
    have hnotload : i ∉ dest.work.load_items := by
      have hmap := hvs vehicle_id
      rw [hstate] at hmap
      cases hsv : mget s.vehicle_states vehicle_id with
      | none => rw [hsv] at hmap; simp at hmap
      | some st0 =>
        rw [hsv] at hmap
        simp only [Option.map_some'] at hmap
        have hcr : st0.current_route = state.current_route :=
          (Option.some.inj hmap).symm
        have hheads : nextRouteHeads s vehicle_id = [dest] := by
          unfold nextRouteHeads
          rw [hsv]
          simp only [Option.elim]
          rw [hcr, hroute]
          rfl
        exact hnl dest (by rw [hheads]; exact List.mem_singleton.mpr rfl) i hi
    rw [hframe i hnotload]
    exact hival

/-- C3 (witness): the delivery of `c3d0` by a `FinishLoading` at 9000 is
recorded as `Delivered` with deadline 14400 and
`deliver_time = 9000 - 1800 - 120 = 7080`. -/
theorem delivery_attribution_witness :
    (∀ dest ∈ nextRouteHeads c3State "v1",
      ∀ i ∈ [c3d0], i ∉ dest.work.load_items) ∧
    (∃ total_unload,
      sumUnloadTimes c3State.order_items [c3d0] = some total_unload ∧
      ∀ i ∈ [c3d0], ∃ info, mget c3State.order_items i = some info ∧
        mget c3Final.order_item_states i = some (OrderItemState.delivered
          (info.committedCompletionAt c3State.initial_date)
          (9000 - c3State.dock_approaching_time - total_unload))) :=
  ⟨by decide,
    delivery_attribution c3State "v1" "F" [c3d0] 9000 c3Final (by decide) rfl⟩

theorem countFL_perm (f : FactoryId) {l l' : List SimEvent}
    (h : l.Perm l') : countFL f l = countFL f l' :=
  h.countP_eq (isFLFor f)

theorem countFL_hPush (f : FactoryId) (l : List SimEvent) (x : SimEvent) :
    countFL f (hPush ele l x)
      = countFL f l + (if isFLFor f x then 1 else 0) := by
  rw [countFL_perm f (hPush_perm ele l x)]
  unfold countFL
  rw [List.countP_cons]

theorem countFL_hPop (f : FactoryId) (l : List SimEvent) (h : l ≠ []) :
    countFL f l
      = countFL f (hPop ele l).2
        + (if isFLFor f (l.getD 0 default) then 1 else 0) := by
  rw [← countFL_perm f (hPop_perm ele l h)]
  unfold countFL
  rw [List.countP_cons]

theorem dockInv_transfer (s s' : SimState)
    (hfac : s'.factories = s.factories)
    (hfs : s'.factory_states = s.factory_states)
    (hev : ∀ g, countFL g s'.events = countFL g s.events)
    (h : DockInv s) : DockInv s' := by
  intro f fstate hf
  rw [hfs] at hf
  obtain ⟨⟨finfo, hfi, hsum⟩, hnn, hq⟩ := h f fstate hf
  exact ⟨⟨finfo, by rw [hfac]; exact hfi, by rw [hev]; exact hsum⟩, hnn, hq⟩

theorem begin_vehicle_loading_dock (s : SimState) (v : VehicleId)
    (f : FactoryId) (w : VehicleWork) (t : Int) (s' : SimState)
    (h : begin_vehicle_loading s v f w t = some s') :
    s'.factories = s.factories ∧ s'.factory_states = s.factory_states ∧
    ∃ d tt, s'.events
      = hPush ele s.events (SimulatorEventData.FinishLoading v f d, tt) := by
  unfold begin_vehicle_loading at h
  simp only [Option.bind_eq_bind, Option.bind_eq_some, Option.pure_def,
    Option.some.injEq] at h
  obtain ⟨state, hstate, u1, h1, out, hout, istates, hist, td, htd, info,
    hinfo, u2, h2, hs'⟩ := h
  subst hs'
  exact ⟨rfl, rfl, out.2, _, rfl⟩

theorem begin_vehicle_transporting_dock (s : SimState) (v : VehicleId)
    (f : FactoryId) (route : VehicleRoute) (t : Int) (s' : SimState)
    (h : begin_vehicle_transporting s v f route t = some s') :
    s'.factories = s.factories ∧ s'.factory_states = s.factory_states ∧
    ∃ e, s'.events = hPush ele s.events e ∧ ∀ g, isFLFor g e = false := by
  unfold begin_vehicle_transporting at h
  simp only [Option.bind_eq_bind, Option.bind_eq_some, Option.pure_def,
    Option.some.injEq] at h
  obtain ⟨istates, hist, state, hstate, u1, h1, astack, hstack, hs'⟩ := h
  subst hs'
  exact ⟨rfl, rfl, _, rfl, fun g => rfl⟩

theorem installPlans_dock (t : Int) :
    ∀ (entries : List (VehicleId × List VehicleRoute)) (s s' : SimState),
      installPlans t s entries = some s' →
      s'.factories = s.factories ∧ s'.factory_states = s.factory_states ∧
      ∀ g, countFL g s'.events = countFL g s.events := by
  intro entries
  induction entries with
  | nil =>
    intro s s' h
    cases h
    exact ⟨rfl, rfl, fun g => rfl⟩
  | cons e rest ih =>
    intro s s' h
    obtain ⟨vid, routes⟩ := e
    unfold installPlans at h
    simp only [Option.bind_eq_bind, Option.bind_eq_some] at h
    obtain ⟨state, hst, hm⟩ := h
    generalize hpos : state.position = pos at hm
    rcases pos with f0 | f0 | ⟨f0, g0⟩ <;> rcases routes with _ | ⟨dest, rs⟩
    · dsimp only at hm
      have hres := ih _ _ hm
      exact hres
    · dsimp only at hm
      simp only [Option.bind_eq_bind, Option.bind_eq_some] at hm
      obtain ⟨s2, hb, hr⟩ := hm
      obtain ⟨hbf, hbfs, ev, hbe, hnotfl⟩ :=
        begin_vehicle_transporting_dock _ _ _ _ _ _ hb
      obtain ⟨hrf, hrfs, hrc⟩ := ih _ _ hr
      refine ⟨by rw [hrf, hbf], by rw [hrfs, hbfs], fun g => ?_⟩
      rw [hrc g, hbe, countFL_hPush, hnotfl g]
      simp
    · dsimp only at hm
      have hres := ih _ _ hm
      exact hres
    · dsimp only at hm
      have hres := ih _ _ hm
      exact hres
    · dsimp only at hm
      have hres := ih _ _ hm
      exact hres
    · dsimp only at hm
      have hres := ih _ _ hm
      exact hres

theorem handle_timestep_dock (sched : SchedulerFn) (wall : Nat → Nat)
    (s : SimState) (t : Int) (s' : SimState)
    (h : handle_timestep sched wall s t = some s') :
    s'.factories = s.factories ∧ s'.factory_states = s.factory_states ∧
    ∀ g, countFL g s'.events = countFL g s.events := by
  unfold handle_timestep at h
  simp only [Option.bind_eq_bind, Option.bind_eq_some] at h
  obtain ⟨args, hargs, h2⟩ := h
  split at h2
  · cases h2
  · cases h2
  · simp only [Option.bind_eq_bind, Option.bind_eq_some] at h2
    obtain ⟨s1, hip, hif⟩ := h2
    obtain ⟨hf, hfs, hc⟩ := installPlans_dock t _ _ _ hip
    split at hif
    · simp only [Option.pure_def, Option.some.injEq] at hif
      subst hif
      refine ⟨hf, hfs, fun g => ?_⟩
      dsimp only
      rw [countFL_hPush, hc g]
      simp [isFLFor]
    · simp only [Option.pure_def, Option.some.injEq] at hif
      subst hif
      exact ⟨hf, hfs, hc⟩

theorem handle_order_arrival_shape (s : SimState) (ids : List OrderItemId)
    (s' : SimState) (h : handle_order_arrival s ids = some s') :
    s'.factories = s.factories ∧ s'.factory_states = s.factory_states ∧
    s'.events = s.events := by
  unfold handle_order_arrival at h
  simp only [Option.bind_eq_bind, Option.bind_eq_some, Option.pure_def,
    Option.some.injEq] at h
  obtain ⟨istates, hist, hs'⟩ := h
  subst hs'
  exact ⟨rfl, rfl, rfl⟩

theorem handle_vehicle_arrival_shape (s : SimState) (v : VehicleId)
    (f : FactoryId) (w : VehicleWork) (t : Int) (s' : SimState)
    (h : handle_vehicle_arrival s v f w t = some s') :
    s'.factories = s.factories ∧ s'.factory_states = s.factory_states ∧
    ∃ e, s'.events = hPush ele s.events e ∧ ∀ g, isFLFor g e = false := by
  unfold handle_vehicle_arrival at h
  simp only [Option.bind_eq_bind, Option.bind_eq_some, Option.pure_def,
    Option.some.injEq] at h
  obtain ⟨state, hstate, u1, h1, hs'⟩ := h
  subst hs'
  exact ⟨rfl, rfl, _, rfl, fun g => rfl⟩

theorem handle_vehicle_approached_dock_dockInv (sp : SimState)
    (v : VehicleId) (f : FactoryId) (w : VehicleWork) (t : Int)
    (s' : SimState) (hinv : DockInv sp)
    (h : handle_vehicle_approached_dock sp v f w t = some s') :
    DockInv s' := by
  unfold handle_vehicle_approached_dock at h
  simp only [Option.bind_eq_bind, Option.bind_eq_some] at h
  obtain ⟨fstate, hfst, hbr⟩ := h
  by_cases hz : fstate.num_avail_docks == 0
  · rw [if_pos hz] at hbr
    simp only [Option.pure_def, Option.some.injEq] at hbr
    subst hbr
    intro g gstate hg
    dsimp only at hg ⊢
    by_cases hgf : g = f
    · subst hgf
      rw [mget_mset_self, hfst] at hg
      simp only [Option.map_some', Option.some.injEq] at hg
      subst hg
      obtain ⟨⟨finfo, hfi, hsum⟩, hnn, hq⟩ := hinv g fstate hfst
      exact ⟨⟨finfo, hfi, hsum⟩, hnn, fun _ => beq_iff_eq.mp hz⟩
    · rw [mget_mset_ne _ _ _ _ hgf] at hg
      exact hinv g gstate hg
  · rw [if_neg hz] at hbr
    obtain ⟨hbf, hbfs, dd, tt, hbe⟩ :=
      begin_vehicle_loading_dock _ _ _ _ _ _ hbr
    have havail : fstate.num_avail_docks ≠ 0 := by
      intro hc
      rw [hc] at hz
      simp at hz
    intro g gstate hg
    rw [hbfs] at hg
    dsimp only at hg
    by_cases hgf : g = f
    · subst hgf
      rw [mget_mset_self, hfst] at hg
      simp only [Option.map_some', Option.some.injEq] at hg
      subst hg
      obtain ⟨⟨finfo, hfi, hsum⟩, hnn, hq⟩ := hinv g fstate hfst
      refine ⟨⟨finfo, by rw [hbf]; exact hfi, ?_⟩, ?_, ?_⟩
      · rw [hbe, countFL_hPush]
        have hfl : isFLFor g (SimulatorEventData.FinishLoading v g dd, tt)
            = true := by
          simp [isFLFor]
        rw [hfl]
        dsimp only
        push_cast
        rw [if_pos rfl]
        omega
      · dsimp only
        omega
      · intro hq2
        exact absurd (hq hq2) havail
    · rw [mget_mset_ne _ _ _ _ hgf] at hg
      obtain ⟨⟨finfo, hfi, hsum⟩, hnn, hq⟩ := hinv g gstate hg
      refine ⟨⟨finfo, by rw [hbf]; exact hfi, ?_⟩, hnn, hq⟩
      rw [hbe, countFL_hPush]
      have hfl : isFLFor g (SimulatorEventData.FinishLoading v f dd, tt)
          = false := by
        simp only [isFLFor]
        exact beq_eq_false_iff_ne.mpr fun e => hgf e.symm
      rw [hfl]
      dsimp only
      push_cast
      omega

theorem handle_finish_load_dockInv (sp : SimState) (v : VehicleId)
    (f : FactoryId) (d : List OrderItemId) (t : Int) (s' : SimState)
    (hinv : ∀ g gstate, mget sp.factory_states g = some gstate →
      (∃ finfo, mget sp.factories g = some finfo ∧
        gstate.num_avail_docks + (countFL g sp.events : Int)
          + (if g = f then 1 else 0) = finfo.port_num) ∧
      0 ≤ gstate.num_avail_docks ∧
      (gstate.queue ≠ [] → gstate.num_avail_docks = 0))
    (h : handle_finish_load sp v f d t = some s') : DockInv s' := by
  unfold handle_finish_load at h
  simp only [Option.bind_eq_bind, Option.bind_eq_some] at h
  obtain ⟨factory, hfac, s1, hs1, u, hu, istates, hist, state, hstate, u2,
    h2, hfin⟩ := h
  have hinv1 : DockInv s1 := by
    unfold dockHandover at hs1
    rcases hq : factory.queue with _ | ⟨⟨vid', work'⟩, qrest⟩
    · rw [hq] at hs1
      simp only [Option.pure_def, Option.some.injEq] at hs1
      subst hs1
      intro g gstate hg
      dsimp only at hg ⊢
      by_cases hgf : g = f
      · subst hgf
        rw [mget_mset_self, hfac] at hg
        simp only [Option.map_some', Option.some.injEq] at hg
        subst hg
        obtain ⟨⟨finfo, hfi, hsum⟩, hnn, hqq⟩ := hinv g factory hfac
        rw [if_pos rfl] at hsum
        refine ⟨⟨finfo, hfi, ?_⟩, ?_, ?_⟩
        · dsimp only
          omega
        · dsimp only
          omega
        · intro hq2
          exact absurd rfl hq2
      · rw [mget_mset_ne _ _ _ _ hgf] at hg
        obtain ⟨⟨finfo, hfi, hsum⟩, hnn, hqq⟩ := hinv g gstate hg
        rw [if_neg hgf] at hsum
        exact ⟨⟨finfo, hfi, by omega⟩, hnn, hqq⟩
    · rw [hq] at hs1
      dsimp only at hs1
      obtain ⟨hbf, hbfs, dd, tt, hbe⟩ :=
        begin_vehicle_loading_dock _ _ _ _ _ _ hs1
      intro g gstate hg
      rw [hbfs] at hg
      dsimp only at hg
      by_cases hgf : g = f
      · subst hgf
        rw [mget_mset_self, hfac] at hg
        simp only [Option.map_some', Option.some.injEq] at hg
        subst hg
        obtain ⟨⟨finfo, hfi, hsum⟩, hnn, hqq⟩ := hinv g factory hfac
        rw [if_pos rfl] at hsum
        refine ⟨⟨finfo, by rw [hbf]; exact hfi, ?_⟩, ?_, ?_⟩
        · rw [hbe, countFL_hPush]
          have hfl : isFLFor g
              (SimulatorEventData.FinishLoading vid' g dd, tt) = true := by
            simp [isFLFor]
          rw [hfl]
          dsimp only
          push_cast
          rw [if_pos rfl]
          omega
        · dsimp only
          omega
        · intro _
          dsimp only
          exact hqq (by rw [hq]; simp)
      · rw [mget_mset_ne _ _ _ _ hgf] at hg
        obtain ⟨⟨finfo, hfi, hsum⟩, hnn, hqq⟩ := hinv g gstate hg
        rw [if_neg hgf] at hsum
        refine ⟨⟨finfo, by rw [hbf]; exact hfi, ?_⟩, hnn, hqq⟩
        rw [hbe, countFL_hPush]
        have hfl : isFLFor g
            (SimulatorEventData.FinishLoading vid' f dd, tt) = false := by
          simp only [isFLFor]
          exact beq_eq_false_iff_ne.mpr fun e => hgf e.symm
        rw [hfl]
        dsimp only
        push_cast
        omega
  rcases hroute : state.current_route with _ | ⟨dest, rest⟩
  · rw [hroute] at hfin
    have hfin' := Option.some.inj hfin
    subst hfin'
    intro g gstate hg
    dsimp only at hg ⊢
    exact hinv1 g gstate hg
  · rw [hroute] at hfin
    obtain ⟨hbf, hbfs, ev, hbe, hnofl⟩ :=
      begin_vehicle_transporting_dock _ _ _ _ _ _ hfin
    intro g gstate hg
    rw [hbfs] at hg
    dsimp only at hg
    obtain ⟨⟨finfo, hfi, hsum⟩, hnn, hqq⟩ := hinv1 g gstate hg
    refine ⟨⟨finfo, by rw [hbf]; exact hfi, ?_⟩, hnn, hqq⟩
    rw [hbe, countFL_hPush, hnofl g]
    dsimp only
    push_cast
    omega

theorem countFL_hPush_false (g : FactoryId) (l : List SimEvent)
    (x : SimEvent) (hx : isFLFor g x = false) :
    countFL g (hPush ele l x) = countFL g l := by
  rw [countFL_hPush, hx]
  simp

theorem dockInv_step (sched : SchedulerFn) (wall : Nat → Nat)
    (s s' : SimState) (hinv : DockInv s)
    (h : simulate_step sched wall s = some s') : DockInv s' := by
  unfold simulate_step at h
  rcases hp : hPop ele s.events with ⟨eopt, rest⟩
  rw [hp] at h
  rcases eopt with _ | et
  · dsimp only at h
    simp only [Option.some.injEq] at h
    subst h
    exact hinv
  · dsimp only at h
    have hne : s.events ≠ [] := by
      intro hc
      rw [hc] at hp
      simp [hPop] at hp
    have hfst := hPop_fst ele s.events hne
    rw [hp] at hfst
    have het : et = s.events.getD 0 default := by simpa using hfst
    have hcnt : ∀ g, countFL g s.events
        = countFL g rest + (if isFLFor g et then 1 else 0) := by
      intro g
      have hc := countFL_hPop g s.events hne
      rw [hp] at hc
      rw [het]
      exact hc
    obtain ⟨ed, ts⟩ := et
    rcases ed with ⟨oid, ids⟩ | ⟨v, f, w⟩ | ⟨v, f, w⟩ | ⟨v, f, d⟩ | _ <;>
      dsimp only at h
    · obtain ⟨hf, hfs, hev⟩ := handle_order_arrival_shape _ _ _ h
      refine dockInv_transfer s s' hf hfs (fun g => ?_) hinv
      rw [hev]
      have hc := hcnt g
      simp only [isFLFor, Bool.false_eq_true, if_false] at hc
      dsimp only
      omega
    · obtain ⟨hf, hfs, ev, hev, hnofl⟩ :=
        handle_vehicle_arrival_shape _ _ _ _ _ _ h
      refine dockInv_transfer s s' hf hfs (fun g => ?_) hinv
      rw [hev, countFL_hPush_false g _ _ (hnofl g)]
      have hc := hcnt g
      simp only [isFLFor, Bool.false_eq_true, if_false] at hc
      dsimp only
      omega
    · refine handle_vehicle_approached_dock_dockInv _ _ _ _ _ _ ?_ h
      refine dockInv_transfer s _ rfl rfl (fun g => ?_) hinv
      have hc := hcnt g
      simp only [isFLFor, Bool.false_eq_true, if_false] at hc
      dsimp only
      omega
    · refine handle_finish_load_dockInv _ _ _ _ _ _ ?_ h
      intro g gstate hg
      obtain ⟨⟨finfo, hfi, hsum⟩, hnn, hqq⟩ := hinv g gstate hg
      refine ⟨⟨finfo, hfi, ?_⟩, hnn, hqq⟩
      have hc := hcnt g
      simp only [isFLFor] at hc
      by_cases hgf : g = f
      · subst hgf
        rw [if_pos rfl]
        simp at hc
        dsimp only
        omega
      · rw [if_neg hgf]
        have hbeq : (f == g) = false :=
          beq_eq_false_iff_ne.mpr fun e => hgf e.symm
        simp only [hbeq, Bool.false_eq_true, if_false] at hc
        dsimp only
        omega
    · obtain ⟨hf, hfs, hev⟩ := handle_timestep_dock _ _ _ _ _ h
      refine dockInv_transfer s s' hf hfs (fun g => ?_) hinv
      rw [hev g]
      have hc := hcnt g
      simp only [isFLFor, Bool.false_eq_true, if_false] at hc
      dsimp only
      omega

theorem mget_factoryStates (factories : MapT FactoryId FactoryInfo)
    (f : FactoryId) :
    mget (factories.map fun kv => (kv.1, FactoryState.new kv.2.port_num)) f
      = (mget factories f).map fun v => FactoryState.new v.port_num := by
  induction factories with
  | nil => rfl
  | cons p m ih =>
    rw [List.map_cons, mget_cons, mget_cons]
    by_cases hk : f == p.1
    · rw [if_pos hk, if_pos hk]
      rfl
    · rw [if_neg hk, if_neg hk]
      exact ih

theorem countFL_initEvents (g : FactoryId) (orders : MapT OrderId Order)
    (d : Int) : countFL g (initEvents orders d) = 0 := by
  unfold initEvents
  rw [countFL_hPush_false g _
    (SimulatorEventData.UpdateTimestep, andTime d 0) rfl]
  have key : ∀ (l : List (OrderId × Order)) (q : List SimEvent),
      countFL g q = 0 →
      countFL g (l.foldl (fun q kv =>
        hPush ele q
          (SimulatorEventData.OrderArrival kv.2.order_id
            ((kv.2.into_items).map fun o => o.id),
            andTime d kv.2.creation_time)) q) = 0 := by
    intro l
    induction l with
    | nil => intro q hq; exact hq
    | cons kv rest ih =>
      intro q hq
      rw [List.foldl_cons]
      refine ih _ ?_
      rw [countFL_hPush_false g q
        (SimulatorEventData.OrderArrival kv.2.order_id
          ((kv.2.into_items).map fun o => o.id),
          andTime d kv.2.creation_time) rfl, hq]
  exact key orders [] rfl

theorem dockInv_init (routes0 : MapT (FactoryId × FactoryId) SingleRoute)
    (factories : MapT FactoryId FactoryInfo)
    (vehicles : MapT VehicleId VehicleInfo) (orders : MapT OrderId Order)
    (ipos : MapT VehicleId FactoryId) (d : Int) (s0 : SimState)
    (hports : ∀ f finfo, mget factories f = some finfo → 0 ≤ finfo.port_num)
    (h : initState routes0 factories vehicles orders ipos d = some s0) :
    DockInv s0 := by
  unfold initState at h
  simp only [Option.bind_eq_bind, Option.bind_eq_some, Option.pure_def,
    Option.some.injEq] at h
  obtain ⟨vs, hvs, hs0⟩ := h
  subst hs0
  intro f fstate hf
  dsimp only at hf ⊢
  rw [mget_factoryStates] at hf
  cases hfi : mget factories f with
  | none => rw [hfi] at hf; cases hf
  | some finfo =>
    rw [hfi] at hf
    simp only [Option.map_some', Option.some.injEq] at hf
    subst hf
    refine ⟨⟨finfo, rfl, ?_⟩, ?_, ?_⟩
    · rw [countFL_initEvents]
      simp [FactoryState.new]
    · exact hports f finfo hfi
    · intro hq
      exact absurd rfl hq

theorem dockInv_stepN (sched : SchedulerFn) (wall : Nat → Nat) :
    ∀ (n : Nat) (s s' : SimState), stepN sched wall n s = some s' →
      DockInv s → DockInv s' := by
  intro n
  induction n with
  | zero =>
    intro s s' h hinv
    cases h
    exact hinv
  | succ n ih =>
    intro s s' h hinv
    unfold stepN at h
    simp only [Option.bind_eq_bind, Option.bind_eq_some] at h
    obtain ⟨s1, h1, h2⟩ := h
    exact ih _ _ h2 (dockInv_step sched wall s s1 hinv h1)

/-- C7: dock conservation.  In every state reachable by the event loop
from `Simulator::new` (with non-negative catalog `port_num`s), at every
factory the free docks (`num_avail_docks`) plus the busy docks (the
outstanding `FinishLoading` events of that factory) equal `port_num`;
the free-dock count never goes negative; and a non-empty waiting queue
forces zero free docks. -/
theorem dock_conservation (routes0 : MapT (FactoryId × FactoryId) SingleRoute)
    (factories : MapT FactoryId FactoryInfo)
    (vehicles : MapT VehicleId VehicleInfo) (orders : MapT OrderId Order)
    (ipos : MapT VehicleId FactoryId) (d : Int)
    (sched : SchedulerFn) (wall : Nat → Nat) (n : Nat) (s0 s' : SimState)
    (hports : ∀ f finfo, mget factories f = some finfo → 0 ≤ finfo.port_num)
    (hinit : initState routes0 factories vehicles orders ipos d = some s0)
    (hrun : stepN sched wall n s0 = some s') :
    ∀ f fstate, mget s'.factory_states f = some fstate →
      ∃ finfo, mget s'.factories f = some finfo ∧
        fstate.num_avail_docks + (countFL f s'.events : Int) = finfo.port_num ∧
        0 ≤ fstate.num_avail_docks ∧
        (fstate.queue ≠ [] → fstate.num_avail_docks = 0) := by
  have hinv : DockInv s' :=
    dockInv_stepN sched wall n s0 s' hrun
      (dockInv_init routes0 factories vehicles orders ipos d s0 hports hinit)
  intro f fstate hf
  obtain ⟨⟨finfo, hfi, hsum⟩, hnn, hq⟩ := hinv f fstate hf
  exact ⟨finfo, hfi, hsum, hnn, hq⟩

theorem c7ports :
    ∀ f finfo, mget [("F", c7Finfo)] f = some finfo → 0 ≤ finfo.port_num := by
  intro f finfo hf
  rw [mget_cons] at hf
  split at hf
  · obtain rfl := Option.some.inj hf
    decide
  · rw [mget_nil] at hf
    cases hf

/-- C7 (witness): a one-factory world stepped once from `Simulator::new`
satisfies the conservation statement. -/
theorem dock_conservation_witness :
    (∀ f finfo, mget [("F", c7Finfo)] f = some finfo → 0 ≤ finfo.port_num) ∧
    initState [] [("F", c7Finfo)] [] [] [] 0 = some c7S0 ∧
    stepN (fun _ => []) (fun _ => 0) 1 c7S0 = some c7S1 ∧
    (∀ f fstate, mget c7S1.factory_states f = some fstate →
      ∃ finfo, mget c7S1.factories f = some finfo ∧
        fstate.num_avail_docks + (countFL f c7S1.events : Int)
          = finfo.port_num ∧
        0 ≤ fstate.num_avail_docks ∧
        (fstate.queue ≠ [] → fstate.num_avail_docks = 0)) :=
  ⟨c7ports, rfl, rfl,
   dock_conservation [] [("F", c7Finfo)] [] [] [] 0 (fun _ => [])
     (fun _ => 0) 1 c7S0 c7S1 c7ports rfl rfl⟩

/-- C5 (counterexample): factory `F` has `port_num = 1`, yet after a
timestep dispatching both vehicles to `F` and their two arrivals, BOTH
are `DoingWork "F"` while `F`'s waiting queue is empty (they are
approaching the dock; neither holds one). -/
theorem doing_work_port_counterexample :
    (c5Finfo "F").port_num = 1 ∧
    mget c5S0.factories "F" = some (c5Finfo "F") ∧
    (stepN c5Sched (fun _ => 0) 3 c5S0).map (countDoingWork "F")
      = some 2 ∧
    (stepN c5Sched (fun _ => 0) 3 c5S0).map
        (fun s' => (mget s'.factory_states "F").map fun st => st.queue)
      = some (some []) := by decide

/-- C5 (amended): the dock bound applies to vehicles in service, not to
`DoingWork` positions: in every reachable state, the number of vehicles
holding a dock of `f` (outstanding `FinishLoading` events for `f`) is at
most `port_num f`.  `DoingWork(F)` is set on arrival, 30 minutes before
the dock is requested, so it can exceed `port_num` with an empty waiting
queue (see the counterexample). -/
theorem vehicles_in_service_bound
    (routes0 : MapT (FactoryId × FactoryId) SingleRoute)
    (factories : MapT FactoryId FactoryInfo)
    (vehicles : MapT VehicleId VehicleInfo) (orders : MapT OrderId Order)
    (ipos : MapT VehicleId FactoryId) (d : Int)
    (sched : SchedulerFn) (wall : Nat → Nat) (n : Nat) (s0 s' : SimState)
    (hports : ∀ f finfo, mget factories f = some finfo → 0 ≤ finfo.port_num)
    (hinit : initState routes0 factories vehicles orders ipos d = some s0)
    (hrun : stepN sched wall n s0 = some s') :
    ∀ f fstate, mget s'.factory_states f = some fstate →
      ∀ finfo, mget s'.factories f = some finfo →
        (countFL f s'.events : Int) ≤ finfo.port_num := by
  have hinv : DockInv s' :=
    dockInv_stepN sched wall n s0 s' hrun
      (dockInv_init routes0 factories vehicles orders ipos d s0 hports hinit)
  intro f fstate hf finfo hfi
  obtain ⟨⟨finfo', hfi', hsum⟩, hnn, hq⟩ := hinv f fstate hf
  rw [hfi] at hfi'
  obtain rfl := Option.some.inj hfi'
  omega

theorem c5ports :
    ∀ f finfo, mget c5Factories f = some finfo → 0 ≤ finfo.port_num := by
  intro f finfo hf
  unfold c5Factories at hf
  rw [mget_cons] at hf
  split at hf
  · obtain rfl := Option.some.inj hf
    decide
  · rw [mget_cons] at hf
    split at hf
    · obtain rfl := Option.some.inj hf
      decide
    · rw [mget_nil] at hf
      cases hf

/-- C5 (witness): the bound at the concrete two-vehicle scenario. -/
theorem vehicles_in_service_bound_witness :
    (∀ f finfo, mget c5Factories f = some finfo → 0 ≤ finfo.port_num) ∧
    initState c5Routes c5Factories c5Vehicles [] c5IPos 0 = some c5S0 ∧
    stepN c5Sched (fun _ => 0) 0 c5S0 = some c5S0 ∧
    (∀ f fstate, mget c5S0.factory_states f = some fstate →
      ∀ finfo, mget c5S0.factories f = some finfo →
        (countFL f c5S0.events : Int) ≤ finfo.port_num) :=
  ⟨c5ports, rfl, rfl,
   vehicles_in_service_bound c5Routes c5Factories c5Vehicles [] c5IPos 0
     c5Sched (fun _ => 0) 0 c5S0 c5S0 c5ports rfl rfl⟩

/-- C8 (counterexample): the validator accepts a plan whose `Work` has
`load_time = -7200`; the resulting `FinishLoading` is scheduled at
`2400 - 7200 = -4800`, and the dispatched-timestamp sequence
`[0, 600, 2400, -4800]` regresses. -/
theorem event_time_regression_counterexample :
    check_planned_routes c8S0 c8Plan = vOk () ∧
    (stepTrace c8Sched (fun _ => 0) 4 c8S0).map (fun p => p.2)
      = some [0, 600, 2400, -4800] ∧
    ¬ ((2400 : Int) ≤ -4800) :=
  ⟨rfl, by decide, by decide⟩

theorem queryTime_nonneg (routes : MapT (FactoryId × FactoryId) SingleRoute)
    (h : ∀ k r, mget routes k = some r → 0 ≤ r.time) (f g : FactoryId) :
    0 ≤ queryTime routes f g := by
  unfold queryTime
  by_cases hfg : f == g
  · rw [if_pos hfg]
  · rw [if_neg hfg]
    cases hr : mget routes (f, g) with
    | none => decide
    | some r => exact h _ _ hr

theorem mget_mem [BEq K] [LawfulBEq K] (m : MapT K V) (k : K) (v : V)
    (h : mget m k = some v) : (k, v) ∈ m := by
  induction m with
  | nil => cases h
  | cons p m ih =>
    rw [mget_cons] at h
    by_cases hk : k == p.1
    · rw [if_pos hk] at h
      obtain rfl := Option.some.inj h
      obtain rfl : k = p.1 := beq_iff_eq.mp hk
      exact List.mem_cons_self _ _
    · rw [if_neg hk] at h
      exact List.mem_cons_of_mem _ (ih h)

theorem root_mem (l : List SimEvent) (h : l ≠ []) :
    l.getD 0 default ∈ l := by
  have h0 : 0 < l.length := List.length_pos.mpr h
  rw [List.getD_eq_getElem _ _ h0]
  exact List.getElem_mem h0

/-- Pushing an on-time, time-sane event preserves the three event-queue
conjuncts. -/
theorem events_push_ok (l : List SimEvent) (x : SimEvent) (clock : Int)
    (hheap : HeapProp ele l) (hlb : ∀ e ∈ l, clock ≤ e.2)
    (hok : ∀ e ∈ l, okEvent e) (hxt : clock ≤ x.2) (hxok : okEvent x) :
    HeapProp ele (hPush ele l x) ∧
    (∀ e ∈ hPush ele l x, clock ≤ e.2) ∧
    (∀ e ∈ hPush ele l x, okEvent e) := by
  refine ⟨hPush_heap ele ele_total ele_trans l x hheap, ?_, ?_⟩
  · intro e he
    rcases List.mem_cons.mp ((hPush_perm ele l x).mem_iff.mp he) with rfl | hm
    · exact hxt
    · exact hlb e hm
  · intro e he
    rcases List.mem_cons.mp ((hPush_perm ele l x).mem_iff.mp he) with rfl | hm
    · exact hxok
    · exact hok e hm

theorem begin_vehicle_loading_time (s : SimState) (v : VehicleId)
    (f : FactoryId) (w : VehicleWork) (t : Int) (s' : SimState)
    (hinv : TimeInv s t) (hw : okW w)
    (h : begin_vehicle_loading s v f w t = some s') : TimeInv s' t := by
  obtain ⟨hheap, hlb, hok, hveh, hfq, hdock, hti, hroutes⟩ := hinv
  unfold begin_vehicle_loading at h
  simp only [Option.bind_eq_bind, Option.bind_eq_some, Option.pure_def,
    Option.some.injEq] at h
  obtain ⟨state, hstate, u1, h1, out, hout, istates, hist, td, htd, info,
    hinfo, u2, h2, hs'⟩ := h
  subst hs'
  obtain ⟨hh, hl, ho⟩ := events_push_ok s.events
    (SimulatorEventData.FinishLoading v f out.2,
      t + (w.load_time + w.unload_time))
    t hheap hlb hok (by obtain ⟨hw1, hw2⟩ := hw; omega) trivial
  refine ⟨hh, hl, ho, ?_, hfq, hdock, hti, hroutes⟩
  intro v' st' hst' r hr
  dsimp only at hst'
  by_cases hv : v' = v
  · subst hv
    rw [mget_mset_self, hstate] at hst'
    simp only [Option.map_some', Option.some.injEq] at hst'
    subst hst'
    exact hveh v' state hstate r hr
  · rw [mget_mset_ne _ _ _ _ hv] at hst'
    exact hveh v' st' hst' r hr

theorem begin_vehicle_transporting_time (s : SimState) (v : VehicleId)
    (f : FactoryId) (route : VehicleRoute) (t : Int) (s' : SimState)
    (hinv : TimeInv s t) (hw : okW route.work)
    (h : begin_vehicle_transporting s v f route t = some s') :
    TimeInv s' t := by
  obtain ⟨hheap, hlb, hok, hveh, hfq, hdock, hti, hroutes⟩ := hinv
  unfold begin_vehicle_transporting at h
  simp only [Option.bind_eq_bind, Option.bind_eq_some, Option.pure_def,
    Option.some.injEq] at h
  obtain ⟨istates, hist, state, hstate, u1, h1, astack, hstack, hs'⟩ := h
  subst hs'
  obtain ⟨hh, hl, ho⟩ := events_push_ok s.events
    (SimulatorEventData.VehicleArrival v route.destination route.work,
      t + queryTime s.routes f route.destination)
    t hheap hlb hok
    (by have := queryTime_nonneg s.routes hroutes f route.destination; omega)
    hw
  refine ⟨hh, hl, ho, ?_, hfq, hdock, hti, hroutes⟩
  intro v' st' hst' r hr
  dsimp only at hst'
  by_cases hv : v' = v
  · subst hv
    rw [mget_mset_self, hstate] at hst'
    simp only [Option.map_some', Option.some.injEq] at hst'
    subst hst'
    exact hveh v' state hstate r hr
  · rw [mget_mset_ne _ _ _ _ hv] at hst'
    exact hveh v' st' hst' r hr

theorem handle_order_arrival_time (s : SimState) (ids : List OrderItemId)
    (t : Int) (s' : SimState) (hinv : TimeInv s t)
    (h : handle_order_arrival s ids = some s') : TimeInv s' t := by
  unfold handle_order_arrival at h
  simp only [Option.bind_eq_bind, Option.bind_eq_some, Option.pure_def,
    Option.some.injEq] at h
  obtain ⟨istates, hist, hs'⟩ := h
  subst hs'
  exact hinv

theorem handle_vehicle_arrival_time (s : SimState) (v : VehicleId)
    (f : FactoryId) (w : VehicleWork) (t : Int) (s' : SimState)
    (hinv : TimeInv s t) (hw : okW w)
    (h : handle_vehicle_arrival s v f w t = some s') : TimeInv s' t := by
  obtain ⟨hheap, hlb, hok, hveh, hfq, hdock, hti, hroutes⟩ := hinv
  unfold handle_vehicle_arrival at h
  simp only [Option.bind_eq_bind, Option.bind_eq_some, Option.pure_def,
    Option.some.injEq] at h
  obtain ⟨state, hstate, u1, h1, hs'⟩ := h
  subst hs'
  obtain ⟨hh, hl, ho⟩ := events_push_ok s.events
    (SimulatorEventData.VehicleApproachedDock v f w,
      t + s.dock_approaching_time)
    t hheap hlb hok (by rw [hdock]; omega) hw
  refine ⟨hh, hl, ho, ?_, hfq, hdock, hti, hroutes⟩
  intro v' st' hst' r hr
  dsimp only at hst'
  by_cases hv : v' = v
  · subst hv
    rw [mget_mset_self, hstate] at hst'
    simp only [Option.map_some', Option.some.injEq] at hst'
    subst hst'
    exact hveh v' state hstate r hr
  · rw [mget_mset_ne _ _ _ _ hv] at hst'
    exact hveh v' st' hst' r hr

theorem handle_vehicle_approached_dock_time (s : SimState) (v : VehicleId)
    (f : FactoryId) (w : VehicleWork) (t : Int) (s' : SimState)
    (hinv : TimeInv s t) (hw : okW w)
    (h : handle_vehicle_approached_dock s v f w t = some s') :
    TimeInv s' t := by
  unfold handle_vehicle_approached_dock at h
  simp only [Option.bind_eq_bind, Option.bind_eq_some] at h
  obtain ⟨fstate, hfst, hbr⟩ := h
  obtain ⟨hheap, hlb, hok, hveh, hfq, hdock, hti, hroutes⟩ := hinv
  by_cases hz : fstate.num_avail_docks == 0
  · rw [if_pos hz] at hbr
    simp only [Option.pure_def, Option.some.injEq] at hbr
    subst hbr
    refine ⟨hheap, hlb, hok, hveh, ?_, hdock, hti, hroutes⟩
    intro f' fs' hf' q hq
    dsimp only at hf'
    by_cases hff : f' = f
    · subst hff
      rw [mget_mset_self, hfst] at hf'
      simp only [Option.map_some', Option.some.injEq] at hf'
      subst hf'
      dsimp only at hq
      rcases List.mem_append.mp hq with hm | hm
      · exact hfq f' fstate hfst q hm
      · rw [List.mem_singleton.mp hm]
        exact hw
    · rw [mget_mset_ne _ _ _ _ hff] at hf'
      exact hfq f' fs' hf' q hq
  · rw [if_neg hz] at hbr
    refine begin_vehicle_loading_time _ _ _ _ _ _ ?_ hw hbr
    refine ⟨hheap, hlb, hok, hveh, ?_, hdock, hti, hroutes⟩
    intro f' fs' hf' q hq
    dsimp only at hf'
    by_cases hff : f' = f
    · subst hff
      rw [mget_mset_self, hfst] at hf'
      simp only [Option.map_some', Option.some.injEq] at hf'
      subst hf'
      exact hfq f' fstate hfst q hq
    · rw [mget_mset_ne _ _ _ _ hff] at hf'
      exact hfq f' fs' hf' q hq

theorem handle_finish_load_time (s : SimState) (v : VehicleId)
    (f : FactoryId) (d : List OrderItemId) (t : Int) (s' : SimState)
    (hinv : TimeInv s t)
    (h : handle_finish_load s v f d t = some s') : TimeInv s' t := by
  unfold handle_finish_load at h
  simp only [Option.bind_eq_bind, Option.bind_eq_some] at h
  obtain ⟨factory, hfac, s1, hs1, u, hu, istates, hist, state, hstate, u2,
    h2, hfin⟩ := h
  have hinv1 : TimeInv s1 t := by
    unfold dockHandover at hs1
    rcases hq : factory.queue with _ | ⟨⟨vid', work'⟩, qrest⟩
    · rw [hq] at hs1
      simp only [Option.pure_def, Option.some.injEq] at hs1
      subst hs1
      obtain ⟨hheap, hlb, hok, hveh, hfq, hdock, hti, hroutes⟩ := hinv
      refine ⟨hheap, hlb, hok, hveh, ?_, hdock, hti, hroutes⟩
      intro f' fs' hf' q hq2
      dsimp only at hf'
      by_cases hff : f' = f
      · subst hff
        rw [mget_mset_self, hfac] at hf'
        simp only [Option.map_some', Option.some.injEq] at hf'
        subst hf'
        exact absurd hq2 (List.not_mem_nil q)
      · rw [mget_mset_ne _ _ _ _ hff] at hf'
        exact hfq f' fs' hf' q hq2
    · rw [hq] at hs1
      dsimp only at hs1
      obtain ⟨hheap, hlb, hok, hveh, hfq, hdock, hti, hroutes⟩ := hinv
      have hwork' : okW work' :=
        hfq f factory hfac (vid', work') (by rw [hq]; exact List.mem_cons_self _ _)
      refine begin_vehicle_loading_time _ _ _ _ _ _ ?_ hwork' hs1
      refine ⟨hheap, hlb, hok, hveh, ?_, hdock, hti, hroutes⟩
      intro f' fs' hf' q hq2
      dsimp only at hf'
      by_cases hff : f' = f
      · subst hff
        rw [mget_mset_self, hfac] at hf'
        simp only [Option.map_some', Option.some.injEq] at hf'
        subst hf'
        dsimp only at hq2
        exact hfq f' factory hfac q (by rw [hq]; exact List.mem_cons_of_mem _ hq2)
      · rw [mget_mset_ne _ _ _ _ hff] at hf'
        exact hfq f' fs' hf' q hq2
  rcases hroute : state.current_route with _ | ⟨dest, rest⟩
  · rw [hroute] at hfin
    have hfin' := Option.some.inj hfin
    subst hfin'
    obtain ⟨hheap, hlb, hok, hveh, hfq, hdock, hti, hroutes⟩ := hinv1
    refine ⟨hheap, hlb, hok, ?_, hfq, hdock, hti, hroutes⟩
    intro v' st' hst' r hr
    dsimp only at hst'
    by_cases hv : v' = v
    · subst hv
      rw [mget_mset_self, hstate] at hst'
      simp only [Option.map_some', Option.some.injEq] at hst'
      subst hst'
      exact absurd hr (List.not_mem_nil r)
    · rw [mget_mset_ne _ _ _ _ hv] at hst'
      exact hveh v' st' hst' r hr
  · rw [hroute] at hfin
    obtain ⟨hheap, hlb, hok, hveh, hfq, hdock, hti, hroutes⟩ := hinv1
    have hdest : okW dest.work :=
      hveh v state hstate dest (by rw [hroute]; exact List.mem_cons_self _ _)
    refine begin_vehicle_transporting_time _ _ _ _ _ _ ?_ hdest hfin
    refine ⟨hheap, hlb, hok, ?_, hfq, hdock, hti, hroutes⟩
    intro v' st' hst' r hr
    dsimp only at hst'
    by_cases hv : v' = v
    · subst hv
      rw [mget_mset_self, hstate] at hst'
      simp only [Option.map_some', Option.some.injEq] at hst'
      subst hst'
      dsimp only at hr
      exact hveh v' state hstate r (by rw [hroute]; exact List.mem_cons_of_mem _ hr)
    · rw [mget_mset_ne _ _ _ _ hv] at hst'
      exact hveh v' st' hst' r hr

theorem installPlans_time (t : Int) :
    ∀ (entries : List (VehicleId × List VehicleRoute)) (s s' : SimState),
      (∀ kv ∈ entries, ∀ r ∈ kv.2, okW r.work) →
      TimeInv s t → installPlans t s entries = some s' → TimeInv s' t := by
  intro entries
  induction entries with
  | nil =>
    intro s s' hentries hinv h
    cases h
    exact hinv
  | cons e rest ih =>
    intro s s' hentries hinv h
    obtain ⟨vid, routes⟩ := e
    have hhead : ∀ r ∈ routes, okW r.work :=
      hentries (vid, routes) (List.mem_cons_self _ _)
    have htail : ∀ kv ∈ rest, ∀ r ∈ kv.2, okW r.work :=
      fun kv hkv => hentries kv (List.mem_cons_of_mem _ hkv)
    unfold installPlans at h
    simp only [Option.bind_eq_bind, Option.bind_eq_some] at h
    obtain ⟨state, hst, hm⟩ := h
    obtain ⟨hheap, hlb, hok, hveh, hfq, hdock, hti, hroutes0⟩ := hinv
    generalize hpos : state.position = pos at hm
    have hsetInv : ∀ (newpos : VehiclePosition)
        (newroutes : List VehicleRoute),
        (∀ r ∈ newroutes, okW r.work) →
        TimeInv { s with vehicle_states :=
          (mset s.vehicle_states vid
            { position := newpos, item_stack := state.item_stack,
              allocated_item_stack := state.allocated_item_stack,
              current_route := newroutes }) } t := by
      intro newpos newroutes hnew
      refine ⟨hheap, hlb, hok, ?_, hfq, hdock, hti, hroutes0⟩
      intro v' st' hst' r hr
      dsimp only at hst'
      by_cases hv : v' = vid
      · subst hv
        rw [mget_mset_self, hst] at hst'
        simp only [Option.map_some', Option.some.injEq] at hst'
        subst hst'
        exact hnew r hr
      · rw [mget_mset_ne _ _ _ _ hv] at hst'
        exact hveh v' st' hst' r hr
    rcases pos with f0 | f0 | ⟨f0, g0⟩ <;> rcases routes with _ | ⟨dest, rs⟩
    · dsimp only at hm
      exact ih _ _ htail (hsetInv _ _ hhead) hm
    · dsimp only at hm
      simp only [Option.bind_eq_bind, Option.bind_eq_some] at hm
      obtain ⟨s2, hb, hr2⟩ := hm
      have hinv2 := begin_vehicle_transporting_time _ _ _ _ _ _
        (hsetInv _ rs fun r hr => hhead r (List.mem_cons_of_mem _ hr))
        (hhead dest (List.mem_cons_self _ _)) hb
      exact ih _ _ htail hinv2 hr2
    · dsimp only at hm
      exact ih _ _ htail (hsetInv _ _ hhead) hm
    · dsimp only at hm
      exact ih _ _ htail (hsetInv _ _ hhead) hm
    · dsimp only at hm
      exact ih _ _ htail (hsetInv _ _ hhead) hm
    · dsimp only at hm
      exact ih _ _ htail (hsetInv _ _ hhead) hm

theorem handle_timestep_time (sched : SchedulerFn) (wall : Nat → Nat)
    (s : SimState) (t : Int) (s' : SimState) (hsched : SchedOK sched)
    (hinv : TimeInv s t)
    (h : handle_timestep sched wall s t = some s') : TimeInv s' t := by
  unfold handle_timestep at h
  simp only [Option.bind_eq_bind, Option.bind_eq_some] at h
  obtain ⟨args, hargs, h2⟩ := h
  split at h2
  · cases h2
  · cases h2
  · simp only [Option.bind_eq_bind, Option.bind_eq_some] at h2
    obtain ⟨s1, hip, hif⟩ := h2
    have hinv0 : TimeInv { s with
        total_distance_last_timeslot := s.total_distance,
        tick := s.tick + 1 } t := hinv
    have hinv1 := installPlans_time t (sched args) _ s1
      (fun kv hkv => hsched args kv hkv) hinv0 hip
    split at hif
    · simp only [Option.pure_def, Option.some.injEq] at hif
      subst hif
      obtain ⟨hheap, hlb, hok, hveh, hfq, hdock, hti, hroutes0⟩ := hinv1
      obtain ⟨hh, hl, ho⟩ := events_push_ok s1.events
        (SimulatorEventData.UpdateTimestep,
          t + s1.time_interval *
            (1 + Int.ofNat (wall s.tick / (s.time_interval.toNat * 1000000000))))
        t hheap hlb hok
        (by
          rw [hti]
          have h0 : 0 ≤ Int.ofNat (wall s.tick / (s.time_interval.toNat * 1000000000)) :=
            Int.ofNat_nonneg _
          dsimp only
          omega)
        trivial
      exact ⟨hh, hl, ho, hveh, hfq, hdock, hti, hroutes0⟩
    · simp only [Option.pure_def, Option.some.injEq] at hif
      subst hif
      exact hinv1

theorem timeInv_dispatch (sched : SchedulerFn) (wall : Nat → Nat)
    (hsched : SchedOK sched) (s : SimState) (clock : Int)
    (hinv : TimeInv s clock) (et : SimEvent) (rest : List SimEvent)
    (s' : SimState)
    (hp : hPop ele s.events = (some et, rest))
    (h : handle_event sched wall { s with events := rest } et.1 et.2
      = some s') :
    clock ≤ et.2 ∧ TimeInv s' et.2 := by
  obtain ⟨hheap, hlb, hok, hveh, hfq, hdock, hti, hroutes0⟩ := hinv
  have hne : s.events ≠ [] := by
    intro hc
    rw [hc] at hp
    simp [hPop] at hp
  have hfst := hPop_fst ele s.events hne
  rw [hp] at hfst
  have het : et = s.events.getD 0 default := by simpa using hfst
  have hmem : et ∈ s.events := het ▸ root_mem s.events hne
  have hclock : clock ≤ et.2 := hlb et hmem
  have hrestmem : ∀ e ∈ rest, e ∈ s.events := by
    intro e he
    have hperm := hPop_perm ele s.events hne
    rw [hp] at hperm
    exact hperm.subset (List.mem_cons_of_mem _ he)
  have hmin : ∀ e ∈ rest, et.2 ≤ e.2 := by
    intro e he
    have hle := heapProp_mem_le_root ele ele_total ele_trans s.events hheap
      e (hrestmem e he)
    rw [← het] at hle
    simpa [ele] using hle
  have hinvp : TimeInv { s with events := rest } et.2 := by
    refine ⟨?_, hmin, ?_, hveh, hfq, hdock, hti, hroutes0⟩
    · have hh := hPop_heap ele ele_total ele_trans s.events hheap
      rw [hp] at hh
      exact hh
    · exact fun e he => hok e (hrestmem e he)
  refine ⟨hclock, ?_⟩
  obtain ⟨ed, ts⟩ := et
  rcases ed with ⟨oid, ids⟩ | ⟨v, f, w⟩ | ⟨v, f, w⟩ | ⟨v, f, dl⟩ | _ <;>
    dsimp only at h
  · exact handle_order_arrival_time _ _ _ _ hinvp h
  · exact handle_vehicle_arrival_time _ _ _ _ _ _ hinvp (hok _ hmem) h
  · exact handle_vehicle_approached_dock_time _ _ _ _ _ _ hinvp
      (hok _ hmem) h
  · exact handle_finish_load_time _ _ _ _ _ _ hinvp h
  · exact handle_timestep_time _ _ _ _ _ hsched hinvp h

theorem stepTrace_sorted (sched : SchedulerFn) (wall : Nat → Nat)
    (hsched : SchedOK sched) :
    ∀ (n : Nat) (s : SimState) (clock : Int) (out : SimState × List Int),
      TimeInv s clock → stepTrace sched wall n s = some out →
      List.Chain' (fun a b => a ≤ b) (clock :: out.2) := by
  intro n
  induction n with
  | zero =>
    intro s clock out hinv h
    cases h
    simp
  | succ n ih =>
    intro s clock out hinv h
    unfold stepTrace at h
    rcases hp : hPop ele s.events with ⟨eopt, rest⟩
    rw [hp] at h
    rcases eopt with _ | et
    · dsimp only at h
      simp only [Option.some.injEq] at h
      subst h
      simp
    · dsimp only at h
      simp only [Option.bind_eq_bind, Option.bind_eq_some, Option.pure_def,
        Option.some.injEq] at h
      obtain ⟨s1, h1, out1, h2, hout⟩ := h
      subst hout
      obtain ⟨hcl, hinv1⟩ :=
        timeInv_dispatch sched wall hsched s clock hinv et rest s1 hp h1
      have hchain := ih s1 et.2 out1 hinv1 h2
      exact List.chain'_cons.mpr ⟨hcl, hchain⟩

theorem initEvents_time (orders : MapT OrderId Order) (d : Int)
    (horders : ∀ kv ∈ orders, 0 ≤ kv.2.creation_time) :
    HeapProp ele (initEvents orders d) ∧
    (∀ e ∈ initEvents orders d, d * 86400 ≤ e.2) ∧
    (∀ e ∈ initEvents orders d, okEvent e) := by
  unfold initEvents
  have base : ∀ (l : List (OrderId × Order)),
      (∀ kv ∈ l, 0 ≤ kv.2.creation_time) →
      ∀ q : List SimEvent, HeapProp ele q → (∀ e ∈ q, d * 86400 ≤ e.2) →
        (∀ e ∈ q, okEvent e) →
        HeapProp ele (l.foldl (fun q kv =>
            hPush ele q
              (SimulatorEventData.OrderArrival kv.2.order_id
                ((kv.2.into_items).map fun o => o.id),
                andTime d kv.2.creation_time)) q) ∧
        (∀ e ∈ l.foldl (fun q kv =>
            hPush ele q
              (SimulatorEventData.OrderArrival kv.2.order_id
                ((kv.2.into_items).map fun o => o.id),
                andTime d kv.2.creation_time)) q, d * 86400 ≤ e.2) ∧
        (∀ e ∈ l.foldl (fun q kv =>
            hPush ele q
              (SimulatorEventData.OrderArrival kv.2.order_id
                ((kv.2.into_items).map fun o => o.id),
                andTime d kv.2.creation_time)) q, okEvent e) := by
    intro l
    induction l with
    | nil => intro _ q hh hl ho; exact ⟨hh, hl, ho⟩
    | cons kv rest ih =>
      intro hlok q hh hl ho
      rw [List.foldl_cons]
      obtain ⟨hh', hl', ho'⟩ := events_push_ok q
        (SimulatorEventData.OrderArrival kv.2.order_id
          ((kv.2.into_items).map fun o => o.id),
          andTime d kv.2.creation_time)
        (d * 86400) hh hl ho
        (by
          have hck := hlok kv (List.mem_cons_self _ _)
          dsimp only
          unfold andTime
          omega)
        trivial
      exact ih (fun x hx => hlok x (List.mem_cons_of_mem _ hx)) _ hh' hl' ho'
  obtain ⟨hh, hl, ho⟩ := base orders horders []
    (by intro i h0 hlen; simp at hlen) (by intro e he; cases he)
    (by intro e he; cases he)
  exact events_push_ok _
    (SimulatorEventData.UpdateTimestep, andTime d 0) (d * 86400) hh hl ho
    (by dsimp only; unfold andTime; omega) trivial

theorem initVehicleStates_routes (ipos : MapT VehicleId FactoryId) :
    ∀ (l : List (VehicleId × VehicleInfo))
      (acc vs : MapT VehicleId VehicleState),
      (∀ kv ∈ acc, kv.2.current_route = []) →
      l.foldlM (fun acc kv => do
        let p ← mget ipos kv.1
        pure (acc ++ [(kv.1, VehicleState.new p)])) acc = some vs →
      ∀ kv ∈ vs, kv.2.current_route = [] := by
  intro l
  induction l with
  | nil =>
    intro acc vs hacc h
    rw [List.foldlM_nil] at h
    cases h
    exact hacc
  | cons x rest ih =>
    intro acc vs hacc h
    rw [List.foldlM_cons] at h
    simp only [Option.bind_eq_bind, Option.bind_eq_some, Option.pure_def,
      Option.some.injEq] at h
    obtain ⟨init, ⟨p, hp, rfl⟩, hrec⟩ := h
    refine ih _ _ ?_ hrec
    intro kv hkv
    rcases List.mem_append.mp hkv with hm | hm
    · exact hacc kv hm
    · rw [List.mem_singleton.mp hm]
      rfl

theorem timeInv_init (routes0 : MapT (FactoryId × FactoryId) SingleRoute)
    (factories : MapT FactoryId FactoryInfo)
    (vehicles : MapT VehicleId VehicleInfo) (orders : MapT OrderId Order)
    (ipos : MapT VehicleId FactoryId) (d : Int) (s0 : SimState)
    (hroutes : ∀ k r, mget routes0 k = some r → 0 ≤ r.time)
    (horders : ∀ kv ∈ orders, 0 ≤ kv.2.creation_time)
    (h : initState routes0 factories vehicles orders ipos d = some s0) :
    TimeInv s0 (d * 86400) := by
  unfold initState at h
  simp only [Option.bind_eq_bind, Option.bind_eq_some, Option.pure_def,
    Option.some.injEq] at h
  obtain ⟨vs, hvs, hs0⟩ := h
  subst hs0
  obtain ⟨hh, hl, ho⟩ := initEvents_time orders d horders
  refine ⟨hh, hl, ho, ?_, ?_, rfl, rfl, hroutes⟩
  · intro v st hst r hr
    have hmem := mget_mem vs v st hst
    have := initVehicleStates_routes ipos vehicles [] vs
      (fun kv hkv => absurd hkv (List.not_mem_nil kv)) hvs (v, st) hmem
    rw [this] at hr
    cases hr
  · intro f fs hf q hq
    dsimp only at hf
    rw [mget_factoryStates] at hf
    cases hfi : mget factories f with
    | none => rw [hfi] at hf; cases hf
    | some finfo =>
      rw [hfi] at hf
      simp only [Option.map_some', Option.some.injEq] at hf
      subst hf
      cases hq

/-- C8 (amended): the event queue is a min-heap on timestamps, so the
dispatched-timestamp sequence of any run from `Simulator::new` is
non-decreasing PROVIDED no handler pushes into the past — which holds
when the scheduler emits only non-negative `Work` times and every catalog
route time is non-negative.  Nothing in the code validates those
times, and a negative `load_time` breaks monotonicity (see the
counterexample). -/
theorem dispatch_time_monotone
    (routes0 : MapT (FactoryId × FactoryId) SingleRoute)
    (factories : MapT FactoryId FactoryInfo)
    (vehicles : MapT VehicleId VehicleInfo) (orders : MapT OrderId Order)
    (ipos : MapT VehicleId FactoryId) (d : Int)
    (sched : SchedulerFn) (wall : Nat → Nat) (n : Nat) (s0 : SimState)
    (out : SimState × List Int)
    (hsched : SchedOK sched)
    (hroutes : ∀ k r, mget routes0 k = some r → 0 ≤ r.time)
    (horders : ∀ kv ∈ orders, 0 ≤ kv.2.creation_time)
    (hinit : initState routes0 factories vehicles orders ipos d = some s0)
    (htrace : stepTrace sched wall n s0 = some out) :
    List.Chain' (fun a b => a ≤ b) out.2 :=
  (stepTrace_sorted sched wall hsched n s0 (d * 86400) out
    (timeInv_init routes0 factories vehicles orders ipos d s0 hroutes
      horders hinit) htrace).tail

theorem c8routesOK : ∀ k r, mget c5Routes k = some r → 0 ≤ r.time := by
  intro k r hk
  unfold c5Routes at hk
  rw [mget_cons] at hk
  split at hk
  · obtain rfl := Option.some.inj hk
    decide
  · rw [mget_nil] at hk
    cases hk

/-- C8 (witness): a three-step run with all-zero work times produces a
sorted dispatch trace. -/
theorem dispatch_time_monotone_witness :
    SchedOK c5Sched ∧
    (∀ k r, mget c5Routes k = some r → 0 ≤ r.time) ∧
    (∀ kv ∈ ([] : MapT OrderId Order), 0 ≤ kv.2.creation_time) ∧
    initState c5Routes c5Factories c5Vehicles [] c5IPos 0 = some c5S0 ∧
    ∃ out, stepTrace c5Sched (fun _ => 0) 3 c5S0 = some out ∧
      List.Chain' (fun a b => a ≤ b) out.2 := by
  have hsched : SchedOK c5Sched := by
    intro args kv hkv r hr
    simp only [c5Sched, c5Plan, List.mem_cons, List.mem_singleton] at hkv
    rcases hkv with rfl | rfl | h0
    · dsimp only at hr
      rw [List.mem_singleton] at hr
      subst hr
      exact ⟨by decide, by decide⟩
    · dsimp only at hr
      rw [List.mem_singleton] at hr
      subst hr
      exact ⟨by decide, by decide⟩
    · exact absurd h0 (List.not_mem_nil kv)
  have horders : ∀ kv ∈ ([] : MapT OrderId Order), 0 ≤ kv.2.creation_time :=
    fun kv hkv => absurd hkv (List.not_mem_nil kv)
  have hout : (stepTrace c5Sched (fun _ => 0) 3 c5S0).isSome = true := by
    decide
  refine ⟨hsched, c8routesOK, horders, rfl,
    (stepTrace c5Sched (fun _ => 0) 3 c5S0).get hout, (Option.some_get hout).symm,
    dispatch_time_monotone c5Routes c5Factories c5Vehicles [] c5IPos 0
      c5Sched (fun _ => 0) 3 c5S0 _ hsched c8routesOK horders rfl
      (Option.some_get hout).symm⟩

theorem sumDemands_append_some (m : MapT OrderItemId OrderItem) :
    ∀ (a b : List OrderItemId) (x y : Int),
      sumDemands m a = some x → sumDemands m b = some y →
      sumDemands m (a ++ b) = some (x + y) := by
  intro a
  induction a with
  | nil =>
    intro b x y ha hb
    obtain rfl : (0 : Int) = x := Option.some.inj ha
    rw [List.nil_append, hb, Int.zero_add]
  | cons i a ih =>
    intro b x y ha hb
    unfold sumDemands at ha
    simp only [Option.bind_eq_bind, Option.bind_eq_some, Option.pure_def,
      Option.some.injEq] at ha
    obtain ⟨info, hi, sa, hsa, hx⟩ := ha
    rw [List.cons_append]
    unfold sumDemands
    simp only [Option.bind_eq_bind, Option.bind_eq_some, Option.pure_def,
      Option.some.injEq]
    exact ⟨info, hi, sa + y, ih b sa y hsa hb, by omega⟩

theorem sumDemands_append_inv (m : MapT OrderItemId OrderItem) :
    ∀ (a b : List OrderItemId) (z : Int),
      sumDemands m (a ++ b) = some z →
      ∃ x y, sumDemands m a = some x ∧ sumDemands m b = some y ∧
        z = x + y := by
  intro a
  induction a with
  | nil =>
    intro b z h
    exact ⟨0, z, rfl, h, by omega⟩
  | cons i a ih =>
    intro b z h
    rw [List.cons_append] at h
    unfold sumDemands at h
    simp only [Option.bind_eq_bind, Option.bind_eq_some, Option.pure_def,
      Option.some.injEq] at h
    obtain ⟨info, hi, s', hs', hz⟩ := h
    obtain ⟨x, y, hx, hy, hxy⟩ := ih b s' hs'
    refine ⟨info.demand + x, y, ?_, hy, by omega⟩
    unfold sumDemands
    simp only [Option.bind_eq_bind, Option.bind_eq_some, Option.pure_def,
      Option.some.injEq]
    exact ⟨info, hi, x, hx, rfl⟩

theorem delta_demand_parts (w : VehicleWork) (m : MapT OrderItemId OrderItem)
    (delta : Int) (h : w.delta_demand m = some delta) :
    ∃ lo ul, sumDemands m w.load_items = some lo ∧
      sumDemands m w.unload_items = some ul ∧ delta = lo - ul := by
  unfold VehicleWork.delta_demand at h
  simp only [Option.bind_eq_bind, Option.bind_eq_some, Option.pure_def,
    Option.some.injEq] at h
  obtain ⟨lo, hlo, ul, hul, hd⟩ := h
  exact ⟨lo, ul, hlo, hul, hd.symm⟩

theorem popMatching_decomp :
    ∀ (l stack out : List OrderItemId),
      popMatching stack l = some out → stack = out ++ l.reverse := by
  intro l
  induction l with
  | nil =>
    intro stack out h
    obtain rfl := Option.some.inj h
    simp
  | cons x rest ih =>
    intro stack out h
    unfold popMatching at h
    cases hl : stack.getLast? with
    | none => rw [hl] at h; cases h
    | some top =>
      rw [hl] at h
      dsimp only at h
      by_cases ht : top == x
      · rw [if_pos ht] at h
        have hdec := ih stack.dropLast out h
        have hx : top = x := beq_iff_eq.mp ht
        subst hx
        have hstack : stack.dropLast ++ [top] = stack :=
          List.dropLast_append_getLast? top hl
        rw [← hstack, hdec, List.reverse_cons]
        simp [List.append_assoc]
      · rw [if_neg ht] at h
        cases h

theorem checkRoute_delta (orders : MapT OrderId Order)
    (order_items : MapT OrderItemId OrderItem) (cap : Int)
    (route : VehicleRoute) (td : Int) (stack : List OrderItemId)
    (istates : MapT OrderItemId OrderItemState)
    (out : Int × List OrderItemId × MapT OrderItemId OrderItemState)
    (h : checkRoute orders order_items cap route td stack istates
      = vOk out) :
    ∃ delta, route.work.delta_demand order_items = some delta ∧
      td + delta ≤ cap ∧ out.1 = td + delta := by
  unfold checkRoute at h
  cases hd : route.work.delta_demand order_items with
  | none => rw [hd] at h; simp [vlift, vbind, vOk] at h
  | some delta =>
    rw [hd] at h
    change vbind (vOk delta) _ = _ at h
    rw [vbind_vOk] at h
    by_cases hcap : td + delta > cap
    · change (if td + delta > cap then vErr PlanError.CapacityViolation
        else _) = vOk out at h
      rw [if_pos hcap] at h
      exact absurd h (by simp [vOk, vErr])
    · change (if td + delta > cap then vErr PlanError.CapacityViolation
        else _) = vOk out at h
      rw [if_neg hcap] at h
      refine ⟨delta, rfl, by omega, ?_⟩
      rcases hu : checkUnloads order_items route.destination
          route.work.unload_items.reverse stack istates with _ | eu | su
      · rw [hu] at h; exact absurd h (by simp [vbind, vOk])
      · rw [hu] at h; exact absurd h (by simp [vbind, vOk])
      · rw [hu] at h
        change vbind (vOk su) _ = _ at h
        rw [vbind_vOk] at h
        rcases hl : checkLoads order_items route.destination
            route.work.load_items su.1 su.2 with _ | el | sl
        · rw [hl] at h; exact absurd h (by simp [vbind, vOk])
        · rw [hl] at h; exact absurd h (by simp [vbind, vOk])
        · rw [hl] at h
          change vbind (vOk sl) _ = _ at h
          rw [vbind_vOk] at h
          rcases hs1 : check_order_split orders route.work.load_items cap
              with _ | e1 | u1
          · rw [hs1] at h; exact absurd h (by simp [vbind, vOk])
          · rw [hs1] at h; exact absurd h (by simp [vbind, vOk])
          · rw [hs1] at h
            change vbind (vOk u1) _ = _ at h
            rw [vbind_vOk] at h
            rcases hs2 : check_order_split orders route.work.unload_items cap
                with _ | e2 | u2
            · rw [hs2] at h; exact absurd h (by simp [vbind, vOk])
            · rw [hs2] at h; exact absurd h (by simp [vbind, vOk])
            · rw [hs2] at h
              change vbind (vOk u2) _ = _ at h
              rw [vbind_vOk] at h
              have hout := Option.some.inj h
              have hout2 : (td + delta, sl.1, sl.2) = out := by
                injection hout
              rw [← hout2]

theorem checkRoutes_feasible (orders : MapT OrderId Order)
    (order_items : MapT OrderItemId OrderItem) (cap : Int) :
    ∀ (routes : List VehicleRoute) (td : Int) (stack : List OrderItemId)
      (istates : MapT OrderItemId OrderItemState),
      checkRoutes orders order_items cap routes td stack istates = vOk () →
      feasible order_items cap td routes := by
  intro routes
  induction routes with
  | nil => intro td stack istates _; trivial
  | cons r rs ih =>
    intro td stack istates h
    unfold checkRoutes at h
    rcases hr : checkRoute orders order_items cap r td stack istates
        with _ | e | out
    · rw [hr] at h; exact absurd h (by simp [vbind, vOk])
    · rw [hr] at h; exact absurd h (by simp [vbind, vOk])
    · rw [hr] at h
      change vbind (vOk out) _ = _ at h
      rw [vbind_vOk] at h
      obtain ⟨delta, hd, hle, hout1⟩ :=
        checkRoute_delta orders order_items cap r td stack istates out hr
      refine ⟨delta, hd, hle, ?_⟩
      have hfeas := ih out.1 out.2.1 out.2.2 h
      rw [hout1] at hfeas
      exact hfeas

theorem checkVehiclePlans_feasible (s : SimState) :
    ∀ entries, checkVehiclePlans s entries = vOk () →
      ∀ kv ∈ entries, ∃ info st td,
        mget s.vehicles kv.1 = some info ∧
        mget s.vehicle_states kv.1 = some st ∧
        sumDemands s.order_items st.allocated_item_stack = some td ∧
        td ≤ info.capacityBoxes ∧
        feasible s.order_items info.capacityBoxes td kv.2 := by
  intro entries
  induction entries with
  | nil =>
    intro _ kv hkv
    cases hkv
  | cons e rest ih =>
    intro h kv hkv
    obtain ⟨vid, routes⟩ := e
    unfold checkVehiclePlans at h
    cases hinfo : mget s.vehicles vid with
    | none => rw [hinfo] at h; cases h
    | some info =>
      rw [hinfo] at h
      cases hst : mget s.vehicle_states vid with
      | none => rw [hst] at h; cases h
      | some st =>
        rw [hst] at h
        dsimp only at h
        cases htd : sumDemands s.order_items st.allocated_item_stack with
        | none => rw [htd] at h; exact absurd h (by simp [vlift, vbind, vOk])
        | some td =>
          rw [htd] at h
          change vbind (vOk td) _ = _ at h
          rw [vbind_vOk] at h
          by_cases hcap : td ≤ info.capacityBoxes
          · rw [show massert (decide (td ≤ info.capacityBoxes)) = some ()
                from by rw [decide_eq_true hcap]; rfl] at h
            change vbind (vOk ()) _ = _ at h
            rw [vbind_vOk] at h
            rcases hcr : checkRoutes s.orders s.order_items
                info.capacityBoxes routes td st.allocated_item_stack
                s.order_item_states with _ | e2 | u2
            · rw [hcr] at h; exact absurd h (by simp [vbind, vOk])
            · rw [hcr] at h; exact absurd h (by simp [vbind, vOk])
            · rw [hcr] at h
              change vbind (vOk u2) _ = _ at h
              rw [vbind_vOk] at h
              rcases List.mem_cons.mp hkv with rfl | hmem
              · obtain ⟨⟩ := u2
                exact ⟨info, st, td, hinfo, hst, htd, hcap,
                  checkRoutes_feasible s.orders s.order_items
                    info.capacityBoxes routes td st.allocated_item_stack
                    s.order_item_states hcr⟩
              · exact ih h kv hmem
          · rw [show massert (decide (td ≤ info.capacityBoxes)) = none
                from by rw [decide_eq_false hcap]; rfl] at h
            exact absurd h (by simp [vlift, vbind, vOk])

theorem massert_elim (b : Bool) (u : Unit) (h : massert b = some u) :
    b = true := by
  cases b
  · simp [massert] at h
  · rfl

theorem begin_vehicle_loading_cap (s : SimState) (v : VehicleId)
    (f : FactoryId) (w : VehicleWork) (t : Int) (s' : SimState)
    (hinv : CapInv s)
    (h : begin_vehicle_loading s v f w t = some s') : CapInv s' := by
  unfold begin_vehicle_loading at h
  simp only [Option.bind_eq_bind, Option.bind_eq_some, Option.pure_def,
    Option.some.injEq] at h
  obtain ⟨state, hstate, u1, h1, out, hout, istates, hist, td, htd, info,
    hinfo, u2, h2, hs'⟩ := h
  subst hs'
  intro v' info' st' hv' hst'
  dsimp only at hv' hst' ⊢
  by_cases hv : v' = v
  · subst hv
    rw [mget_mset_self, hstate] at hst'
    simp only [Option.map_some', Option.some.injEq] at hst'
    subst hst'
    rw [hinfo] at hv'
    have he : info = info' := Option.some.inj hv'
    have hcap : td ≤ info'.capacityBoxes := by
      rw [← he]
      exact of_decide_eq_true (massert_elim _ _ h2)
    obtain ⟨hA, _⟩ := hinv v' info' state (by rw [← he]; exact hinfo) hstate
    exact ⟨hA, ⟨td, htd, hcap⟩⟩
  · rw [mget_mset_ne _ _ _ _ hv] at hst'
    exact hinv v' info' st' hv' hst'

theorem begin_vehicle_transporting_frame2 (s : SimState) (v : VehicleId)
    (f : FactoryId) (route : VehicleRoute) (t : Int) (s' : SimState)
    (h : begin_vehicle_transporting s v f route t = some s') :
    s'.vehicles = s.vehicles ∧ s'.order_items = s.order_items ∧
    ∀ v', v' ≠ v →
      mget s'.vehicle_states v' = mget s.vehicle_states v' := by
  unfold begin_vehicle_transporting at h
  simp only [Option.bind_eq_bind, Option.bind_eq_some, Option.pure_def,
    Option.some.injEq] at h
  obtain ⟨istates, hist, state, hstate, u1, h1, astack, hstack, hs'⟩ := h
  subst hs'
  refine ⟨rfl, rfl, ?_⟩
  intro v' hv
  dsimp only
  rw [mget_mset_ne _ _ _ _ hv]

theorem begin_vehicle_transporting_cap (s : SimState) (v : VehicleId)
    (f : FactoryId) (route : VehicleRoute) (t : Int) (s' : SimState)
    (h : begin_vehicle_transporting s v f route t = some s')
    (hOther : ∀ v' info st', v' ≠ v → mget s.vehicles v' = some info →
      mget s.vehicle_states v' = some st' → vehOK s.order_items info st')
    (hSelf : ∀ info st, mget s.vehicles v = some info →
      mget s.vehicle_states v = some st →
      (∃ ta, sumDemands s.order_items st.allocated_item_stack = some ta ∧
        feasible s.order_items info.capacityBoxes ta
          (route :: st.current_route)) ∧
      (∃ ti, sumDemands s.order_items st.item_stack = some ti ∧
        ti ≤ info.capacityBoxes)) :
    CapInv s' := by
  unfold begin_vehicle_transporting at h
  simp only [Option.bind_eq_bind, Option.bind_eq_some, Option.pure_def,
    Option.some.injEq] at h
  obtain ⟨istates, hist, state, hstate, u1, h1, astack, hstack, hs'⟩ := h
  subst hs'
  intro v' info' st' hv' hst'
  dsimp only at hv' hst' ⊢
  by_cases hv : v' = v
  · subst hv
    rw [mget_mset_self, hstate] at hst'
    simp only [Option.map_some', Option.some.injEq] at hst'
    subst hst'
    obtain ⟨⟨ta, hta, hfeas⟩, hitem⟩ := hSelf info' state hv' hstate
    obtain ⟨delta, hdelta, hle, hrest⟩ := hfeas
    obtain ⟨lo, ul, hlo, hul, hdval⟩ :=
      delta_demand_parts route.work s.order_items delta hdelta
    have hdec : state.allocated_item_stack
        = astack ++ route.work.unload_items := by
      have hd := popMatching_decomp route.work.unload_items.reverse
        state.allocated_item_stack astack hstack
      rwa [List.reverse_reverse] at hd
    rw [hdec] at hta
    obtain ⟨x, y, hx, hy, hxy⟩ :=
      sumDemands_append_inv s.order_items _ _ ta hta
    rw [hul] at hy
    obtain rfl := Option.some.inj hy
    have hsum := sumDemands_append_some s.order_items astack
      route.work.load_items x lo hx hlo
    have hval : x + lo = ta + delta := by omega
    rw [hval] at hsum
    exact ⟨⟨ta + delta, hsum, hle, hrest⟩, hitem⟩
  · rw [mget_mset_ne _ _ _ _ hv] at hst'
    exact hOther v' info' st' hv hv' hst'

theorem capInv_congr (s' s : SimState) (hv : s'.vehicles = s.vehicles)
    (hoi : s'.order_items = s.order_items)
    (hvs : s'.vehicle_states = s.vehicle_states)
    (h : CapInv s) : CapInv s' := by
  intro v info st hv' hst'
  rw [hv] at hv'
  rw [hvs] at hst'
  rw [hoi]
  exact h v info st hv' hst'

theorem handle_order_arrival_cap (s : SimState) (ids : List OrderItemId)
    (s' : SimState) (hinv : CapInv s)
    (h : handle_order_arrival s ids = some s') : CapInv s' := by
  unfold handle_order_arrival at h
  simp only [Option.bind_eq_bind, Option.bind_eq_some, Option.pure_def,
    Option.some.injEq] at h
  obtain ⟨istates, hist, hs'⟩ := h
  subst hs'
  exact hinv

theorem handle_vehicle_arrival_cap (s : SimState) (v : VehicleId)
    (f : FactoryId) (w : VehicleWork) (t : Int) (s' : SimState)
    (hinv : CapInv s)
    (h : handle_vehicle_arrival s v f w t = some s') : CapInv s' := by
  unfold handle_vehicle_arrival at h
  simp only [Option.bind_eq_bind, Option.bind_eq_some, Option.pure_def,
    Option.some.injEq] at h
  obtain ⟨state, hstate, u1, h1, hs'⟩ := h
  subst hs'
  intro v' info' st' hv' hst'
  dsimp only at hv' hst' ⊢
  by_cases hv : v' = v
  · subst hv
    rw [mget_mset_self, hstate] at hst'
    simp only [Option.map_some', Option.some.injEq] at hst'
    subst hst'
    exact hinv v' info' state hv' hstate
  · rw [mget_mset_ne _ _ _ _ hv] at hst'
    exact hinv v' info' st' hv' hst'

theorem handle_vehicle_approached_dock_cap (s : SimState) (v : VehicleId)
    (f : FactoryId) (w : VehicleWork) (t : Int) (s' : SimState)
    (hinv : CapInv s)
    (h : handle_vehicle_approached_dock s v f w t = some s') :
    CapInv s' := by
  unfold handle_vehicle_approached_dock at h
  simp only [Option.bind_eq_bind, Option.bind_eq_some] at h
  obtain ⟨fstate, hfst, hbr⟩ := h
  by_cases hz : fstate.num_avail_docks == 0
  · rw [if_pos hz] at hbr
    simp only [Option.pure_def, Option.some.injEq] at hbr
    subst hbr
    exact hinv
  · rw [if_neg hz] at hbr
    refine begin_vehicle_loading_cap _ _ _ _ _ _ ?_ hbr
    exact capInv_congr _ s rfl rfl rfl hinv

set_option maxHeartbeats 2000000 in
theorem handle_finish_load_cap (s : SimState) (v : VehicleId)
    (f : FactoryId) (d : List OrderItemId) (t : Int) (s' : SimState)
    (hinv : CapInv s)
    (h : handle_finish_load s v f d t = some s') : CapInv s' := by
  unfold handle_finish_load at h
  simp only [Option.bind_eq_bind, Option.bind_eq_some] at h
  obtain ⟨factory, hfac, s1, hs1, u, hu, istates, hist, state, hstate, u2,
    h2, hfin⟩ := h
  have hinv1 : CapInv s1 := by
    unfold dockHandover at hs1
    rcases hq : factory.queue with _ | ⟨⟨vid', work'⟩, qrest⟩
    · rw [hq] at hs1
      simp only [Option.pure_def, Option.some.injEq] at hs1
      subst hs1
      exact hinv
    · rw [hq] at hs1
      dsimp only at hs1
      refine begin_vehicle_loading_cap _ _ _ _ _ _ ?_ hs1
      exact capInv_congr _ s rfl rfl rfl hinv
  rcases hroute : state.current_route with _ | ⟨dest, rest⟩
  · rw [hroute] at hfin
    have hfin' := Option.some.inj hfin
    subst hfin'
    intro v' info' st' hv' hst'
    dsimp only at hv' hst' ⊢
    by_cases hv : v' = v
    · subst hv
      rw [mget_mset_self, hstate] at hst'
      simp only [Option.map_some', Option.some.injEq] at hst'
      subst hst'
      obtain ⟨⟨ta, hta, hle, hfeas⟩, hitem⟩ := hinv1 v' info' state hv' hstate
      rw [hroute] at hfeas
      exact ⟨⟨ta, hta, hle, hfeas⟩, hitem⟩
    · rw [mget_mset_ne _ _ _ _ hv] at hst'
      exact hinv1 v' info' st' hv' hst'
  · rw [hroute] at hfin
    refine begin_vehicle_transporting_cap _ _ _ _ _ _ hfin ?_ ?_
    · intro v' info' st' hv hv' hst'
      dsimp only at hv' hst'
      rw [mget_mset_ne _ _ _ _ hv] at hst'
      exact hinv1 v' info' st' hv' hst'
    · intro info' st hv' hst
      dsimp only at hv' hst
      rw [mget_mset_self, hstate] at hst
      simp only [Option.map_some', Option.some.injEq] at hst
      subst hst
      obtain ⟨⟨ta, hta, hle, hfeas⟩, hitem⟩ := hinv1 v info' state hv' hstate
      rw [hroute] at hfeas
      exact ⟨⟨ta, hta, hfeas⟩, hitem⟩

theorem installPlans_cap (time : Int) :
    ∀ (entries : List (VehicleId × List VehicleRoute)) (s s' : SimState),
      (entries.map Prod.fst).Nodup → CapInv s →
      (∀ kv ∈ entries, ∃ info st td,
        mget s.vehicles kv.1 = some info ∧
        mget s.vehicle_states kv.1 = some st ∧
        sumDemands s.order_items st.allocated_item_stack = some td ∧
        td ≤ info.capacityBoxes ∧
        feasible s.order_items info.capacityBoxes td kv.2) →
      installPlans time s entries = some s' → CapInv s' := by
  intro entries
  induction entries with
  | nil =>
    intro s s' _ hinv _ h
    cases h
    exact hinv
  | cons e rest ih =>
    intro s s' hnodup hinv hdata h
    obtain ⟨vid, routes⟩ := e
    rw [List.map_cons] at hnodup
    have hvnotin := (List.nodup_cons.mp hnodup).1
    have hnodup2 := (List.nodup_cons.mp hnodup).2
    have hne : ∀ kv, kv ∈ rest → kv.1 ≠ vid := by
      intro kv hm he
      exact hvnotin (List.mem_map.mpr ⟨kv, hm, he⟩)
    obtain ⟨info0, st0, td0, hi0, hs0, htd0, hle0, hfeas0⟩ :=
      hdata (vid, routes) (List.mem_cons_self _ _)
    unfold installPlans at h
    simp only [Option.bind_eq_bind, Option.bind_eq_some] at h
    obtain ⟨state, hst, hm⟩ := h
    rw [hst] at hs0
    have hst0 : state = st0 := Option.some.inj hs0
    subst hst0
    have hdataSet : ∀ (newrec : VehicleState), ∀ kv ∈ rest,
        ∃ info st td,
          mget s.vehicles kv.1 = some info ∧
          mget (mset s.vehicle_states vid newrec) kv.1 = some st ∧
          sumDemands s.order_items st.allocated_item_stack = some td ∧
          td ≤ info.capacityBoxes ∧
          feasible s.order_items info.capacityBoxes td kv.2 := by
      intro newrec kv hkv
      obtain ⟨info, st, td, hi, hsv, htd, hle, hfeas⟩ :=
        hdata kv (List.mem_cons_of_mem _ hkv)
      refine ⟨info, st, td, hi, ?_, htd, hle, hfeas⟩
      rw [mget_mset_ne _ _ _ _ (hne kv hkv)]
      exact hsv
    generalize hpos : state.position = pos at hm
    have hsetInv : ∀ (newroutes : List VehicleRoute),
        feasible s.order_items info0.capacityBoxes td0 newroutes →
        CapInv { s with vehicle_states :=
          (mset s.vehicle_states vid
            { position := pos, item_stack := state.item_stack,
              allocated_item_stack := state.allocated_item_stack,
              current_route := newroutes }) } := by
      intro newroutes hnew
      intro v' info' st' hv' hst'
      dsimp only at hv' hst' ⊢
      by_cases hv : v' = vid
      · subst hv
        rw [mget_mset_self, hst] at hst'
        simp only [Option.map_some', Option.some.injEq] at hst'
        subst hst'
        rw [hi0] at hv'
        have he : info0 = info' := Option.some.inj hv'
        obtain ⟨_, hitem⟩ := hinv v' info0 state hi0 hst
        rw [← he]
        exact ⟨⟨td0, htd0, hle0, hnew⟩, hitem⟩
      · rw [mget_mset_ne _ _ _ _ hv] at hst'
        exact hinv v' info' st' hv' hst'
    rcases pos with f0 | f0 | ⟨f0, g0⟩ <;> rcases routes with _ | ⟨dest, rs⟩
    · dsimp only at hm
      exact ih _ _ hnodup2 (hsetInv _ hfeas0) (hdataSet _) hm
    · dsimp only at hm
      simp only [Option.bind_eq_bind, Option.bind_eq_some] at hm
      obtain ⟨s2, hb, hr2⟩ := hm
      obtain ⟨hfrv, hfro, hfrs⟩ := begin_vehicle_transporting_frame2 _ _ _ _ _ _ hb
      have hinv2 : CapInv s2 := by
        refine begin_vehicle_transporting_cap _ _ _ _ _ _ hb ?_ ?_
        · intro v1 info1 st1 hv1 hi1 hs1
          dsimp only at hi1 hs1
          rw [mget_mset_ne _ _ _ _ hv1] at hs1
          exact hinv v1 info1 st1 hi1 hs1
        · intro info1 st1 hi1 hs1
          dsimp only at hi1 hs1
          rw [mget_mset_self, hst] at hs1
          simp only [Option.map_some', Option.some.injEq] at hs1
          subst hs1
          rw [hi0] at hi1
          have he : info0 = info1 := Option.some.inj hi1
          obtain ⟨_, hitem⟩ := hinv vid info0 state hi0 hst
          rw [← he]
          exact ⟨⟨td0, htd0, hfeas0⟩, hitem⟩
      have hdata2 : ∀ kv ∈ rest, ∃ info st td,
          mget s2.vehicles kv.1 = some info ∧
          mget s2.vehicle_states kv.1 = some st ∧
          sumDemands s2.order_items st.allocated_item_stack = some td ∧
          td ≤ info.capacityBoxes ∧
          feasible s2.order_items info.capacityBoxes td kv.2 := by
        intro kv hkv
        obtain ⟨info, st, td, hi, hsv, htd, hle, hfeas⟩ :=
          hdata kv (List.mem_cons_of_mem _ hkv)
        refine ⟨info, st, td, ?_, ?_, ?_, hle, ?_⟩
        · rw [hfrv]
          exact hi
        · rw [hfrs kv.1 (hne kv hkv)]
          dsimp only
          rw [mget_mset_ne _ _ _ _ (hne kv hkv)]
          exact hsv
        · rw [hfro]
          exact htd
        · rw [hfro]
          exact hfeas
      exact ih _ _ hnodup2 hinv2 hdata2 hr2
    · dsimp only at hm
      exact ih _ _ hnodup2 (hsetInv _ hfeas0) (hdataSet _) hm
    · dsimp only at hm
      exact ih _ _ hnodup2 (hsetInv _ hfeas0) (hdataSet _) hm
    · dsimp only at hm
      exact ih _ _ hnodup2 (hsetInv _ hfeas0) (hdataSet _) hm
    · dsimp only at hm
      exact ih _ _ hnodup2 (hsetInv _ hfeas0) (hdataSet _) hm

theorem handle_timestep_cap (sched : SchedulerFn) (wall : Nat → Nat)
    (s : SimState) (t : Int) (s' : SimState)
    (hnodup : ∀ args, ((sched args).map Prod.fst).Nodup)
    (hinv : CapInv s)
    (h : handle_timestep sched wall s t = some s') : CapInv s' := by
  unfold handle_timestep at h
  simp only [Option.bind_eq_bind, Option.bind_eq_some] at h
  obtain ⟨args, hargs, h2⟩ := h
  split at h2
  · cases h2
  · cases h2
  · rename_i u hchk
    simp only [Option.bind_eq_bind, Option.bind_eq_some] at h2
    obtain ⟨s1, hip, hif⟩ := h2
    obtain ⟨⟩ := u
    have hdata := checkVehiclePlans_feasible _ _ hchk
    have hinv0 : CapInv { s with
        total_distance_last_timeslot := s.total_distance,
        tick := s.tick + 1 } := hinv
    have hinv1 := installPlans_cap t (sched args) _ s1 (hnodup args)
      hinv0 hdata hip
    split at hif
    · simp only [Option.pure_def, Option.some.injEq] at hif
      subst hif
      intro v info st hv hst
      exact hinv1 v info st hv hst
    · simp only [Option.pure_def, Option.some.injEq] at hif
      subst hif
      exact hinv1

theorem capInv_step (sched : SchedulerFn) (wall : Nat → Nat)
    (hnodup : ∀ args, ((sched args).map Prod.fst).Nodup)
    (s s' : SimState) (hinv : CapInv s)
    (h : simulate_step sched wall s = some s') : CapInv s' := by
  unfold simulate_step at h
  rcases hp : hPop ele s.events with ⟨eopt, rest⟩
  rw [hp] at h
  rcases eopt with _ | et
  · dsimp only at h
    simp only [Option.some.injEq] at h
    subst h
    exact hinv
  · dsimp only at h
    have hinv2 : CapInv { s with events := rest } :=
      capInv_congr _ s rfl rfl rfl hinv
    obtain ⟨ed, ts⟩ := et
    rcases ed with ⟨oid, ids⟩ | ⟨v, f, w⟩ | ⟨v, f, w⟩ | ⟨v, f, d⟩ | _ <;>
      dsimp only at h
    · exact handle_order_arrival_cap _ _ _ hinv2 h
    · exact handle_vehicle_arrival_cap _ _ _ _ _ _ hinv2 h
    · exact handle_vehicle_approached_dock_cap _ _ _ _ _ _ hinv2 h
    · exact handle_finish_load_cap _ _ _ _ _ _ hinv2 h
    · exact handle_timestep_cap _ _ _ _ _ hnodup hinv2 h

theorem capInv_stepN (sched : SchedulerFn) (wall : Nat → Nat)
    (hnodup : ∀ args, ((sched args).map Prod.fst).Nodup) :
    ∀ (n : Nat) (s s' : SimState), stepN sched wall n s = some s' →
      CapInv s → CapInv s' := by
  intro n
  induction n with
  | zero =>
    intro s s' h hinv
    cases h
    exact hinv
  | succ n ih =>
    intro s s' h hinv
    unfold stepN at h
    simp only [Option.bind_eq_bind, Option.bind_eq_some] at h
    obtain ⟨s1, h1, h2⟩ := h
    exact ih _ _ h2 (capInv_step sched wall hnodup s s1 hinv h1)

theorem initVehicleStates_shape (ipos : MapT VehicleId FactoryId) :
    ∀ (l : List (VehicleId × VehicleInfo))
      (acc vs : MapT VehicleId VehicleState),
      (∀ kv ∈ acc, ∃ p, kv.2 = VehicleState.new p) →
      l.foldlM (fun acc kv => do
        let p ← mget ipos kv.1
        pure (acc ++ [(kv.1, VehicleState.new p)])) acc = some vs →
      ∀ kv ∈ vs, ∃ p, kv.2 = VehicleState.new p := by
  intro l
  induction l with
  | nil =>
    intro acc vs hacc h
    rw [List.foldlM_nil] at h
    cases h
    exact hacc
  | cons x rest ih =>
    intro acc vs hacc h
    rw [List.foldlM_cons] at h
    simp only [Option.bind_eq_bind, Option.bind_eq_some, Option.pure_def,
      Option.some.injEq] at h
    obtain ⟨init, ⟨p, hp, rfl⟩, hrec⟩ := h
    refine ih _ _ ?_ hrec
    intro kv hkv
    rcases List.mem_append.mp hkv with hm | hm
    · exact hacc kv hm
    · rw [List.mem_singleton.mp hm]
      exact ⟨p, rfl⟩

theorem capInv_init (routes0 : MapT (FactoryId × FactoryId) SingleRoute)
    (factories : MapT FactoryId FactoryInfo)
    (vehicles : MapT VehicleId VehicleInfo) (orders : MapT OrderId Order)
    (ipos : MapT VehicleId FactoryId) (d : Int) (s0 : SimState)
    (hcaps : ∀ v info, mget vehicles v = some info → 0 ≤ info.capacityBoxes)
    (h : initState routes0 factories vehicles orders ipos d = some s0) :
    CapInv s0 := by
  unfold initState at h
  simp only [Option.bind_eq_bind, Option.bind_eq_some, Option.pure_def,
    Option.some.injEq] at h
  obtain ⟨vs, hvs, hs0⟩ := h
  subst hs0
  intro v info st hv hst
  dsimp only at hv hst ⊢
  obtain ⟨p, hp⟩ := initVehicleStates_shape ipos vehicles [] vs
    (fun kv hkv => absurd hkv (List.not_mem_nil kv)) hvs (v, st)
    (mget_mem vs v st hst)
  rw [show (v, st).2 = st from rfl] at hp
  subst hp
  have hc := hcaps v info hv
  exact ⟨⟨0, rfl, hc, trivial⟩, ⟨0, rfl, hc⟩⟩

/-- C6: the capacity invariant.  In every state reachable by the event
loop from `Simulator::new` — with non-negative normalized capacities in
the vehicle catalog, and schedulers whose plans list each vehicle at most
once (the key uniqueness of the `BTreeMap` a real `Plan` is) — every
vehicle's `item_stack` demand sum and `allocated_item_stack` demand sum
are defined and at most its normalized capacity (`capacity * 4`). -/
theorem capacity_invariant
    (routes0 : MapT (FactoryId × FactoryId) SingleRoute)
    (factories : MapT FactoryId FactoryInfo)
    (vehicles : MapT VehicleId VehicleInfo) (orders : MapT OrderId Order)
    (ipos : MapT VehicleId FactoryId) (d : Int)
    (sched : SchedulerFn) (wall : Nat → Nat) (n : Nat) (s0 s' : SimState)
    (hcaps : ∀ v info, mget vehicles v = some info → 0 ≤ info.capacityBoxes)
    (hnodup : ∀ args, ((sched args).map Prod.fst).Nodup)
    (hinit : initState routes0 factories vehicles orders ipos d = some s0)
    (hrun : stepN sched wall n s0 = some s') :
    ∀ v info st, mget s'.vehicles v = some info →
      mget s'.vehicle_states v = some st →
      (∃ ti, sumDemands s'.order_items st.item_stack = some ti ∧
        ti ≤ info.capacityBoxes) ∧
      (∃ ta, sumDemands s'.order_items st.allocated_item_stack = some ta ∧
        ta ≤ info.capacityBoxes) := by
  have hinv : CapInv s' :=
    capInv_stepN sched wall hnodup n s0 s' hrun
      (capInv_init routes0 factories vehicles orders ipos d s0 hcaps hinit)
  intro v info st hv hst
  obtain ⟨⟨ta, hta, hle, _⟩, hitem⟩ := hinv v info st hv hst
  exact ⟨hitem, ⟨ta, hta, hle⟩⟩

theorem c6caps :
    ∀ v info, mget c5Vehicles v = some info → 0 ≤ info.capacityBoxes := by
  intro v info hv
  unfold c5Vehicles at hv
  rw [mget_cons] at hv
  split at hv
  · obtain rfl := Option.some.inj hv
    decide
  · rw [mget_cons] at hv
    split at hv
    · obtain rfl := Option.some.inj hv
      decide
    · rw [mget_nil] at hv
      cases hv

theorem c6nodup : ∀ args, ((c5Sched args).map Prod.fst).Nodup := by
  intro args
  show (c5Plan.map Prod.fst).Nodup
  decide

/-- C6 (witness): the capacity bound at the concrete two-vehicle
scenario from `Simulator::new`. -/
theorem capacity_invariant_witness :
    (∀ v info, mget c5Vehicles v = some info → 0 ≤ info.capacityBoxes) ∧
    (∀ args, ((c5Sched args).map Prod.fst).Nodup) ∧
    initState c5Routes c5Factories c5Vehicles [] c5IPos 0 = some c5S0 ∧
    stepN c5Sched (fun _ => 0) 0 c5S0 = some c5S0 ∧
    (∀ v info st, mget c5S0.vehicles v = some info →
      mget c5S0.vehicle_states v = some st →
      (∃ ti, sumDemands c5S0.order_items st.item_stack = some ti ∧
        ti ≤ info.capacityBoxes) ∧
      (∃ ta, sumDemands c5S0.order_items st.allocated_item_stack = some ta ∧
        ta ≤ info.capacityBoxes)) :=
  ⟨c6caps, c6nodup, rfl, rfl,
   capacity_invariant c5Routes c5Factories c5Vehicles [] c5IPos 0
     c5Sched (fun _ => 0) 0 c5S0 c5S0 c6caps c6nodup rfl rfl⟩
